import Mathlib

/-!
# Gantt chart generator: dependency-graph engine

A shallow embedding of `src/main.c` (task store, cycle detection, longest
dependency chain, transactional create and edit) together with theorems
about it.

Conventions of the embedding.

* C `int` values are `Int`; every value the program computes stays far
  below the 32-bit range (indices and counters bounded by 10, months by 12),
  so no wrap-around is modelled.
* A C array is a `List`; reading or writing outside the list is undefined
  behaviour in C and is `none` here (`rd`, `wr`).
* A recursive C function takes a `fuel : Nat` bounding the recursion depth;
  running out of fuel is `none` as well.  The theorems show that the fuel
  used by the callers is enough.
* Console input is a parameter: the value that `readIntInRange` eventually
  returns, or the token that `scanf("%24s")` stores.
* Console output that matters (the reported edges, the outcome messages) is
  returned as a value.
-/

set_option linter.unusedVariables false

namespace Gantt

/-! ## Constants and data model (main.c lines 7-30) -/

/-- Constant `TASK_SIZE` (`#define TASK_SIZE 25`). -/
def TASK_SIZE : Nat := 25

/-- Constant `NO_OF_TASKS` (`#define NO_OF_TASKS 10`). -/
def NO_OF_TASKS : Nat := 10

/-- Constant `NO_OF_MONTHS` (`#define NO_OF_MONTHS 12`). -/
def NO_OF_MONTHS : Nat := 12

/-- The record `Task`: `dependencies` is the array `int dependencies[NO_OF_TASKS]`,
of which only the first `numDependencies` entries are in use. -/
structure Task where
  name : String
  startMonth : Int
  endMonth : Int
  dependencies : List Int
  numDependencies : Int
deriving DecidableEq

/-- Array read `a[i]` with a C `int` index; `none` outside the array. -/
def rd {α : Type} (a : List α) (i : Int) : Option α :=
  if 0 ≤ i then a[i.toNat]? else none

/-- Array write `a[i] = v` with a C `int` index; `none` outside the array. -/
def wr {α : Type} (a : List α) (i : Int) (v : α) : Option (List α) :=
  if 0 ≤ i ∧ i.toNat < a.length then some (a.set i.toNat v) else none

/-! ## Cycle detection (main.c lines 342-382) -/

/-- The two mark arrays of the cycle detector and the edges it has printed.
An entry `(current, dep)` of `output` stands for the line
`Circular dependency detected: <name> (current+1) -> <name> (dep+1)`. -/
structure CycleState where
  visited : List Int
  recursionStack : List Int
  output : List (Int × Int)
deriving DecidableEq

/-- The `printf` of `isCyclicUtil`: it reads `tasks[current].name` and
`tasks[dep].name` and reports the edge `current -> dep`. -/
def reportEdge (tasks : List Task) (current dep : Int) (st : CycleState) :
    Option CycleState := do
  let _ ← rd tasks current
  let _ ← rd tasks dep
  pure { st with output := st.output ++ [(current, dep)] }

/-- The `for` loop of `isCyclicUtil` over the dependencies of `t = tasks[current]`,
at index `i` with `k` iterations left.  `call` is the recursive call.
The result `1` is the early `return 1`; `0` means the loop ran to its end. -/
def isCyclicUtilLoop (call : Int → CycleState → Option (Int × CycleState))
    (tasks : List Task) (current : Int) (t : Task) :
    Nat → Nat → CycleState → Option (Int × CycleState)
  | 0, _, st => some (0, st)
  | k + 1, i, st => do
    let dep ← t.dependencies[i]?
    let v ← rd st.visited dep
    if v = 0 then
      let (r, st1) ← call dep st
      if r ≠ 0 then
        let st2 ← reportEdge tasks current dep st1
        pure (1, st2)
      else
        isCyclicUtilLoop call tasks current t k (i + 1) st1
    else
      let s ← rd st.recursionStack dep
      if s ≠ 0 then
        let st2 ← reportEdge tasks current dep st
        pure (1, st2)
      else
        isCyclicUtilLoop call tasks current t k (i + 1) st

/-- The function `isCyclicUtil` (lines 358-382).  The parameter `numOfTasks` is
unused, as in the source. -/
def isCyclicUtil (tasks : List Task) (numOfTasks : Int) :
    Nat → Int → CycleState → Option (Int × CycleState)
  | 0, _, _ => none
  | fuel + 1, current, st => do
    let visited ← wr st.visited current 1
    let recursionStack ← wr st.recursionStack current 1
    let t ← rd tasks current
    let (r, st1) ← isCyclicUtilLoop (isCyclicUtil tasks numOfTasks fuel) tasks current t
      t.numDependencies.toNat 0
      { st with visited := visited, recursionStack := recursionStack }
    if r ≠ 0 then
      pure (1, st1)
    else
      let recursionStack1 ← wr st1.recursionStack current 0
      pure (0, { st1 with recursionStack := recursionStack1 })

/-- The `for` loop of `detectCircularDependency` at index `i` with `k`
iterations left.  The recursion budget `NO_OF_TASKS` is enough: every nested call
of `isCyclicUtil` sets a further entry of the 10-element array `visited`
(`detectRun_spec`). -/
def detectLoop (tasks : List Task) (numOfTasks : Int) :
    Nat → Nat → CycleState → Option (Int × CycleState)
  | 0, _, st => some (0, st)
  | k + 1, i, st => do
    let v ← rd st.visited i
    if v = 0 then
      let (r, st1) ← isCyclicUtil tasks numOfTasks NO_OF_TASKS i st
      if r ≠ 0 then pure (1, st1) else detectLoop tasks numOfTasks k (i + 1) st1
    else
      detectLoop tasks numOfTasks k (i + 1) st

/-- The arrays `visited` and `stack` of `detectCircularDependency`, zeroed. -/
def initCycleState : CycleState :=
  { visited := List.replicate NO_OF_TASKS 0
    recursionStack := List.replicate NO_OF_TASKS 0
    output := [] }

/-- The function `detectCircularDependency` with its final mark arrays and output. -/
def detectRun (tasks : List Task) (numOfTasks : Int) : Option (Int × CycleState) :=
  detectLoop tasks numOfTasks numOfTasks.toNat 0 initCycleState

/-- The function `detectCircularDependency` (lines 342-352): its return value. -/
def detectCircularDependency (tasks : List Task) (numOfTasks : Int) : Option Int :=
  (detectRun tasks numOfTasks).map (fun p => p.1)

/-- The edges printed during `detectCircularDependency`, in printing order. -/
def detectOutput (tasks : List Task) (numOfTasks : Int) : Option (List (Int × Int)) :=
  (detectRun tasks numOfTasks).map (fun p => p.2.output)

/-! ## Longest dependency chain (main.c lines 388-438) -/

/-- The arrays and the counter that `findCriticalPath` updates through pointers. -/
structure PathState where
  currentPath : List Int
  maxLength : Int
  bestPath : List Int
  visited : List Int
deriving DecidableEq

/-- The copy loop `for (i = 0; i < chainLength; i++) bestPath[i] = currentPath[i]`,
at index `i` with `k` iterations left. -/
def copyPath (currentPath : List Int) : Nat → Nat → List Int → Option (List Int)
  | 0, _, bestPath => some bestPath
  | k + 1, i, bestPath => do
    let x ← currentPath[i]?
    let bestPath1 ← wr bestPath i x
    copyPath currentPath k (i + 1) bestPath1

/-- The `for` loop of `findCriticalPath` over the dependencies of `t = tasks[current]`,
at index `i` with `k` iterations left.  `call` is the recursive call. -/
def findCriticalPathLoop (call : Int → PathState → Option PathState)
    (t : Task) (numOfTasks : Int) : Nat → Nat → PathState → Option PathState
  | 0, _, st => some st
  | k + 1, i, st => do
    let dep ← t.dependencies[i]?
    if 0 ≤ dep ∧ dep < numOfTasks then
      let st1 ← call dep st
      findCriticalPathLoop call t numOfTasks k (i + 1) st1
    else
      findCriticalPathLoop call t numOfTasks k (i + 1) st

/-- The update of the best path in `findCriticalPath` (lines 397-400):
`if (chainLength > *maxLength)` the new length is stored and the current path
copied. -/
def recordBest (st : PathState) (chainLength : Int) : Option PathState :=
  if chainLength > st.maxLength then do
    let bestPath ← copyPath st.currentPath chainLength.toNat 0 st.bestPath
    pure { st with maxLength := chainLength, bestPath := bestPath }
  else
    pure st

/-- The function `findCriticalPath` (lines 388-410). -/
def findCriticalPath (tasks : List Task) (numOfTasks : Int) :
    Nat → Int → Int → PathState → Option PathState
  | 0, _, _, _ => none
  | fuel + 1, current, chainLength, st => do
    let v ← rd st.visited current
    if v ≠ 0 then
      pure st
    else
      let visited ← wr st.visited current 1
      let currentPath ← wr st.currentPath chainLength current
      let chainLength1 := chainLength + 1
      let st1 : PathState := { st with visited := visited, currentPath := currentPath }
      let st2 ← recordBest st1 chainLength1
      let t ← rd tasks current
      let st3 ← findCriticalPathLoop
        (fun dep s => findCriticalPath tasks numOfTasks fuel dep chainLength1 s)
        t numOfTasks t.numDependencies.toNat 0 st2
      let visited1 ← wr st3.visited current 0
      pure { st3 with visited := visited1 }

/-- The arrays of `testCriticalPath`, zeroed, and `maxLength = 0`. -/
def initPathState : PathState :=
  { currentPath := List.replicate NO_OF_TASKS 0
    maxLength := 0
    bestPath := List.replicate NO_OF_TASKS 0
    visited := List.replicate NO_OF_TASKS 0 }

/-- The printing loop of `testCriticalPath`: it reads `tasks[bestPath[i]].name`
for `i < maxLength`; the result is the list of the indices `bestPath[i]`. -/
def printPath (tasks : List Task) (bestPath : List Int) : Nat → Nat → Option (List Int)
  | 0, _ => some []
  | k + 1, i => do
    let x ← bestPath[i]?
    let _ ← rd tasks x
    let rest ← printPath tasks bestPath k (i + 1)
    pure (x :: rest)

/-- The call of `findCriticalPath` made by `testCriticalPath` for the start
index `start` (lines 419-424), with the final arrays.  The recursion budget
`NO_OF_TASKS + 1` is enough: every nested call that passes the `visited` check
sets a further entry of the 10-element array `visited` (`criticalPathRun_spec`). -/
def criticalPathRun (tasks : List Task) (numOfTasks : Int) (start : Int) : Option PathState :=
  findCriticalPath tasks numOfTasks (NO_OF_TASKS + 1) start 0 initPathState

/-- The function `testCriticalPath` (lines 416-438).  `startNumber` is the value
returned by `readIntInRange` with the range `1..numOfTasks`.  The result is the printed
chain (as task indices) and the result of the final cycle check. -/
def testCriticalPath (tasks : List Task) (numOfTasks : Int) (startNumber : Int) :
    Option (List Int × Int) := do
  let st ← criticalPathRun tasks numOfTasks (startNumber - 1)
  let path ← printPath tasks st.bestPath st.maxLength.toNat 0
  let r ← detectCircularDependency tasks numOfTasks
  pure (path, r)

/-! ## Console input of one task (main.c lines 230-249 and 275-293) -/

/-- The validated console input for one task: the name token, the two months
and the entered dependency numbers (1-based); the entered dependency count is
the length of `depNums`. -/
structure TaskInput where
  name : String
  startMonth : Int
  endMonth : Int
  depNums : List Int
deriving DecidableEq

/-- What the input loops guarantee about one task read while the store holds
(or will hold) `numOfTasks` tasks: months in `1..12`, end not before start,
between `0` and `numOfTasks` dependencies, each a task number in `1..numOfTasks`. -/
def TaskInput.Valid (numOfTasks : Int) (input : TaskInput) : Prop :=
  1 ≤ input.startMonth ∧ input.startMonth ≤ 12 ∧
  1 ≤ input.endMonth ∧ input.endMonth ≤ 12 ∧
  input.startMonth ≤ input.endMonth ∧
  (input.depNums.length : Int) ≤ numOfTasks ∧
  ∀ d ∈ input.depNums, 1 ≤ d ∧ d ≤ numOfTasks

instance (numOfTasks : Int) (input : TaskInput) : Decidable (input.Valid numOfTasks) := by
  unfold TaskInput.Valid; infer_instance

/-- The loop `for (j = 0; j < numDependencies; j++) dependencies[j] = depNum - 1`
at index `j`, one iteration per entered number. -/
def writeDependencies : List Int → Nat → List Int → Option (List Int)
  | [], _, deps => some deps
  | depNum :: rest, j, deps => do
    let deps1 ← wr deps j (depNum - 1)
    writeDependencies rest (j + 1) deps1

/-- Reading one task from the console into the record `t` in place: name,
months and dependency count are overwritten, and so are the first
`numDependencies` entries of the dependency array; the other entries stay. -/
def readTask (t : Task) (input : TaskInput) : Option Task := do
  let deps ← writeDependencies input.depNums 0 t.dependencies
  pure { name := input.name
         startMonth := input.startMonth
         endMonth := input.endMonth
         dependencies := deps
         numDependencies := input.depNums.length }

/-! ## Editing (main.c lines 211-265) -/

/-- The message with which `editTask` ends. -/
inductive EditOutcome where
  | noTasks
  | updated
  | reverted
  | notFound
deriving DecidableEq

/-- The search loop of `editTask` at index `i` with `k` iterations left. -/
def editTaskLoop (numOfTasks : Int) (taskToEdit : String) (input : TaskInput) :
    Nat → Nat → List Task → Option (List Task × EditOutcome)
  | 0, _, tasks => some (tasks, EditOutcome.notFound)
  | k + 1, i, tasks => do
    let t ← tasks[i]?
    if taskToEdit = t.name then
      let backup := t
      let t1 ← readTask t input
      let tasks1 := tasks.set i t1
      let r ← detectCircularDependency tasks1 numOfTasks
      if r ≠ 0 then
        pure (tasks1.set i backup, EditOutcome.reverted)
      else
        pure (tasks1, EditOutcome.updated)
    else
      editTaskLoop numOfTasks taskToEdit input k (i + 1) tasks

/-- The function `editTask` (lines 211-265): `taskToEdit` is the name typed
by the user, `input` the new fields. -/
def editTask (tasks : List Task) (numOfTasks : Int) (taskToEdit : String)
    (input : TaskInput) : Option (List Task × EditOutcome) :=
  if numOfTasks = 0 then some (tasks, EditOutcome.noTasks)
  else editTaskLoop numOfTasks taskToEdit input numOfTasks.toNat 0 tasks

/-! ## Creation (main.c lines 271-303) -/

/-- The input loop of `createGantt` at index `i`, one iteration per task. -/
def createGanttLoop : Nat → Nat → List TaskInput → List Task → Option (List Task)
  | 0, _, _, tasks => some tasks
  | k + 1, i, inputs, tasks => do
    let input ← inputs.head?
    let t ← tasks[i]?
    let t1 ← readTask t input
    createGanttLoop k (i + 1) inputs.tail (tasks.set i t1)

/-- The function `createGantt` (lines 271-303): `count` is the value returned by
`readIntInRange` with the range `1..10`, `inputs` the tasks typed by the user.
The result is the task array and the new `*numOfTasks`. -/
def createGantt (tasks : List Task) (count : Int) (inputs : List TaskInput) :
    Option (List Task × Int) := do
  let tasks1 ← createGanttLoop count.toNat 0 inputs tasks
  let r ← detectCircularDependency tasks1 count
  if r ≠ 0 then pure (tasks1, 0) else pure (tasks1, count)

/-! ## The demo dataset (main.c lines 167-205) -/

/-- Enumerator `JAN = 1` of `Month`. -/
def JAN : Int := 1

/-- Enumerator `FEB = 2` of `Month`. -/
def FEB : Int := 2

/-- Enumerator `MAR = 3` of `Month`. -/
def MAR : Int := 3

/-- Enumerator `APR = 4` of `Month`. -/
def APR : Int := 4

/-- Enumerator `MAY = 5` of `Month`. -/
def MAY : Int := 5

/-- Enumerator `JUN = 6` of `Month`. -/
def JUN : Int := 6

/-- Enumerator `JUL = 7` of `Month`. -/
def JUL : Int := 7

/-- Enumerator `AUG = 8` of `Month`. -/
def AUG : Int := 8

/-- Enumerator `SEP = 9` of `Month`. -/
def SEP : Int := 9

/-- Enumerator `OCT = 10` of `Month`. -/
def OCT : Int := 10

/-- Enumerator `NOV = 11` of `Month`. -/
def NOV : Int := 11

/-- Enumerator `DEC = 12` of `Month`. -/
def DEC : Int := 12

/-- The assignments `dependencies[j] = v`, `dependencies[j+1] = ...` of
`loadTestTasks` for one task. -/
def storeDependencies : List Int → Nat → List Int → Option (List Int)
  | [], _, deps => some deps
  | v :: rest, j, deps => do
    let deps1 ← wr deps j v
    storeDependencies rest (j + 1) deps1

/-- One block of `loadTestTasks`: name, months, dependency count and the
listed dependency entries of `tasks[i]`. -/
def loadTask (tasks : List Task) (i : Nat) (name : String) (startMonth endMonth : Int)
    (deps : List Int) : Option (List Task) := do
  let t ← tasks[i]?
  let dependencies ← storeDependencies deps 0 t.dependencies
  pure (tasks.set i
    { name := name
      startMonth := startMonth
      endMonth := endMonth
      dependencies := dependencies
      numDependencies := deps.length })

/-- The function `loadTestTasks` (lines 167-205): the task array and the new
`*numOfTasks`. -/
def loadTestTasks (tasks : List Task) : Option (List Task × Int) := do
  let t0 ← loadTask tasks 0 "Research" JAN MAR []
  let t1 ← loadTask t0 1 "Budget_Planning" FEB MAY []
  let t2 ← loadTask t1 2 "Interior_design" MAR JUN [0, 1]
  let t3 ← loadTask t2 3 "Site_Analysis" APR JUL [2]
  let t4 ← loadTask t3 4 "Design_Development" MAY AUG []
  let t5 ← loadTask t4 5 "Fixture_Selection" JUN SEP [3]
  let t6 ← loadTask t5 6 "Permits_Approvals" JUL OCT [5]
  let t7 ← loadTask t6 7 "Construction_phase" AUG NOV [6]
  let t8 ← loadTask t7 8 "Interior_Finishing" SEP DEC []
  let t9 ← loadTask t8 9 "Final_Inspection" OCT DEC [7, 8]
  pure (t9, 10)

/-! ## Specification vocabulary: the dependency graph -/

/-- The dependency list of task `i`: the first `numDependencies` entries of its
dependency array (empty when `i` is not an index of the array). -/
def depsOf (tasks : List Task) (i : Int) : List Int :=
  match rd tasks i with
  | some t => t.dependencies.take t.numDependencies.toNat
  | none => []

/-- A dependency edge `a -> b`: `b` occurs in the dependency list of `a`. -/
def Edge (tasks : List Task) (a b : Int) : Prop := b ∈ depsOf tasks a

/-- The dependency graph contains a cycle: some task below `numTasks` reaches
itself by a non-empty sequence of dependency edges. -/
def HasCycle (tasks : List Task) (numTasks : Int) : Prop :=
  ∃ i, 0 ≤ i ∧ i < numTasks ∧ Relation.TransGen (Edge tasks) i i

/-- The C types of the store: `Task tasks[NO_OF_TASKS]`, each task with
`int dependencies[NO_OF_TASKS]`. -/
def Shaped (tasks : List Task) : Prop :=
  tasks.length = NO_OF_TASKS ∧ ∀ t ∈ tasks, t.dependencies.length = NO_OF_TASKS

/-- A well-formed store: `numTasks <= 10`, and every task below `numTasks` has
at most 10 dependencies, each in `[0, numTasks)`. -/
def WellFormed (tasks : List Task) (numTasks : Int) : Prop :=
  Shaped tasks ∧ numTasks ≤ 10 ∧
  ∀ t ∈ tasks.take numTasks.toNat, t.numDependencies ≤ 10 ∧
    ∀ d ∈ t.dependencies.take t.numDependencies.toNat, 0 ≤ d ∧ d < numTasks

instance (tasks : List Task) : Decidable (Shaped tasks) := by
  unfold Shaped; infer_instance

instance (tasks : List Task) (numTasks : Int) : Decidable (WellFormed tasks numTasks) := by
  unfold WellFormed; infer_instance

/-- The mark of index `i` in a mark array is set (non-zero). -/
def Marked (a : List Int) (i : Int) : Prop := ∃ v, rd a i = some v ∧ v ≠ 0

/-! ## Proof vocabulary: cycle detection -/

/-- The loop of `isCyclicUtil` run over a list of dependency values instead of
an index range; `isCyclicUtilLoop_eq` relates the two. -/
def cyclicOver (call : Int → CycleState → Option (Int × CycleState))
    (tasks : List Task) (current : Int) : List Int → CycleState → Option (Int × CycleState)
  | [], st => some (0, st)
  | dep :: rest, st => do
    let v ← rd st.visited dep
    if v = 0 then
      let (r, st1) ← call dep st
      if r ≠ 0 then
        let st2 ← reportEdge tasks current dep st1
        pure (1, st2)
      else
        cyclicOver call tasks current rest st1
    else
      let s ← rd st.recursionStack dep
      if s ≠ 0 then
        let st2 ← reportEdge tasks current dep st
        pure (1, st2)
      else
        cyclicOver call tasks current rest st

/-- Shape of the two mark arrays, and every task on the recursion stack is
marked visited. -/
structure CycInv (st : CycleState) : Prop where
  lenV : st.visited.length = NO_OF_TASKS
  lenS : st.recursionStack.length = NO_OF_TASKS
  sub : ∀ i, Marked st.recursionStack i → Marked st.visited i

/-- A fully explored task: visited and no longer on the recursion stack. -/
def Black (st : CycleState) (i : Int) : Prop :=
  Marked st.visited i ∧ ¬ Marked st.recursionStack i

/-- Every fully explored task has only fully explored dependencies and lies on
no cycle. -/
def BlackOK (tasks : List Task) (n : Int) (st : CycleState) : Prop :=
  ∀ i, 0 ≤ i → i < n → Black st i →
    (∀ d ∈ depsOf tasks i, Black st d) ∧ ¬ Relation.TransGen (Edge tasks) i i

/-- Every task on the recursion stack reaches `c` along dependency edges. -/
def GrayReach (tasks : List Task) (st : CycleState) (c : Int) : Prop :=
  ∀ g, Marked st.recursionStack g → Relation.ReflTransGen (Edge tasks) g c

/-- What a part of the search that found no cycle does to the state. -/
structure StepOK (tasks : List Task) (n : Int) (st st' : CycleState) : Prop where
  inv : CycInv st'
  stack : st'.recursionStack = st.recursionStack
  mono : ∀ i, Marked st.visited i → Marked st'.visited i
  count : st'.visited.count 0 ≤ st.visited.count 0
  out : st'.output = st.output
  black : BlackOK tasks n st → BlackOK tasks n st'

/-- Specification of one call of `isCyclicUtil` with recursion budget `fuel`
on an unvisited task `c`. -/
def CallSpec (tasks : List Task) (n : Int) (fuel : Nat) : Prop :=
  ∀ (c : Int) (st : CycleState), 0 ≤ c → c < n → rd st.visited c = some 0 → CycInv st →
    st.visited.count 0 ≤ fuel →
    ∃ r st', isCyclicUtil tasks n fuel c st = some (r, st') ∧
      ((r = 0 ∧ StepOK tasks n st st' ∧ Marked st'.visited c) ∨
       (r = 1 ∧ (GrayReach tasks st c → HasCycle tasks n)))

/-- The state of `isCyclicUtil` after its two opening assignments. -/
def pushMarks (st : CycleState) (c : Int) : CycleState :=
  { st with visited := st.visited.set c.toNat 1,
            recursionStack := st.recursionStack.set c.toNat 1 }

/-- What `detectCircularDependency` computes on a well-formed store. -/
def DetectPost (tasks : List Task) (n : Int) (st : CycleState) (r : Int) (st' : CycleState) :
    Prop :=
  (r = 0 ∧ st'.output = st.output ∧ ¬ HasCycle tasks n) ∨ (r = 1 ∧ HasCycle tasks n)

/-! ## Example stores -/

instance (tasks : List Task) (a b : Int) : Decidable (Edge tasks a b) := by
  unfold Edge; infer_instance

/-- A task record with every field zero: stands for the not yet written
entries of the array `tasks` of `main`. -/
def blankTask : Task :=
  { name := "", startMonth := 0, endMonth := 0,
    dependencies := List.replicate NO_OF_TASKS 0, numDependencies := 0 }

/-- The array `Task tasks[NO_OF_TASKS]` of `main` before anything is stored. -/
def blankTasks : List Task := List.replicate NO_OF_TASKS blankTask

/-- The task array after `loadTestTasks`. -/
def demoTasks : List Task :=
  match loadTestTasks blankTasks with
  | some p => p.1
  | none => []

/-- The task array after the input loop of `createGantt` has stored `inputs`. -/
def storeOf (inputs : List TaskInput) : List Task :=
  match createGanttLoop inputs.length 0 inputs blankTasks with
  | some tasks => tasks
  | none => []

/-- Two tasks that depend on each other: task 1 on task 2 and task 2 on task 1. -/
def twoCycleTasks : List Task :=
  storeOf [⟨"a", 1, 1, [2]⟩, ⟨"b", 1, 1, [1]⟩]

/-- Console input for a creation of two tasks: task number 1 depends on task
number 2, task number 2 depends on itself. -/
def tailInputs : List TaskInput := [⟨"a", 1, 1, [2]⟩, ⟨"b", 1, 1, [2]⟩]

/-- The task array holding `tailInputs`: task 0 depends on task 1, task 1 on itself. -/
def tailTasks : List Task := storeOf tailInputs

/-! ## Specification vocabulary: edit and create -/

/-- The fields of the stored task `t` are those of the console input `input`:
name, months, dependency count, and as dependency list the entered numbers
minus one. -/
def Matches (t : Task) (input : TaskInput) : Prop :=
  t.name = input.name ∧ t.startMonth = input.startMonth ∧ t.endMonth = input.endMonth ∧
  t.numDependencies = input.depNums.length ∧
  t.dependencies.take input.depNums.length = input.depNums.map (fun d => d - 1)

instance (t : Task) (input : TaskInput) : Decidable (Matches t input) := by
  unfold Matches; infer_instance

/-- Index `i` is the lowest index below `numOfTasks` whose task is named `name`. -/
def IsFirstMatch (tasks : List Task) (numOfTasks : Int) (name : String) (i : Nat) : Prop :=
  i < numOfTasks.toNat ∧ (∃ t, tasks[i]? = some t ∧ t.name = name) ∧
  ∀ j, j < i → ∀ u, tasks[j]? = some u → u.name ≠ name

/-- The new fields typed in the edit of the demo scenario: task "Research"
gets task number 3 ("Interior_design") as its only dependency. -/
def researchEdit : TaskInput := ⟨"Research", 1, 3, [3]⟩

/-- A harmless edit of the demo dataset: "Budget_Planning" is renamed and moved. -/
def budgetEdit : TaskInput := ⟨"Budget", 3, 6, [1]⟩

/-- The demo task array after `budgetEdit` has been written into task 1. -/
def budgetEdited : List Task :=
  demoTasks.set 1
    { name := "Budget", startMonth := 3, endMonth := 6,
      dependencies := [0, 0, 0, 0, 0, 0, 0, 0, 0, 0], numDependencies := 1 }

/-! ## Specification vocabulary: sessions -/

/-- Console input for a creation of two tasks that depend on each other. -/
def twoInputs : List TaskInput := [⟨"a", 1, 1, [2]⟩, ⟨"b", 1, 1, [1]⟩]

/-- The fields in use of two task records agree: name, months, dependency count
and dependency list (the unused tail of the dependency array may differ). -/
def SameUsed (t r : Task) : Prop :=
  t.name = r.name ∧ t.startMonth = r.startMonth ∧ t.endMonth = r.endMonth ∧
  t.numDependencies = r.numDependencies ∧
  t.dependencies.take r.numDependencies.toNat = r.dependencies.take r.numDependencies.toNat

/-- The first `k` tasks of `tasks` agree with those of `ref` on the fields in use. -/
def AgreeBelow (tasks ref : List Task) (k : Nat) : Prop :=
  ∀ m, m < k → ∃ t r, tasks[m]? = some t ∧ ref[m]? = some r ∧ SameUsed t r

/-- The store of `main`: the task array and `numOfTasks`. -/
structure Store where
  tasks : List Task
  numTasks : Int
deriving DecidableEq

/-- One operation of the menu loop with its validated console input. -/
inductive Op where
  | create (count : Int) (inputs : List TaskInput)
  | edit (taskToEdit : String) (input : TaskInput)
deriving DecidableEq

/-- The input of an operation is validated for a store holding `numTasks` tasks:
for `create` a count in `1..10` and that many tasks valid for the count, for
`edit` new fields valid for `numTasks`. -/
def Op.Valid (numTasks : Int) : Op → Prop
  | Op.create count inputs =>
      1 ≤ count ∧ count ≤ 10 ∧ inputs.length = count.toNat ∧ ∀ inp ∈ inputs, inp.Valid count
  | Op.edit _ input => input.Valid numTasks

/-- One operation run to completion on the store, as `welcomeScreen` calls it:
`createGantt(tasks, numOfTasks)` or `editTask(tasks, *numOfTasks)`. -/
def step (s : Store) : Op → Option Store
  | Op.create count inputs =>
      (createGantt s.tasks count inputs).map (fun p => { tasks := p.1, numTasks := p.2 })
  | Op.edit taskToEdit input =>
      (editTask s.tasks s.numTasks taskToEdit input).map
        (fun p => { tasks := p.1, numTasks := s.numTasks })

/-- A finite sequence of operations run one after the other. -/
def run : Store → List Op → Option Store
  | s, [] => some s
  | s, op :: ops => (step s op).bind (fun s1 => run s1 ops)

/-- Every operation of the sequence has input validated for the store it runs on.
(An `edit` whose name is not found reads no further input; it is represented
with any valid `input`.) -/
def ValidFrom : Store → List Op → Prop
  | _, [] => True
  | s, op :: ops =>
      op.Valid s.numTasks ∧
        match step s op with
        | some s1 => ValidFrom s1 ops
        | none => True

/-- A store the menu loop can start from: the empty store (`numOfTasks = 0`,
array contents arbitrary) or the result of `loadTestTasks`. -/
def Initial (s : Store) : Prop :=
  (Shaped s.tasks ∧ s.numTasks = 0) ∨
  ∃ tasks0, Shaped tasks0 ∧ loadTestTasks tasks0 = some (s.tasks, s.numTasks)

/-- The store is well-formed and passes the cycle check. -/
def Consistent (s : Store) : Prop :=
  WellFormed s.tasks s.numTasks ∧ detectCircularDependency s.tasks s.numTasks = some 0

instance (numTasks : Int) : (op : Op) → Decidable (op.Valid numTasks)
  | Op.create count inputs => by unfold Op.Valid; infer_instance
  | Op.edit _ input => by unfold Op.Valid; infer_instance

/-- `ValidFrom` is decidable: the sequence is run and each input checked. -/
def decValidFrom : (s : Store) → (ops : List Op) → Decidable (ValidFrom s ops)
  | _, [] => isTrue trivial
  | s, op :: ops =>
    if hv : op.Valid s.numTasks then
      match hs : step s op with
      | some s1 =>
        match decValidFrom s1 ops with
        | isTrue h => isTrue ⟨hv, by rw [hs]; exact h⟩
        | isFalse h => isFalse (fun hh => h (by have h2 := hh.2; rw [hs] at h2; exact h2))
      | none => isTrue ⟨hv, by rw [hs]; trivial⟩
    else isFalse (fun hh => hv hh.1)

instance (s : Store) (ops : List Op) : Decidable (ValidFrom s ops) := decValidFrom s ops

/-- The store after `loadTestTasks`. -/
def demoStore : Store := { tasks := demoTasks, numTasks := 10 }

/-- A session on the demo dataset: an edit that closes the cycle 0 -> 2 -> 0 and
is rolled back, an edit that is committed, and a creation of two tasks that
depend on each other, which is cancelled. -/
def demoSession : List Op :=
  [Op.edit "Research" researchEdit, Op.edit "Budget_Planning" budgetEdit, Op.create 2 twoInputs]

/-! ## Proof vocabulary: longest chain -/

/-- The loop of `findCriticalPath` run over a list of dependency values instead
of an index range; `findCriticalPathLoop_eq` relates the two. -/
def pathOver (call : Int → PathState → Option PathState) (numOfTasks : Int) :
    List Int → PathState → Option PathState
  | [], st => some st
  | dep :: rest, st => do
    if 0 ≤ dep ∧ dep < numOfTasks then
      let st1 ← call dep st
      pathOver call numOfTasks rest st1
    else
      pathOver call numOfTasks rest st

/-- A dependency chain of valid task indices that starts at `start`. -/
def GoodPath (tasks : List Task) (n : Int) (start : Int) (q : List Int) : Prop :=
  q.head? = some start ∧ List.Chain' (Edge tasks) q ∧ ∀ x ∈ q, 0 ≤ x ∧ x < n

/-- The stored best path is consistent: `maxLength` is between 0 and 10 and, when
positive, the first `maxLength` entries of `bestPath` are a chain from `start`. -/
def BestOK (tasks : List Task) (n : Int) (start : Int) (st : PathState) : Prop :=
  0 ≤ st.maxLength ∧ st.maxLength ≤ 10 ∧
  (0 < st.maxLength → GoodPath tasks n start (st.bestPath.take st.maxLength.toNat))

/-- The state of the chain search while the current chain is `p`: array shapes,
`currentPath` starts with `p`, exactly the tasks of `p` are marked, and `p` is a
chain of distinct valid indices. -/
structure PathInv (tasks : List Task) (n : Int) (st : PathState) (p : List Int) : Prop where
  lenC : st.currentPath.length = NO_OF_TASKS
  lenB : st.bestPath.length = NO_OF_TASKS
  lenV : st.visited.length = NO_OF_TASKS
  cur : st.currentPath.take p.length = p
  marks : ∀ i, Marked st.visited i ↔ i ∈ p
  nodup : p.Nodup
  nodes : ∀ x ∈ p, 0 ≤ x ∧ x < n
  chain : List.Chain' (Edge tasks) p

/-- What a part of the chain search does to the state when the current chain
has `k` tasks: marks restored, the first `k` entries of `currentPath` kept,
`maxLength` not decreased, the best path still consistent. -/
structure PathStep (tasks : List Task) (n : Int) (start : Int) (k : Nat)
    (st st' : PathState) : Prop where
  vis : st'.visited = st.visited
  cur : st'.currentPath.take k = st.currentPath.take k
  lenC : st'.currentPath.length = st.currentPath.length
  lenB : st'.bestPath.length = st.bestPath.length
  mono : st.maxLength ≤ st'.maxLength
  best : BestOK tasks n start st → BestOK tasks n start st'

/-- Specification of one call of `findCriticalPath` with recursion budget `fuel`
on task `c` while the current chain is `p`. -/
def PathCallSpec (tasks : List Task) (n : Int) (start : Int) (fuel : Nat) : Prop :=
  ∀ (c : Int) (p : List Int) (st : PathState), 0 ≤ c → c < n → PathInv tasks n st p →
    List.Chain' (Edge tasks) (p ++ [c]) → (p ++ [c]).head? = some start →
    st.visited.count 0 < fuel →
    ∃ st', findCriticalPath tasks n fuel c p.length st = some st' ∧
      PathStep tasks n start p.length st st' ∧
      (c ∉ p → (p.length : Int) + 1 ≤ st'.maxLength) ∧
      (¬ HasCycle tasks n → ∀ q, List.Chain (Edge tasks) c q →
        (p.length : Int) + 1 + q.length ≤ st'.maxLength)

/-! ## Specification vocabulary: the store invariant -/

/-- The fields in use of one task are in range for a store of `numTasks` tasks:
`1 <= startMonth <= endMonth <= 12`, `0 <= numDependencies <= numTasks`, and
every dependency index in `[0, numTasks)`. -/
def TaskOK (numTasks : Int) (t : Task) : Prop :=
  1 ≤ t.startMonth ∧ t.startMonth ≤ t.endMonth ∧ t.endMonth ≤ 12 ∧
  0 ≤ t.numDependencies ∧ t.numDependencies ≤ numTasks ∧
  ∀ d ∈ t.dependencies.take t.numDependencies.toNat, 0 ≤ d ∧ d < numTasks

instance (numTasks : Int) (t : Task) : Decidable (TaskOK numTasks t) := by
  unfold TaskOK; infer_instance

/-- The store invariant of the data model: `0 <= numTasks <= 10` and every task
below `numTasks` is in range. -/
def StoreOK (s : Store) : Prop :=
  0 ≤ s.numTasks ∧ s.numTasks ≤ 10 ∧ ∀ t ∈ s.tasks.take s.numTasks.toNat, TaskOK s.numTasks t

instance (s : Store) : Decidable (StoreOK s) := by
  unfold StoreOK; infer_instance

/-- The store is consistent and satisfies the range invariant. -/
def Sound (s : Store) : Prop := Consistent s ∧ StoreOK s

/-! ## Console prompts (main.c lines 55-76, 272) -/

/-- The function `readIntInRange` (lines 55-76) on the entries typed at its
prompt.  An entry `none` is input that is not a number: it is refused and the
line discarded.  A number outside `[min, max]` is refused as well.  The result
is the first number inside the range together with the entries not yet read;
the result `none` means that the entries ran out while the loop is still asking. -/
def readIntInRange (min max : Int) : List (Option Int) → Option (Int × List (Option Int))
  | [] => none
  | none :: rest => readIntInRange min max rest
  | some x :: rest =>
    if x < min ∨ x > max then readIntInRange min max rest else some (x, rest)

/-- The function `createGantt` with its first prompt: the task count is what
`readIntInRange` with the range `1..10` returns on the typed `entries`
(line 272); the tasks themselves are the validated `inputs`. -/
def createGanttPrompt (tasks : List Task) (entries : List (Option Int))
    (inputs : List TaskInput) : Option (List Task × Int) := do
  let (count, _) ← readIntInRange 1 10 entries
  createGantt tasks count inputs

/-! ## Demo chain search -/

/-- The final state of the chain search from task 9 on the demo dataset. -/
def demoRun : PathState :=
  match criticalPathRun demoTasks 10 9 with
  | some st => st
  | none => initPathState

/-- The demo dataset with the two dependencies of task 2 ("Interior_design")
stored in the other order: `[1, 0]` instead of `[0, 1]`. -/
def demoSwapped : List Task :=
  demoTasks.set 2
    { name := "Interior_design", startMonth := MAR, endMonth := JUN,
      dependencies := [1, 0, 0, 0, 0, 0, 0, 0, 0, 0], numDependencies := 2 }

/-! ## Traced chain search and the depth-first enumeration of simple paths -/

/-- One call of `findCriticalPath` that passed the `visited` check: the
incoming `chainLength`, the task `current`, the loop indices `i` of the
enclosing calls (the dependency-list positions that led here), and the path
`currentPath[0..chainLength]` after `current` has been written. -/
structure CallRecord where
  chainLength : Int
  current : Int
  positions : List Nat
  path : List Int
deriving DecidableEq

/-- The loop of `findCriticalPath` with the log of calls: the same code as
`findCriticalPathLoop`; the recursive call is told the loop index `i`. -/
def findCriticalPathLoopT
    (call : Nat → Int → PathState × List CallRecord → Option (PathState × List CallRecord))
    (t : Task) (numOfTasks : Int) :
    Nat → Nat → PathState × List CallRecord → Option (PathState × List CallRecord)
  | 0, _, s => some s
  | k + 1, i, s => do
    let dep ← t.dependencies[i]?
    if 0 ≤ dep ∧ dep < numOfTasks then
      let s1 ← call i dep s
      findCriticalPathLoopT call t numOfTasks k (i + 1) s1
    else
      findCriticalPathLoopT call t numOfTasks k (i + 1) s

/-- The function `findCriticalPath` with the log of calls: the same code as
`findCriticalPath`, and every call that passes the `visited` check appends its
`CallRecord` to the log.  `positions` are the loop indices of the enclosing
calls; they are not used by the code. -/
def findCriticalPathT (tasks : List Task) (numOfTasks : Int) :
    Nat → List Nat → Int → Int → PathState × List CallRecord →
      Option (PathState × List CallRecord)
  | 0, _, _, _, _ => none
  | fuel + 1, positions, current, chainLength, (st, log) => do
    let v ← rd st.visited current
    if v ≠ 0 then
      pure (st, log)
    else
      let visited ← wr st.visited current 1
      let currentPath ← wr st.currentPath chainLength current
      let chainLength1 := chainLength + 1
      let st1 : PathState := { st with visited := visited, currentPath := currentPath }
      let log1 := log ++ [{ chainLength := chainLength, current := current,
                            positions := positions,
                            path := currentPath.take chainLength1.toNat }]
      let st2 ← recordBest st1 chainLength1
      let t ← rd tasks current
      let (st3, log3) ← findCriticalPathLoopT
        (fun i dep s =>
          findCriticalPathT tasks numOfTasks fuel (positions ++ [i]) dep chainLength1 s)
        t numOfTasks t.numDependencies.toNat 0 (st2, log1)
      let visited1 ← wr st3.visited current 0
      pure ({ st3 with visited := visited1 }, log3)

/-- The call of `findCriticalPath` made by `testCriticalPath`, with the log of
all calls that passed the `visited` check, in call order. -/
def criticalPathRunT (tasks : List Task) (numOfTasks : Int) (start : Int) :
    Option (PathState × List CallRecord) :=
  findCriticalPathT tasks numOfTasks (NO_OF_TASKS + 1) [] start 0 (initPathState, [])

/-- The path obtained from task `c` by following dependency-list positions:
at each step the dependency at the given position of the current task's
dependency list. -/
def follow (tasks : List Task) : Int → List Nat → Option (List Int)
  | c, [] => some [c]
  | c, j :: js => do
    let d ← (depsOf tasks c)[j]?
    let rest ← follow tasks d js
    pure (c :: rest)

/-- The depth-first enumeration over the dependencies `deps` of the last task,
in list order, the first of them at position `j`. -/
def walksOver (sub : List Nat → Int → List (List Nat × List Int)) (js : List Nat) :
    Nat → List Int → List (List Nat × List Int)
  | _, [] => []
  | j, d :: rest => sub (js ++ [j]) d ++ walksOver sub js (j + 1) rest

/-- The simple dependency paths that extend the path `p` by the task `c` (and
further), each with its dependency-list positions, in the order in which a
depth-first search finds them that tries the dependencies of each task in the
order of its dependency list.  `depth` bounds the number of tasks added to `p`. -/
def walksFrom (tasks : List Task) : Nat → List Int → List Nat → Int →
    List (List Nat × List Int)
  | 0, _, _, _ => []
  | depth + 1, p, js, c =>
    if c ∈ p then []
    else (js, p ++ [c]) ::
      walksOver (fun js1 d => walksFrom tasks depth (p ++ [c]) js1 d) js 0 (depsOf tasks c)

/-- Keeping the longer of two paths, the earlier one on a tie. -/
def keepLonger (best q : List Int) : List Int :=
  if q.length > best.length then q else best

/-- The call record of a discovered path with its positions. -/
def recOf (w : List Nat × List Int) : CallRecord :=
  { chainLength := (w.2.length : Int) - 1, current := w.2.getLastD 0,
    positions := w.1, path := w.2 }

/-- The stored best path `bestPath[0..maxLength)`. -/
def bestOf (st : PathState) : List Int := st.bestPath.take st.maxLength.toNat

/-- The lexicographic order of position sequences (a proper prefix comes first). -/
def PosLt (a b : List Nat) : Prop := List.Lex (fun x y : Nat => x < y) a b

/-- The loop of `findCriticalPathLoopT` run over a list of dependency values,
the first of them at loop index `j`. -/
def pathOverT
    (call : Nat → Int → PathState × List CallRecord → Option (PathState × List CallRecord))
    (numOfTasks : Int) :
    Nat → List Int → PathState × List CallRecord → Option (PathState × List CallRecord)
  | _, [], s => some s
  | j, dep :: rest, s => do
    if 0 ≤ dep ∧ dep < numOfTasks then
      let s1 ← call j dep s
      pathOverT call numOfTasks (j + 1) rest s1
    else
      pathOverT call numOfTasks (j + 1) rest s

/-- Specification of one call of `findCriticalPathT` with recursion budget
`fuel`: the calls it logs are the depth-first enumeration `walksFrom`, and the
stored best path is updated by keeping, along that enumeration, the first path
of the greatest length. -/
def TraceSpec (tasks : List Task) (n : Int) (start : Int) (fuel : Nat) : Prop :=
  ∀ (js : List Nat) (c : Int) (p : List Int) (st : PathState) (log : List CallRecord),
    0 ≤ c → c < n → PathInv tasks n st p → List.Chain' (Edge tasks) (p ++ [c]) →
    (p ++ [c]).head? = some start → st.visited.count 0 < fuel → BestOK tasks n start st →
    ∃ st', findCriticalPathT tasks n fuel js c p.length (st, log)
        = some (st', log ++ (walksFrom tasks fuel p js c).map recOf) ∧
      bestOf st' = ((walksFrom tasks fuel p js c).map Prod.snd).foldl keepLonger (bestOf st)

/-- What the logged run of the chain search from `start` does: see
`criticalPathRunT_spec`. -/
structure RunFacts (tasks : List Task) (n : Int) (start : Int) (st : PathState)
    (trace : List CallRecord) (js : List Nat) : Prop where
  run : criticalPathRun tasks n start = some st
  visited : st.visited = initPathState.visited
  lenB : st.bestPath.length = NO_OF_TASKS
  maxLen : ((bestOf st).length : Int) = st.maxLength
  walks : trace = (walksFrom tasks (NO_OF_TASKS + 1) [] [] start).map recOf
  mem : ∀ ks q, (ks, q) ∈ walksFrom tasks (NO_OF_TASKS + 1) [] [] start ↔
    (follow tasks start ks = some q ∧ q.Nodup)
  split : ∃ pre post, walksFrom tasks (NO_OF_TASKS + 1) [] [] start
      = pre ++ (js, bestOf st) :: post ∧
    (∀ a ∈ pre, a.2.length < (bestOf st).length) ∧
    (∀ b ∈ post, b.2.length ≤ (bestOf st).length)

/-! ## Traced cycle detection -/

/-- The loop of `isCyclicUtil` with the log of entered tasks threaded through;
the same code as `isCyclicUtilLoop`. -/
def isCyclicUtilLoopT
    (call : Int → CycleState × List Int → Option (Int × CycleState × List Int))
    (tasks : List Task) (current : Int) (t : Task) :
    Nat → Nat → CycleState × List Int → Option (Int × CycleState × List Int)
  | 0, _, s => some (0, s)
  | k + 1, i, (st, log) => do
    let dep ← t.dependencies[i]?
    let v ← rd st.visited dep
    if v = 0 then
      let (r, st1, log1) ← call dep (st, log)
      if r ≠ 0 then
        let st2 ← reportEdge tasks current dep st1
        pure (1, st2, log1)
      else
        isCyclicUtilLoopT call tasks current t k (i + 1) (st1, log1)
    else
      let s ← rd st.recursionStack dep
      if s ≠ 0 then
        let st2 ← reportEdge tasks current dep st
        pure (1, st2, log)
      else
        isCyclicUtilLoopT call tasks current t k (i + 1) (st, log)

/-- The function `isCyclicUtil` with a log: the same code as `isCyclicUtil`, and
every call appends its argument `current` to the log on entry. -/
def isCyclicUtilT (tasks : List Task) (numOfTasks : Int) :
    Nat → Int → CycleState × List Int → Option (Int × CycleState × List Int)
  | 0, _, _ => none
  | fuel + 1, current, (st, log) => do
    let visited ← wr st.visited current 1
    let recursionStack ← wr st.recursionStack current 1
    let t ← rd tasks current
    let (r, st1, log1) ← isCyclicUtilLoopT (isCyclicUtilT tasks numOfTasks fuel) tasks current t
      t.numDependencies.toNat 0
      ({ st with visited := visited, recursionStack := recursionStack }, log ++ [current])
    if r ≠ 0 then
      pure (1, st1, log1)
    else
      let recursionStack1 ← wr st1.recursionStack current 0
      pure (0, { st1 with recursionStack := recursionStack1 }, log1)

/-- The loop of `detectCircularDependency` with the log of entered tasks. -/
def detectLoopT (tasks : List Task) (numOfTasks : Int) :
    Nat → Nat → CycleState × List Int → Option (Int × CycleState × List Int)
  | 0, _, s => some (0, s)
  | k + 1, i, (st, log) => do
    let v ← rd st.visited i
    if v = 0 then
      let (r, st1, log1) ← isCyclicUtilT tasks numOfTasks NO_OF_TASKS i (st, log)
      if r ≠ 0 then pure (1, st1, log1) else detectLoopT tasks numOfTasks k (i + 1) (st1, log1)
    else
      detectLoopT tasks numOfTasks k (i + 1) (st, log)

/-- The function `detectCircularDependency` with the tasks on which
`isCyclicUtil` was entered, in call order. -/
def detectRunT (tasks : List Task) (numOfTasks : Int) : Option (Int × CycleState × List Int) :=
  detectLoopT tasks numOfTasks numOfTasks.toNat 0 (initCycleState, [])

/-- Forgets the log of a traced result. -/
def eraseLog (p : Int × CycleState × List Int) : Int × CycleState := (p.1, p.2.1)

/-- The mark arrays keep their size, and the log lists exactly the tasks marked
visited, each once, all below `n`. -/
structure TraceInv (n : Int) (st : CycleState) (log : List Int) : Prop where
  lenV : st.visited.length = NO_OF_TASKS
  lenS : st.recursionStack.length = NO_OF_TASKS
  nodup : log.Nodup
  mem : ∀ c, c ∈ log ↔ Marked st.visited c
  range : ∀ c ∈ log, 0 ≤ c ∧ c < n

/-- What a part of the traced search does to the state and the log. -/
structure TraceStep (n : Int) (st : CycleState) (log : List Int) (r : Int) (st' : CycleState)
    (log' : List Int) : Prop where
  inv : TraceInv n st' log'
  count : st'.visited.count 0 ≤ st.visited.count 0
  ext : ∃ e, log' = log ++ e
  res : r = 0 ∨ r = 1

/-- A store whose only task names the index 10 as a dependency. -/
def strayTasks : List Task :=
  blankTasks.set 0 { blankTask with dependencies := (List.replicate 10 0).set 0 10,
                                    numDependencies := 1 }

/-! ## Creation and editing with their console prompts (main.c lines 55-76, 211-303) -/

/-- Why a call does not come back with a result: `waiting` when the typed input
ran out while a prompt is still asking, `fault` when an array was accessed
outside its bounds. -/
inductive Halt where
  | waiting
  | fault
deriving DecidableEq

/-- What the user types, split by who reads it: the tokens read by the calls
`scanf("%24s", ...)`, in reading order, and the entries read by the calls of
`readIntInRange`, in reading order (`none` is an entry that is not a number).
Every typed input gives such a pair, so a statement about all consoles covers
every typed input.  When the input is at its end, `readIntInRange` asks forever;
the model stops there with `Halt.waiting`. -/
structure Console where
  words : List String
  numbers : List (Option Int)
deriving DecidableEq

/-- An array access that is outside the array is a fault. -/
def orFault {α : Type} : Option α → Except Halt α
  | some a => Except.ok a
  | none => Except.error Halt.fault

/-- The call `scanf("%24s", ...)`: the next typed token. -/
def scanWord (con : Console) : Except Halt (String × Console) :=
  match con.words with
  | [] => Except.error Halt.waiting
  | w :: ws => Except.ok (w, { con with words := ws })

/-- A call of `readIntInRange` (lines 55-76) on the console: it keeps asking
until an entry is a number in `[min, max]`. -/
def askInt (min max : Int) (con : Console) : Except Halt (Int × Console) :=
  match readIntInRange min max con.numbers with
  | some (x, rest) => Except.ok (x, { con with numbers := rest })
  | none => Except.error Halt.waiting

/-- The loop `while (1)` that reads the end month (lines 237-242 and 281-286):
it asks again while the end month is before the start month.  Every round
reads at least one entry, so `fuel` above the number of entries is never used
up (`askEndMonth_fuel`). -/
def askEndMonth (startMonth : Int) : Nat → Console → Except Halt (Int × Console)
  | 0, _ => Except.error Halt.waiting
  | fuel + 1, con => do
    let (endMonth, con1) ← askInt 1 12 con
    if endMonth < startMonth then askEndMonth startMonth fuel con1
    else pure (endMonth, con1)

/-- The loop `for (j = 0; j < numDependencies; j++)` with its prompt (lines
246-249 and 290-293), at index `j` with `k` iterations left. -/
def askDependencies (numOfTasks : Int) :
    Nat → Nat → List Int → Console → Except Halt (List Int × Console)
  | 0, _, deps, con => pure (deps, con)
  | k + 1, j, deps, con => do
    let (depNum, con1) ← askInt 1 numOfTasks con
    let deps1 ← orFault (wr deps j (depNum - 1))
    askDependencies numOfTasks k (j + 1) deps1 con1

/-- The prompts that fill the record `t` in place (lines 230-249 and 275-293):
name, start month, end month not before it, dependency count in
`0..numOfTasks`, and that many task numbers in `1..numOfTasks`. -/
def askTask (numOfTasks : Int) (t : Task) (con : Console) : Except Halt (Task × Console) := do
  let (name, con1) ← scanWord con
  let (startMonth, con2) ← askInt 1 12 con1
  let (endMonth, con3) ← askEndMonth startMonth (con2.numbers.length + 1) con2
  let (numDependencies, con4) ← askInt 0 numOfTasks con3
  let (deps, con5) ← askDependencies numOfTasks numDependencies.toNat 0 t.dependencies con4
  pure ({ name := name
          startMonth := startMonth
          endMonth := endMonth
          dependencies := deps
          numDependencies := numDependencies }, con5)

/-- The input loop of `createGantt` with its prompts, at index `i` with `k`
iterations left. -/
def consoleCreateLoop (numOfTasks : Int) :
    Nat → Nat → List Task → Console → Except Halt (List Task × Console)
  | 0, _, tasks, con => pure (tasks, con)
  | k + 1, i, tasks, con => do
    let t ← orFault tasks[i]?
    let (t1, con1) ← askTask numOfTasks t con
    consoleCreateLoop numOfTasks k (i + 1) (tasks.set i t1) con1

/-- The function `createGantt` (lines 271-303) with all its prompts.  The result
is the task array, the new `*numOfTasks` and the input not yet read. -/
def consoleCreateGantt (tasks : List Task) (con : Console) :
    Except Halt (List Task × Int × Console) := do
  let (count, con1) ← askInt 1 10 con
  let (tasks1, con2) ← consoleCreateLoop count count.toNat 0 tasks con1
  let r ← orFault (detectCircularDependency tasks1 count)
  if r ≠ 0 then pure (tasks1, 0, con2) else pure (tasks1, count, con2)

/-- The search loop of `editTask` with the prompts of the matching task, at
index `i` with `k` iterations left. -/
def consoleEditLoop (numOfTasks : Int) (taskToEdit : String) :
    Nat → Nat → List Task → Console → Except Halt (List Task × EditOutcome × Console)
  | 0, _, tasks, con => pure (tasks, EditOutcome.notFound, con)
  | k + 1, i, tasks, con => do
    let t ← orFault tasks[i]?
    if taskToEdit = t.name then
      let backup := t
      let (t1, con1) ← askTask numOfTasks t con
      let tasks1 := tasks.set i t1
      let r ← orFault (detectCircularDependency tasks1 numOfTasks)
      if r ≠ 0 then
        pure (tasks1.set i backup, EditOutcome.reverted, con1)
      else
        pure (tasks1, EditOutcome.updated, con1)
    else
      consoleEditLoop numOfTasks taskToEdit k (i + 1) tasks con

/-- The function `editTask` (lines 211-265) with all its prompts. -/
def consoleEditTask (tasks : List Task) (numOfTasks : Int) (con : Console) :
    Except Halt (List Task × EditOutcome × Console) :=
  if numOfTasks = 0 then pure (tasks, EditOutcome.noTasks, con)
  else do
    let (taskToEdit, con1) ← scanWord con
    consoleEditLoop numOfTasks taskToEdit numOfTasks.toNat 0 tasks con1

/-- The two menu options of `welcomeScreen` that write to the store. -/
inductive Choice where
  | create
  | edit
deriving DecidableEq

/-- One menu option run on the store and the console, as `welcomeScreen` calls
it: `createGantt(tasks, numOfTasks)` or `editTask(tasks, *numOfTasks)`. -/
def consoleStep (s : Store) : Choice → Console → Except Halt (Store × Console)
  | Choice.create, con => do
    let (tasks1, numTasks1, con1) ← consoleCreateGantt s.tasks con
    pure ({ tasks := tasks1, numTasks := numTasks1 }, con1)
  | Choice.edit, con => do
    let (tasks1, _, con1) ← consoleEditTask s.tasks s.numTasks con
    pure ({ tasks := tasks1, numTasks := s.numTasks }, con1)

/-- A finite sequence of menu options run one after the other on the same
console. -/
def consoleRun : Store → List Choice → Console → Except Halt (Store × Console)
  | s, [], con => pure (s, con)
  | s, c :: cs, con => do
    let (s1, con1) ← consoleStep s c con
    consoleRun s1 cs con1

/-- A session typed on the demo dataset.  For the edit of "Budget_Planning":
start month 13 and a word are refused, then 4; end month 2 is before the start
and asked again, then 6; dependency count 11 is refused, then 1; task number 0
is refused, then 1.  For the creation: count 0 is refused, then 2 tasks, the
first depending on the second. -/
def typedSession : Console :=
  { words := ["Budget_Planning", "Budget", "Plan", "Build"]
    numbers := [some 13, none, some 4, some 2, some 6, some 11, some 1, some 0, some 1,
                some 0, some 2,
                some 1, some 0, some 5, some 1, some 3, some 2,
                some 12, some 12, some 0] }

/-- The two tasks that `typedSession` creates. -/
def typedTasks : List Task :=
  (budgetEdited.set 0
    { name := "Plan", startMonth := 1, endMonth := 5,
      dependencies := [1, 0, 0, 0, 0, 0, 0, 0, 0, 0], numDependencies := 1 }).set 1
    { name := "Build", startMonth := 12, endMonth := 12,
      dependencies := [0, 0, 0, 0, 0, 0, 0, 0, 0, 0], numDependencies := 0 }

/-! # Theorems -/

/-! ## Arrays -/

theorem rd_some_iff {α : Type} (a : List α) (i : Int) (x : α) :
    rd a i = some x ↔ 0 ≤ i ∧ a[i.toNat]? = some x := by
  unfold rd; split <;> simp [*]

theorem rd_of_lt {α : Type} (a : List α) (i : Int) (h0 : 0 ≤ i) (h1 : i.toNat < a.length) :
    ∃ x, rd a i = some x := by
  refine ⟨a[i.toNat], ?_⟩
  simp [rd, h0, h1]

theorem rd_lt {α : Type} {a : List α} {i : Int} {x : α} (h : rd a i = some x) :
    0 ≤ i ∧ i.toNat < a.length := by
  rw [rd_some_iff] at h
  exact ⟨h.1, (List.getElem?_eq_some_iff.mp h.2).1⟩

theorem wr_some_iff {α : Type} (a a' : List α) (i : Int) (v : α) :
    wr a i v = some a' ↔ 0 ≤ i ∧ i.toNat < a.length ∧ a' = a.set i.toNat v := by
  unfold wr; split
  · simp [*]; exact eq_comm
  · simp; tauto

theorem wr_of_lt {α : Type} (a : List α) (i : Int) (v : α) (h0 : 0 ≤ i) (h1 : i.toNat < a.length) :
    wr a i v = some (a.set i.toNat v) := by
  simp [wr, h0, h1]

theorem wr_length {α : Type} {a a' : List α} {i : Int} {v : α} (h : wr a i v = some a') :
    a'.length = a.length := by
  rw [wr_some_iff] at h; simp [h.2.2]

theorem rd_wr_same {α : Type} {a a' : List α} {i : Int} {v : α} (h : wr a i v = some a') :
    rd a' i = some v := by
  rw [wr_some_iff] at h
  obtain ⟨h0, h1, rfl⟩ := h
  simp [rd, h0, h1]

theorem rd_wr_other {α : Type} {a a' : List α} {i j : Int} {v : α} (h : wr a i v = some a')
    (hj : j ≠ i) : rd a' j = rd a j := by
  rw [wr_some_iff] at h
  obtain ⟨h0, h1, rfl⟩ := h
  unfold rd
  split
  · rename_i hj0
    have : i.toNat ≠ j.toNat := by omega
    simp [List.getElem?_set_ne this]
  · rfl

theorem set_self {α : Type} (a : List α) (k : Nat) (x : α) (h : a[k]? = some x) :
    a.set k x = a := by
  apply List.ext_getElem?
  intro j
  rw [List.getElem?_set]
  split
  · rename_i hkj
    subst hkj
    obtain ⟨h2, _⟩ := List.getElem?_eq_some_iff.mp h
    simp [h2, h]
  · rfl

theorem wr_restore {α : Type} {a a' : List α} {i : Int} {v v0 : α} (h : wr a i v = some a')
    (h0 : rd a i = some v0) : wr a' i v0 = some a := by
  rw [wr_some_iff] at h
  obtain ⟨hi, h1, rfl⟩ := h
  rw [rd_some_iff] at h0
  rw [wr_some_iff]
  refine ⟨hi, by simpa using h1, ?_⟩
  rw [List.set_set]
  exact (set_self a i.toNat v0 h0.2).symm

theorem count_wr {a a' : List Int} {i : Int} (h : wr a i 1 = some a')
    (h0 : rd a i = some 0) : a'.count 0 + 1 = a.count 0 := by
  rw [wr_some_iff] at h
  obtain ⟨hi, h1, rfl⟩ := h
  rw [rd_some_iff] at h0
  obtain ⟨h2, h3⟩ := List.getElem?_eq_some_iff.mp h0.2
  generalize i.toNat = k at *
  clear hi h0
  induction a generalizing k with
  | nil => simp at h1
  | cons x xs ih =>
    cases k with
    | zero =>
      simp at h3
      subst h3
      simp [List.count_cons]
    | succ k =>
      simp at h3 h1
      have := ih k h1 h1 h3
      simp [List.count_cons]
      omega

theorem count_pos_of_rd {a : List Int} {i : Int} (h0 : rd a i = some 0) : 0 < a.count 0 := by
  rw [rd_some_iff] at h0
  rw [List.count_pos_iff]
  exact List.getElem?_mem h0.2

/-! ## Cycle detection -/

theorem isCyclicUtilLoop_eq (call : Int → CycleState → Option (Int × CycleState))
    (tasks : List Task) (current : Int) (t : Task) :
    ∀ (k i : Nat) (st : CycleState), i + k ≤ t.dependencies.length →
      isCyclicUtilLoop call tasks current t k i st
        = cyclicOver call tasks current ((t.dependencies.drop i).take k) st
  | 0, i, st, _ => by simp [isCyclicUtilLoop, cyclicOver]
  | k + 1, i, st, h => by
    have hi : i < t.dependencies.length := by omega
    have ih := fun s => isCyclicUtilLoop_eq call tasks current t k (i + 1) s (by omega)
    rw [List.drop_eq_getElem_cons hi, List.take_succ_cons]
    simp only [isCyclicUtilLoop, cyclicOver, List.getElem?_eq_getElem hi, Option.bind_eq_bind,
      Option.some_bind, ih]

theorem marked_of_rd {a : List Int} {i v : Int} (h : rd a i = some v) (hv : v ≠ 0) :
    Marked a i := ⟨v, h, hv⟩

theorem not_marked_of_rd {a : List Int} {i : Int} (h : rd a i = some 0) : ¬ Marked a i := by
  rintro ⟨v, hv, hne⟩
  rw [h] at hv
  exact hne (Option.some.inj hv).symm

theorem marked_wr_iff {a a' : List Int} {i v : Int} (h : wr a i v = some a') (hv : v ≠ 0)
    (j : Int) : Marked a' j ↔ j = i ∨ Marked a j := by
  by_cases hj : j = i
  · subst hj
    simp only [true_or, iff_true]
    exact ⟨v, rd_wr_same h, hv⟩
  · simp only [hj, false_or]
    unfold Marked
    rw [rd_wr_other h hj]

theorem wf_task {tasks : List Task} {n : Int} (h : WellFormed tasks n) {c : Int}
    (h0 : 0 ≤ c) (h1 : c < n) :
    ∃ t, rd tasks c = some t ∧ t.dependencies.length = NO_OF_TASKS ∧
      t.numDependencies.toNat ≤ NO_OF_TASKS ∧
      depsOf tasks c = t.dependencies.take t.numDependencies.toNat ∧
      ∀ d ∈ depsOf tasks c, 0 ≤ d ∧ d < n := by
  obtain ⟨⟨hlen, hdeps⟩, hn, hall⟩ := h
  have hc : c.toNat < tasks.length := by rw [hlen]; unfold NO_OF_TASKS; omega
  obtain ⟨t, ht⟩ := rd_of_lt tasks c h0 hc
  have ht' := ((rd_some_iff _ _ _).mp ht).2
  have hmem : t ∈ tasks := List.getElem?_mem ht'
  have hmem' : t ∈ tasks.take n.toNat := by
    apply List.getElem?_mem (n := c.toNat)
    rw [List.getElem?_take_of_lt (by omega)]
    exact ht'
  have hd : depsOf tasks c = t.dependencies.take t.numDependencies.toNat := by
    simp [depsOf, ht]
  refine ⟨t, ht, hdeps t hmem, ?_, hd, ?_⟩
  · have := (hall t hmem').1
    unfold NO_OF_TASKS; omega
  · rw [hd]
    exact (hall t hmem').2

theorem stepOK_refl {tasks : List Task} {n : Int} {st : CycleState} (h : CycInv st) :
    StepOK tasks n st st :=
  ⟨h, rfl, fun _ h => h, le_refl _, rfl, id⟩

theorem stepOK_trans {tasks : List Task} {n : Int} {a b c : CycleState}
    (h1 : StepOK tasks n a b) (h2 : StepOK tasks n b c) : StepOK tasks n a c :=
  ⟨h2.inv, h2.stack.trans h1.stack, fun i h => h2.mono i (h1.mono i h),
    le_trans h2.count h1.count, h2.out.trans h1.out, fun h => h2.black (h1.black h)⟩

theorem wf_le {tasks : List Task} {n : Int} (h : WellFormed tasks n) : n ≤ 10 := h.2.1

theorem rd_mark {a : List Int} {n d : Int} (hlen : a.length = NO_OF_TASKS) (hn : n ≤ 10)
    (h0 : 0 ≤ d) (h1 : d < n) : ∃ v, rd a d = some v :=
  rd_of_lt a d h0 (by rw [hlen]; unfold NO_OF_TASKS; omega)

theorem reportEdge_some {tasks : List Task} {n : Int} (hwf : WellFormed tasks n) {c d : Int}
    (hc0 : 0 ≤ c) (hc1 : c < n) (hd0 : 0 ≤ d) (hd1 : d < n) (st : CycleState) :
    reportEdge tasks c d st = some { st with output := st.output ++ [(c, d)] } := by
  obtain ⟨t, ht, _⟩ := wf_task hwf hc0 hc1
  obtain ⟨t', ht', _⟩ := wf_task hwf hd0 hd1
  simp [reportEdge, ht, ht']

theorem cyclicOver_spec {tasks : List Task} {n : Int} (hwf : WellFormed tasks n) {fuel : Nat}
    (ih : CallSpec tasks n fuel) (c : Int) (hc0 : 0 ≤ c) (hc1 : c < n) :
    ∀ (deps : List Int) (st : CycleState), (∀ d ∈ deps, 0 ≤ d ∧ d < n) →
      (∀ d ∈ deps, Edge tasks c d) → CycInv st → st.visited.count 0 ≤ fuel →
      ∃ r st', cyclicOver (isCyclicUtil tasks n fuel) tasks c deps st = some (r, st') ∧
        ((r = 0 ∧ StepOK tasks n st st' ∧ ∀ d ∈ deps, Black st' d) ∨
         (r = 1 ∧ (GrayReach tasks st c → HasCycle tasks n))) := by
  intro deps
  induction deps with
  | nil =>
    intro st _ _ hinv _
    exact ⟨0, st, rfl, Or.inl ⟨rfl, stepOK_refl hinv, by simp⟩⟩
  | cons d rest ihl =>
    intro st hnode hedge hinv hcount
    have hd := hnode d (List.mem_cons_self _ _)
    have hed := hedge d (List.mem_cons_self _ _)
    have hnode' : ∀ x ∈ rest, 0 ≤ x ∧ x < n := fun x hx => hnode x (List.mem_cons_of_mem _ hx)
    have hedge' : ∀ x ∈ rest, Edge tasks c x := fun x hx => hedge x (List.mem_cons_of_mem _ hx)
    obtain ⟨v, hv⟩ := rd_mark hinv.lenV (wf_le hwf) hd.1 hd.2
    obtain ⟨s, hs⟩ := rd_mark hinv.lenS (wf_le hwf) hd.1 hd.2
    by_cases hv0 : v = 0
    · subst hv0
      obtain ⟨r, st1, hcall, hpost⟩ := ih d st hd.1 hd.2 hv hinv hcount
      rcases hpost with ⟨hr, hstep, hvis⟩ | ⟨hr, hsound⟩
      · subst hr
        obtain ⟨r', st', hrest, hpost'⟩ :=
          ihl st1 hnode' hedge' hstep.inv (le_trans hstep.count hcount)
        refine ⟨r', st', ?_, ?_⟩
        · simp [cyclicOver, hv, hcall, hrest]
        · rcases hpost' with ⟨hr', hstep', hblack⟩ | ⟨hr', hsound'⟩
          · refine Or.inl ⟨hr', stepOK_trans hstep hstep', ?_⟩
            intro x hx
            rcases List.mem_cons.mp hx with rfl | hx
            · refine ⟨hstep'.mono _ hvis, ?_⟩
              rw [hstep'.stack, hstep.stack]
              exact fun hm => not_marked_of_rd hv (hinv.sub _ hm)
            · exact hblack x hx
          · refine Or.inr ⟨hr', fun hg => hsound' ?_⟩
            intro g hm
            rw [hstep.stack] at hm
            exact hg g hm
      · subst hr
        refine ⟨1, { st1 with output := st1.output ++ [(c, d)] }, ?_, Or.inr ⟨rfl, ?_⟩⟩
        · simp [cyclicOver, hv, hcall, reportEdge_some hwf hc0 hc1 hd.1 hd.2]
        · intro hg
          apply hsound
          intro g hm
          exact Relation.ReflTransGen.tail (hg g hm) hed
    · by_cases hs0 : s = 0
      · subst hs0
        obtain ⟨r', st', hrest, hpost'⟩ := ihl st hnode' hedge' hinv hcount
        refine ⟨r', st', ?_, ?_⟩
        · simp [cyclicOver, hv, hv0, hs, hrest]
        · rcases hpost' with ⟨hr', hstep', hblack⟩ | ⟨hr', hsound'⟩
          · refine Or.inl ⟨hr', hstep', ?_⟩
            intro x hx
            rcases List.mem_cons.mp hx with rfl | hx
            · refine ⟨hstep'.mono _ (marked_of_rd hv hv0), ?_⟩
              rw [hstep'.stack]
              exact not_marked_of_rd hs
            · exact hblack x hx
          · exact Or.inr ⟨hr', hsound'⟩
      · refine ⟨1, { st with output := st.output ++ [(c, d)] }, ?_, Or.inr ⟨rfl, ?_⟩⟩
        · simp [cyclicOver, hv, hv0, hs, hs0, reportEdge_some hwf hc0 hc1 hd.1 hd.2]
        · intro hg
          refine ⟨d, hd.1, hd.2, ?_⟩
          exact Relation.TransGen.tail' (hg d (marked_of_rd hs hs0)) hed

theorem wf_edge {tasks : List Task} {n : Int} (hwf : WellFormed tasks n) {a b : Int}
    (h0 : 0 ≤ a) (h1 : a < n) (he : Edge tasks a b) : 0 ≤ b ∧ b < n := by
  obtain ⟨t, _, _, _, _, hnodes⟩ := wf_task hwf h0 h1
  exact hnodes b he

theorem wf_reach {tasks : List Task} {n : Int} (hwf : WellFormed tasks n) {a b : Int}
    (h0 : 0 ≤ a) (h1 : a < n) (hr : Relation.ReflTransGen (Edge tasks) a b) : 0 ≤ b ∧ b < n := by
  induction hr with
  | refl => exact ⟨h0, h1⟩
  | tail _ hbc ih => exact wf_edge hwf ih.1 ih.2 hbc

theorem black_reach {tasks : List Task} {n : Int} (hwf : WellFormed tasks n) {st : CycleState}
    (hok : BlackOK tasks n st) {a b : Int} (h0 : 0 ≤ a) (h1 : a < n) (hb : Black st a)
    (hr : Relation.ReflTransGen (Edge tasks) a b) : Black st b := by
  induction hr with
  | refl => exact hb
  | tail hab hbc ih =>
    have hn := wf_reach hwf h0 h1 hab
    exact (hok _ hn.1 hn.2 ih).1 _ hbc

theorem blackOK_congr {tasks : List Task} {n : Int} {st st' : CycleState}
    (h : ∀ i, Black st i ↔ Black st' i) (hok : BlackOK tasks n st) : BlackOK tasks n st' := by
  intro i h0 h1 hb
  obtain ⟨hd, hc⟩ := hok i h0 h1 ((h i).mpr hb)
  exact ⟨fun d hdm => (h d).mp (hd d hdm), hc⟩

theorem blackOK_finish {tasks : List Task} {n : Int} (hwf : WellFormed tasks n)
    {st2 stF : CycleState} {c : Int} (hok : BlackOK tasks n st2)
    (hdeps : ∀ d ∈ depsOf tasks c, Black st2 d) (hgray : Marked st2.recursionStack c)
    (hvis : stF.visited = st2.visited)
    (hstk : ∀ j, Marked stF.recursionStack j → Marked st2.recursionStack j)
    (hstk' : ∀ j, j ≠ c → Marked st2.recursionStack j → Marked stF.recursionStack j) :
    BlackOK tasks n stF := by
  have hmono : ∀ d, Black st2 d → Black stF d := by
    intro d hd
    exact ⟨by rw [hvis]; exact hd.1, fun hm => hd.2 (hstk d hm)⟩
  intro i h0 h1 hb
  by_cases hic : i = c
  · subst hic
    refine ⟨fun d hd => hmono d (hdeps d hd), ?_⟩
    intro hcyc
    obtain ⟨d, hed, hreach⟩ := Relation.TransGen.head'_iff.mp hcyc
    have hdn := wf_edge hwf h0 h1 hed
    exact (black_reach hwf hok hdn.1 hdn.2 (hdeps d hed) hreach).2 hgray
  · have hb2 : Black st2 i :=
      ⟨by rw [← hvis]; exact hb.1, fun hm => hb.2 (hstk' i hic hm)⟩
    obtain ⟨hd, hc⟩ := hok i h0 h1 hb2
    exact ⟨fun d hdm => hmono d (hd d hdm), hc⟩

theorem blackOK_push {tasks : List Task} {n : Int} {st : CycleState} {c : Int}
    (hwv : wr st.visited c 1 = some (st.visited.set c.toNat 1))
    (hws : wr st.recursionStack c 1 = some (st.recursionStack.set c.toNat 1))
    (hv : rd st.visited c = some 0) (hok : BlackOK tasks n st) :
    BlackOK tasks n (pushMarks st c) := by
  refine blackOK_congr ?_ hok
  intro i
  unfold Black pushMarks
  rw [marked_wr_iff hwv one_ne_zero, marked_wr_iff hws one_ne_zero]
  constructor
  · rintro ⟨h1, h2⟩
    refine ⟨Or.inr h1, ?_⟩
    rintro (h3 | h3)
    · subst h3
      exact not_marked_of_rd hv h1
    · exact h2 h3
  · rintro ⟨h1, h2⟩
    push_neg at h2
    exact ⟨h1.resolve_left h2.1, h2.2⟩

theorem isCyclicUtil_spec {tasks : List Task} {n : Int} (hwf : WellFormed tasks n) :
    ∀ fuel, CallSpec tasks n fuel := by
  intro fuel
  induction fuel with
  | zero =>
    intro c st _ _ hv _ hcount
    have := count_pos_of_rd hv
    omega
  | succ fuel ih =>
    intro c st hc0 hc1 hv hinv hcount
    have hn := wf_le hwf
    have hlv : c.toNat < st.visited.length := by rw [hinv.lenV]; unfold NO_OF_TASKS; omega
    have hls : c.toNat < st.recursionStack.length := by
      rw [hinv.lenS]; unfold NO_OF_TASKS; omega
    have hwv := wr_of_lt st.visited c 1 hc0 hlv
    have hws := wr_of_lt st.recursionStack c 1 hc0 hls
    obtain ⟨t, ht, hlen, hnum, hdeps, hnodes⟩ := wf_task hwf hc0 hc1
    have hstk0 : rd st.recursionStack c = some 0 := by
      obtain ⟨s, hs⟩ := rd_of_lt st.recursionStack c hc0 hls
      by_cases hs0 : s = 0
      · rw [hs, hs0]
      · exact absurd (hinv.sub c (marked_of_rd hs hs0)) (not_marked_of_rd hv)
    have hinv1 : CycInv (pushMarks st c) := by
      refine ⟨by simpa [pushMarks] using hinv.lenV, by simpa [pushMarks] using hinv.lenS, ?_⟩
      intro i hi
      unfold pushMarks at hi ⊢
      rw [marked_wr_iff hws one_ne_zero] at hi
      rw [marked_wr_iff hwv one_ne_zero]
      exact hi.imp_right (hinv.sub i)
    have hc1' : (st.visited.set c.toNat 1).count 0 + 1 = st.visited.count 0 := count_wr hwv hv
    have hcount1 : (pushMarks st c).visited.count 0 ≤ fuel := by
      show (st.visited.set c.toNat 1).count 0 ≤ fuel
      omega
    obtain ⟨r, st2, hloop, hpost⟩ := cyclicOver_spec hwf ih c hc0 hc1 (depsOf tasks c)
      (pushMarks st c) hnodes (fun d hd => hd) hinv1 hcount1
    have heq : isCyclicUtilLoop (isCyclicUtil tasks n fuel) tasks c t t.numDependencies.toNat 0
        (pushMarks st c) = some (r, st2) := by
      rw [isCyclicUtilLoop_eq _ _ _ _ _ _ _ (by omega), List.drop_zero, ← hdeps]
      exact hloop
    unfold pushMarks at heq
    rcases hpost with ⟨hr, hstep, hblack⟩ | ⟨hr, hsound⟩
    · subst hr
      have hstack : st2.recursionStack = st.recursionStack.set c.toNat 1 := hstep.stack
      have hrestore : wr st2.recursionStack c 0 = some st.recursionStack := by
        rw [hstack]
        exact wr_restore hws hstk0
      refine ⟨0, { st2 with recursionStack := st.recursionStack }, ?_, Or.inl ⟨rfl, ?_, ?_⟩⟩
      · simp [isCyclicUtil, hwv, hws, ht, heq, hrestore]
      · refine ⟨⟨hstep.inv.lenV, hinv.lenS, ?_⟩, rfl, ?_, ?_, hstep.out, ?_⟩
        · intro i hi
          apply hstep.mono
          show Marked (st.visited.set c.toNat 1) i
          rw [marked_wr_iff hwv one_ne_zero]
          exact Or.inr (hinv.sub i hi)
        · intro i hi
          apply hstep.mono
          show Marked (st.visited.set c.toNat 1) i
          rw [marked_wr_iff hwv one_ne_zero]
          exact Or.inr hi
        · have h2 : st2.visited.count 0 ≤ (st.visited.set c.toNat 1).count 0 := hstep.count
          show st2.visited.count 0 ≤ st.visited.count 0
          omega
        · intro hok
          refine blackOK_finish hwf (hstep.black (blackOK_push hwv hws hv hok)) hblack ?_ rfl ?_ ?_
          · rw [hstack, marked_wr_iff hws one_ne_zero]
            exact Or.inl rfl
          · intro j hj
            rw [hstack, marked_wr_iff hws one_ne_zero]
            exact Or.inr hj
          · intro j hjc hj
            rw [hstack, marked_wr_iff hws one_ne_zero] at hj
            exact hj.resolve_left hjc
      · apply hstep.mono
        show Marked (st.visited.set c.toNat 1) c
        rw [marked_wr_iff hwv one_ne_zero]
        exact Or.inl rfl
    · subst hr
      refine ⟨1, st2, ?_, Or.inr ⟨rfl, ?_⟩⟩
      · simp [isCyclicUtil, hwv, hws, ht, heq]
      · intro hg
        apply hsound
        intro g hm
        unfold pushMarks at hm
        rw [marked_wr_iff hws one_ne_zero] at hm
        rcases hm with rfl | hm
        · exact Relation.ReflTransGen.refl
        · exact hg g hm

theorem not_marked_replicate (k : Nat) (i : Int) : ¬ Marked (List.replicate k 0) i := by
  rintro ⟨v, hv, hne⟩
  rw [rd_some_iff] at hv
  have := List.getElem?_mem hv.2
  rw [List.mem_replicate] at this
  exact hne this.2

theorem cycInv_init : CycInv initCycleState :=
  ⟨by simp [initCycleState], by simp [initCycleState],
    fun i hi => absurd hi (not_marked_replicate _ i)⟩

theorem detectLoop_spec {tasks : List Task} {n : Int} (hwf : WellFormed tasks n) :
    ∀ (k i : Nat) (st : CycleState), i + k = n.toNat → CycInv st →
      (∀ g, ¬ Marked st.recursionStack g) → BlackOK tasks n st →
      (∀ j : Nat, j < i → Marked st.visited j) →
      ∃ r st', detectLoop tasks n k i st = some (r, st') ∧ DetectPost tasks n st r st' := by
  intro k
  induction k with
  | zero =>
    intro i st hik hinv hstk hok hall
    refine ⟨0, st, rfl, Or.inl ⟨rfl, rfl, ?_⟩⟩
    rintro ⟨x, h0, h1, hcyc⟩
    have hx : Marked st.visited x := by
      have := hall x.toNat (by omega)
      rwa [Int.toNat_of_nonneg h0] at this
    exact (hok x h0 h1 ⟨hx, hstk x⟩).2 hcyc
  | succ k ih =>
    intro i st hik hinv hstk hok hall
    have hi0 : (0 : Int) ≤ (i : Int) := Int.ofNat_nonneg i
    have hi1 : (i : Int) < n := by omega
    obtain ⟨v, hv⟩ := rd_mark hinv.lenV (wf_le hwf) hi0 hi1
    by_cases hv0 : v = 0
    · subst hv0
      have hcount : st.visited.count 0 ≤ NO_OF_TASKS := by
        rw [← hinv.lenV]
        exact List.count_le_length _ _
      obtain ⟨r, st1, hcall, hpost⟩ :=
        isCyclicUtil_spec hwf NO_OF_TASKS i st hi0 hi1 hv hinv hcount
      rcases hpost with ⟨hr, hstep, hvis⟩ | ⟨hr, hsound⟩
      · subst hr
        obtain ⟨r', st', hrest, hpost'⟩ := ih (i + 1) st1 (by omega) hstep.inv
          (by rw [hstep.stack]; exact hstk) (hstep.black hok)
          (by
            intro j hj
            rcases Nat.lt_succ_iff_lt_or_eq.mp hj with hj | rfl
            · exact hstep.mono _ (hall j hj)
            · exact hvis)
        refine ⟨r', st', by simp [detectLoop, hv, hcall, hrest], ?_⟩
        rcases hpost' with ⟨h1, h2, h3⟩ | h
        · exact Or.inl ⟨h1, h2.trans hstep.out, h3⟩
        · exact Or.inr h
      · subst hr
        refine ⟨1, st1, by simp [detectLoop, hv, hcall], Or.inr ⟨rfl, hsound ?_⟩⟩
        exact fun g hg => absurd hg (hstk g)
    · obtain ⟨r', st', hrest, hpost'⟩ := ih (i + 1) st (by omega) hinv hstk hok
        (by
          intro j hj
          rcases Nat.lt_succ_iff_lt_or_eq.mp hj with hj | rfl
          · exact hall j hj
          · exact marked_of_rd hv hv0)
      exact ⟨r', st', by simp [detectLoop, hv, hv0, hrest], hpost'⟩

theorem detectRun_spec {tasks : List Task} {n : Int} (hwf : WellFormed tasks n) :
    ∃ r st', detectRun tasks n = some (r, st') ∧
      ((r = 0 ∧ st'.output = [] ∧ ¬ HasCycle tasks n) ∨ (r = 1 ∧ HasCycle tasks n)) := by
  have hblack : BlackOK tasks n initCycleState := by
    intro i _ _ hb
    exact absurd hb.1 (not_marked_replicate _ i)
  exact detectLoop_spec hwf n.toNat 0 initCycleState (by omega) cycInv_init
    (fun g => not_marked_replicate _ g) hblack (fun j hj => absurd hj (Nat.not_lt_zero j))

theorem detect_cases {tasks : List Task} {n : Int} (hwf : WellFormed tasks n) :
    (detectCircularDependency tasks n = some 0 ∧ ¬ HasCycle tasks n) ∨
    (detectCircularDependency tasks n = some 1 ∧ HasCycle tasks n) := by
  obtain ⟨r, st', hrun, hpost⟩ := detectRun_spec hwf
  rcases hpost with ⟨hr, _, hc⟩ | ⟨hr, hc⟩
  · exact Or.inl ⟨by simp [detectCircularDependency, hrun, hr], hc⟩
  · exact Or.inr ⟨by simp [detectCircularDependency, hrun, hr], hc⟩

/-! ## Cycle detection: completeness, soundness, reported edges -/

/-- C1. Completeness of cycle detection: on a well-formed store whose dependency
graph contains a cycle, `detectCircularDependency` returns 1. -/
theorem detect_complete (tasks : List Task) (numTasks : Int)
    (hwf : WellFormed tasks numTasks) (hcyc : HasCycle tasks numTasks) :
    detectCircularDependency tasks numTasks = some 1 := by
  rcases detect_cases hwf with ⟨_, hno⟩ | ⟨h, _⟩
  · exact absurd hcyc hno
  · exact h

theorem twoCycle_hasCycle : HasCycle twoCycleTasks 2 :=
  ⟨0, by decide, by decide,
    Relation.TransGen.tail (Relation.TransGen.single (by decide : Edge twoCycleTasks 0 1))
      (by decide : Edge twoCycleTasks 1 0)⟩

theorem detect_complete_witness :
    WellFormed twoCycleTasks 2 ∧ HasCycle twoCycleTasks 2 ∧
      detectCircularDependency twoCycleTasks 2 = some 1 :=
  ⟨by decide, twoCycle_hasCycle, detect_complete twoCycleTasks 2 (by decide) twoCycle_hasCycle⟩

/-- C2. Soundness of cycle detection: on a well-formed store, if
`detectCircularDependency` returns 1 the dependency graph contains a cycle, and
on an acyclic store it returns 0. -/
theorem detect_sound (tasks : List Task) (numTasks : Int)
    (hwf : WellFormed tasks numTasks) :
    (detectCircularDependency tasks numTasks = some 1 → HasCycle tasks numTasks) ∧
    (¬ HasCycle tasks numTasks → detectCircularDependency tasks numTasks = some 0) := by
  rcases detect_cases hwf with ⟨h, hno⟩ | ⟨h, hc⟩
  · refine ⟨fun h1 => ?_, fun _ => h⟩
    rw [h] at h1
    cases h1
  · exact ⟨fun _ => hc, fun hno => absurd hc hno⟩

theorem detect_sound_witness :
    WellFormed demoTasks 10 ∧
      ((detectCircularDependency demoTasks 10 = some 1 → HasCycle demoTasks 10) ∧
       (¬ HasCycle demoTasks 10 → detectCircularDependency demoTasks 10 = some 0)) :=
  ⟨by decide, detect_sound demoTasks 10 (by decide)⟩

/-- C8. Self-loop detection: on a well-formed store in which some task below
`numTasks` has its own index in its dependency list, `detectCircularDependency`
returns 1. -/
theorem detect_self_loop (tasks : List Task) (numTasks : Int) (i : Int)
    (hwf : WellFormed tasks numTasks) (h0 : 0 ≤ i) (h1 : i < numTasks)
    (hself : i ∈ depsOf tasks i) :
    detectCircularDependency tasks numTasks = some 1 := by
  rcases detect_cases hwf with ⟨_, hno⟩ | ⟨h, _⟩
  · exact absurd ⟨i, h0, h1, Relation.TransGen.single hself⟩ hno
  · exact h

theorem detect_self_loop_witness :
    WellFormed tailTasks 2 ∧ (0 : Int) ≤ 1 ∧ (1 : Int) < 2 ∧ (1 : Int) ∈ depsOf tailTasks 1 ∧
      detectCircularDependency tailTasks 2 = some 1 :=
  ⟨by decide, by decide, by decide, by decide,
    detect_self_loop tailTasks 2 1 (by decide) (by decide) (by decide) (by decide)⟩

theorem tail_reach (b : Int) (h : Relation.ReflTransGen (Edge tailTasks) 1 b) : b = 1 := by
  induction h with
  | refl => rfl
  | tail _ hbc ih =>
    subst ih
    have hd : depsOf tailTasks 1 = [1] := by decide
    unfold Edge at hbc
    rw [hd] at hbc
    simpa using hbc

/-- C9 (the code at the failing input). The validated input `tailInputs` makes
`createGantt` check the well-formed store `tailTasks` (task 0 depends on task 1,
task 1 depends on itself); the detection returns 1 and reports the edges
`1 -> 1` and then `0 -> 1`; the edge `0 -> 1` is a dependency edge, but task 0 is
not reachable from task 1, so this reported edge lies on no cycle. -/
theorem detect_reports_tail_edge :
    (∀ inp ∈ tailInputs, inp.Valid 2) ∧
    createGantt blankTasks 2 tailInputs = some (tailTasks, 0) ∧
    WellFormed tailTasks 2 ∧
    detectCircularDependency tailTasks 2 = some 1 ∧
    detectOutput tailTasks 2 = some [(1, 1), (0, 1)] ∧
    Edge tailTasks 0 1 ∧
    ¬ Relation.ReflTransGen (Edge tailTasks) 1 0 := by
  refine ⟨by decide, by decide, by decide, by decide, by decide, by decide, ?_⟩
  intro h
  have := tail_reach 0 h
  omega

/-! ## Reading a task, editing -/

theorem wr_nat {α : Type} (a : List α) (j : Nat) (v : α) (h : j < a.length) :
    wr a (j : Int) v = some (a.set j v) := by
  simp [wr, h]

theorem storeDependencies_spec : ∀ (vals : List Int) (j : Nat) (deps : List Int),
    j + vals.length ≤ deps.length →
    ∃ deps', storeDependencies vals j deps = some deps' ∧ deps'.length = deps.length ∧
      (∀ k, k < vals.length → deps'[j + k]? = vals[k]?) ∧
      (∀ k, k < j → deps'[k]? = deps[k]?) ∧
      (∀ k, j + vals.length ≤ k → deps'[k]? = deps[k]?)
  | [], j, deps, _ => ⟨deps, rfl, rfl, by simp, fun _ _ => rfl, fun _ _ => rfl⟩
  | v :: rest, j, deps, h => by
    have hj : j < deps.length := by simp at h; omega
    obtain ⟨deps', hs, hlen, hin, hlo, hhi⟩ :=
      storeDependencies_spec rest (j + 1) (deps.set j v) (by simp at h ⊢; omega)
    refine ⟨deps', ?_, by simpa using hlen, ?_, ?_, ?_⟩
    · simp [storeDependencies, wr_nat deps j v hj, hs]
    · intro k hk
      cases k with
      | zero =>
        rw [Nat.add_zero, hlo j (Nat.lt_succ_self j)]
        simp [hj]
      | succ m =>
        have := hin m (by simp at hk; omega)
        rw [show j + (m + 1) = j + 1 + m by omega, this]
        simp
    · intro k hk
      rw [hlo k (by omega), List.getElem?_set_ne (by omega)]
    · intro k hk
      simp at hk
      rw [hhi k (by omega), List.getElem?_set_ne (by omega)]

theorem writeDependencies_eq : ∀ (nums : List Int) (j : Nat) (deps : List Int),
    writeDependencies nums j deps = storeDependencies (nums.map (fun d => d - 1)) j deps
  | [], _, _ => rfl
  | d :: rest, j, deps => by
    simp only [writeDependencies, storeDependencies, List.map_cons, Option.bind_eq_bind]
    congr 1
    funext deps1
    exact writeDependencies_eq rest (j + 1) deps1

theorem take_eq_of_getElem? {α : Type} (a vals : List α) (h : vals.length ≤ a.length)
    (hk : ∀ k, k < vals.length → a[0 + k]? = vals[k]?) : a.take vals.length = vals := by
  apply List.ext_getElem?
  intro k
  rw [List.getElem?_take]
  split
  · rename_i hlt
    rw [← hk k hlt, Nat.zero_add]
  · rename_i hge
    rw [List.getElem?_eq_none (by omega)]

theorem readTask_spec (t : Task) (input : TaskInput)
    (h : input.depNums.length ≤ t.dependencies.length) :
    ∃ t1, readTask t input = some t1 ∧ Matches t1 input ∧
      t1.dependencies.length = t.dependencies.length := by
  obtain ⟨deps', hs, hlen, hin, _, _⟩ :=
    storeDependencies_spec (input.depNums.map (fun d => d - 1)) 0 t.dependencies
      (by simpa using h)
  refine ⟨_, by simp [readTask, writeDependencies_eq, hs]; rfl, ?_, hlen⟩
  refine ⟨rfl, rfl, rfl, rfl, ?_⟩
  have := take_eq_of_getElem? deps' (input.depNums.map (fun d => d - 1))
    (by simpa [hlen] using h) hin
  simpa using this

theorem wf_intro {tasks : List Task} {n : Int} (hs : Shaped tasks) (hn : n ≤ 10)
    (h : ∀ m t, m < n.toNat → tasks[m]? = some t →
      t.numDependencies ≤ 10 ∧
        ∀ d ∈ t.dependencies.take t.numDependencies.toNat, 0 ≤ d ∧ d < n) :
    WellFormed tasks n := by
  refine ⟨hs, hn, fun t ht => ?_⟩
  obtain ⟨m, hm⟩ := List.mem_iff_getElem?.mp ht
  rw [List.getElem?_take] at hm
  split at hm
  · rename_i hlt
    exact h m t hlt hm
  · cases hm

theorem wf_get {tasks : List Task} {n : Int} (hwf : WellFormed tasks n) {m : Nat} {t : Task}
    (hm : m < n.toNat) (ht : tasks[m]? = some t) :
    t.dependencies.length = NO_OF_TASKS ∧ t.numDependencies ≤ 10 ∧
      ∀ d ∈ t.dependencies.take t.numDependencies.toNat, 0 ≤ d ∧ d < n := by
  obtain ⟨⟨_, hdeps⟩, _, hall⟩ := hwf
  have hmem : t ∈ tasks.take n.toNat := by
    apply List.getElem?_mem (n := m)
    rw [List.getElem?_take_of_lt hm]
    exact ht
  exact ⟨hdeps t (List.getElem?_mem ht), hall t hmem⟩

theorem shaped_set {tasks : List Task} (hs : Shaped tasks) (i : Nat) {t1 : Task}
    (h1 : t1.dependencies.length = NO_OF_TASKS) : Shaped (tasks.set i t1) := by
  refine ⟨by simpa using hs.1, fun t ht => ?_⟩
  rcases List.mem_or_eq_of_mem_set ht with h | h
  · exact hs.2 t h
  · rw [h]; exact h1

theorem getElem?_set_some {α : Type} {l : List α} {i m : Nat} {a t : α}
    (h : (l.set i a)[m]? = some t) : (m = i ∧ t = a) ∨ (m ≠ i ∧ l[m]? = some t) := by
  by_cases hmi : m = i
  · subst hmi
    left
    rw [List.getElem?_set_self'] at h
    cases hl : l[m]? with
    | none => rw [hl] at h; cases h
    | some x =>
      rw [hl] at h
      simp at h
      exact ⟨rfl, h.symm⟩
  · right
    rw [List.getElem?_set_ne (fun h' => hmi h'.symm)] at h
    exact ⟨hmi, h⟩

theorem wf_set {tasks : List Task} {n : Int} (hwf : WellFormed tasks n) (i : Nat) {t1 : Task}
    (h1 : t1.dependencies.length = NO_OF_TASKS) (h2 : t1.numDependencies ≤ 10)
    (h3 : ∀ d ∈ t1.dependencies.take t1.numDependencies.toNat, 0 ≤ d ∧ d < n) :
    WellFormed (tasks.set i t1) n := by
  refine wf_intro (shaped_set hwf.1 i h1) hwf.2.1 ?_
  intro m t hm ht
  rcases getElem?_set_some ht with ⟨_, rfl⟩ | ⟨_, ht'⟩
  · exact ⟨h2, h3⟩
  · exact (wf_get hwf hm ht').2

theorem matches_wf {t1 : Task} {input : TaskInput} {n : Int} (hm : Matches t1 input)
    (hv : input.Valid n) (hn : n ≤ 10) :
    t1.numDependencies ≤ 10 ∧
      ∀ d ∈ t1.dependencies.take t1.numDependencies.toNat, 0 ≤ d ∧ d < n := by
  obtain ⟨_, _, _, hnum, htake⟩ := hm
  obtain ⟨_, _, _, _, _, hlen, hall⟩ := hv
  refine ⟨by omega, ?_⟩
  rw [hnum, Int.toNat_ofNat, htake]
  intro d hd
  obtain ⟨x, hx, rfl⟩ := List.mem_map.mp hd
  have := hall x hx
  omega

theorem editTaskLoop_found (n : Int) (name : String) (input : TaskInput) (tasks : List Task)
    (i : Nat) (t : Task) (ht : tasks[i]? = some t) (hname : t.name = name)
    (hfirst : ∀ j, j < i → ∀ u, tasks[j]? = some u → u.name ≠ name) :
    ∀ (k j : Nat), j ≤ i → i < j + k →
      editTaskLoop n name input k j tasks =
        (readTask t input).bind (fun t1 =>
          (detectCircularDependency (tasks.set i t1) n).bind (fun r =>
            if r ≠ 0 then some ((tasks.set i t1).set i t, EditOutcome.reverted)
            else some (tasks.set i t1, EditOutcome.updated)))
  | 0, j, h1, h2 => by omega
  | k + 1, j, h1, h2 => by
    by_cases hji : j = i
    · subst hji
      simp only [editTaskLoop, ht, hname, Option.bind_eq_bind, Option.some_bind, if_true]
      rfl
    · have hlt : j < i := by omega
      have hil : i < tasks.length := (List.getElem?_eq_some_iff.mp ht).1
      have hjl : j < tasks.length := by omega
      have hu : tasks[j]? = some tasks[j] := List.getElem?_eq_getElem hjl
      have hne : ¬ name = tasks[j].name := fun h => hfirst j hlt _ hu h.symm
      simp only [editTaskLoop, hu, hne, Option.bind_eq_bind, Option.some_bind, if_false]
      exact editTaskLoop_found n name input tasks i t ht hname hfirst k (j + 1) (by omega)
        (by omega)

theorem editTaskLoop_frame (n : Int) (name : String) (input : TaskInput) (tasks : List Task) :
    ∀ (k j : Nat) (tasks' : List Task) (o : EditOutcome), j + k = n.toNat →
      (∀ m, m < j → ∀ u, tasks[m]? = some u → u.name ≠ name) →
      editTaskLoop n name input k j tasks = some (tasks', o) →
      tasks'.length = tasks.length ∧
        ∀ x, ¬ IsFirstMatch tasks n name x → tasks'[x]? = tasks[x]?
  | 0, j, tasks', o, _, _, h => by
    simp [editTaskLoop] at h
    rw [← h.1]
    exact ⟨rfl, fun _ _ => rfl⟩
  | k + 1, j, tasks', o, hjk, hno, h => by
    cases ht : tasks[j]? with
    | none => simp [editTaskLoop, ht] at h
    | some t =>
      by_cases hname : name = t.name
      · have hfm : IsFirstMatch tasks n name j := ⟨by omega, ⟨t, ht, hname.symm⟩, hno⟩
        have hx : ∀ x, ¬ IsFirstMatch tasks n name x → x ≠ j := fun x hx hxj => hx (hxj ▸ hfm)
        cases hr : readTask t input with
        | none => simp [editTaskLoop, ht, hname, hr] at h
        | some t1 =>
          cases hd : detectCircularDependency (tasks.set j t1) n with
          | none => simp [editTaskLoop, ht, hname, hr, hd] at h
          | some r =>
            by_cases hr0 : r = 0
            · simp [editTaskLoop, ht, ← hname, hr, hd, hr0] at h
              rw [← h.1]
              refine ⟨by simp, fun x hxn => ?_⟩
              rw [List.getElem?_set_ne (fun h' => hx x hxn h'.symm)]
            · simp [editTaskLoop, ht, ← hname, hr, hd, hr0] at h
              rw [← h.1]
              refine ⟨by simp, fun x hxn => ?_⟩
              rw [List.getElem?_set_ne (fun h' => hx x hxn h'.symm)]
      · simp only [editTaskLoop, ht, hname, Option.bind_eq_bind, Option.some_bind, if_false] at h
        refine editTaskLoop_frame n name input tasks k (j + 1) tasks' o (by omega) ?_ h
        intro m hm u hu
        rcases Nat.lt_succ_iff_lt_or_eq.mp hm with hm | rfl
        · exact hno m hm u hu
        · rw [ht] at hu
          cases hu
          exact fun h' => hname h'.symm

/-- C4. Rollback exactness: when the task named `taskToEdit` is found (first at
index `i`) and `detectCircularDependency` returns 1 on the store with the new
fields written into task `i`, `editTask` ends with the rollback message and the
task array is identical to the one before the call (`numOfTasks` is passed by
value and cannot change). -/
theorem editTask_rollback (tasks : List Task) (numOfTasks : Int) (taskToEdit : String)
    (input : TaskInput) (i : Nat) (t t1 : Task)
    (hi : i < numOfTasks.toNat) (ht : tasks[i]? = some t) (hname : t.name = taskToEdit)
    (hfirst : ∀ j, j < i → ∀ u, tasks[j]? = some u → u.name ≠ taskToEdit)
    (hread : readTask t input = some t1)
    (hcyc : detectCircularDependency (tasks.set i t1) numOfTasks = some 1) :
    editTask tasks numOfTasks taskToEdit input = some (tasks, EditOutcome.reverted) := by
  have hn : numOfTasks ≠ 0 := by
    intro h
    rw [h] at hi
    simp at hi
  unfold editTask
  rw [if_neg hn, editTaskLoop_found numOfTasks taskToEdit input tasks i t ht hname hfirst
    numOfTasks.toNat 0 (Nat.zero_le i) (by omega), hread, Option.some_bind, hcyc,
    Option.some_bind, if_pos (by decide), List.set_set, set_self tasks i t ht]

/-- C10. Edit touches only the first match: whenever `editTask` returns, the
task array keeps its length and every entry other than the lowest index whose
name equals `taskToEdit` is unchanged; when no task below `numOfTasks` has that
name the whole array is unchanged (`numOfTasks` is passed by value). -/
theorem editTask_frame (tasks tasks' : List Task) (numOfTasks : Int) (taskToEdit : String)
    (input : TaskInput) (o : EditOutcome)
    (h : editTask tasks numOfTasks taskToEdit input = some (tasks', o)) :
    tasks'.length = tasks.length ∧
    (∀ x, ¬ IsFirstMatch tasks numOfTasks taskToEdit x → tasks'[x]? = tasks[x]?) ∧
    ((∀ x, ¬ IsFirstMatch tasks numOfTasks taskToEdit x) → tasks' = tasks) := by
  have key : tasks'.length = tasks.length ∧
      ∀ x, ¬ IsFirstMatch tasks numOfTasks taskToEdit x → tasks'[x]? = tasks[x]? := by
    unfold editTask at h
    split at h
    · simp at h
      rw [← h.1]
      exact ⟨rfl, fun _ _ => rfl⟩
    · exact editTaskLoop_frame numOfTasks taskToEdit input tasks numOfTasks.toNat 0 tasks' o
        (by omega) (fun m hm => absurd hm (Nat.not_lt_zero m)) h
  exact ⟨key.1, key.2, fun hall => List.ext_getElem? (fun x => key.2 x (hall x))⟩

theorem editTask_rollback_witness :
    editTask demoTasks 10 "Research" researchEdit = some (demoTasks, EditOutcome.reverted) :=
  editTask_rollback demoTasks 10 "Research" researchEdit 0
    { name := "Research", startMonth := 1, endMonth := 3,
      dependencies := [0, 0, 0, 0, 0, 0, 0, 0, 0, 0], numDependencies := 0 }
    { name := "Research", startMonth := 1, endMonth := 3,
      dependencies := [2, 0, 0, 0, 0, 0, 0, 0, 0, 0], numDependencies := 1 }
    (by decide) (by decide) (by decide) (fun j hj => absurd hj (Nat.not_lt_zero j))
    (by decide) (by decide)

theorem editTask_frame_witness :
    budgetEdited.length = demoTasks.length ∧
    (∀ x, ¬ IsFirstMatch demoTasks 10 "Budget_Planning" x → budgetEdited[x]? = demoTasks[x]?) ∧
    ((∀ x, ¬ IsFirstMatch demoTasks 10 "Budget_Planning" x) → budgetEdited = demoTasks) :=
  editTask_frame demoTasks budgetEdited 10 "Budget_Planning" budgetEdit EditOutcome.updated
    (by decide)

/-! ## Creation, demo dataset, sessions -/

theorem createGanttLoop_spec : ∀ (k i : Nat) (inputs : List TaskInput) (tasks : List Task),
    Shaped tasks → i + k ≤ NO_OF_TASKS → inputs.length = k →
    (∀ inp ∈ inputs, inp.depNums.length ≤ NO_OF_TASKS) →
    ∃ tasks1, createGanttLoop k i inputs tasks = some tasks1 ∧ Shaped tasks1 ∧
      (∀ m, m < i → tasks1[m]? = tasks[m]?) ∧
      (∀ m inp, inputs[m]? = some inp → ∃ t1, tasks1[i + m]? = some t1 ∧ Matches t1 inp)
  | 0, i, inputs, tasks, hs, _, hlen, _ => by
    refine ⟨tasks, rfl, hs, fun _ _ => rfl, ?_⟩
    intro m inp hm
    rw [List.length_eq_zero.mp hlen] at hm
    cases hm
  | k + 1, i, inputs, tasks, hs, hik, hlen, hdeps => by
    cases inputs with
    | nil => simp at hlen
    | cons inp rest =>
      have hi : i < tasks.length := by rw [hs.1]; omega
      have ht : tasks[i]? = some tasks[i] := List.getElem?_eq_getElem hi
      have hdl : tasks[i].dependencies.length = NO_OF_TASKS := hs.2 _ (List.getElem_mem hi)
      obtain ⟨t1, hr, hmatch, hl1⟩ := readTask_spec tasks[i] inp
        (by rw [hdl]; exact hdeps inp (List.mem_cons_self _ _))
      obtain ⟨tasks1, hloop, hs1, hlo, hin⟩ :=
        createGanttLoop_spec k (i + 1) rest (tasks.set i t1) (shaped_set hs i (hl1.trans hdl))
          (by omega) (by simpa using hlen) (fun x hx => hdeps x (List.mem_cons_of_mem _ hx))
      refine ⟨tasks1, ?_, hs1, ?_, ?_⟩
      · simp [createGanttLoop, ht, hr, hloop]
      · intro m hm
        rw [hlo m (by omega), List.getElem?_set_ne (by omega)]
      · intro m x hm
        cases m with
        | zero =>
          simp at hm
          subst hm
          refine ⟨t1, ?_, hmatch⟩
          rw [Nat.add_zero, hlo i (Nat.lt_succ_self i)]
          simp [hi]
        | succ m =>
          simp at hm
          obtain ⟨t2, h2, hm2⟩ := hin m x hm
          exact ⟨t2, by rw [show i + (m + 1) = i + 1 + m by omega]; exact h2, hm2⟩

theorem candidate_wf {cand : List Task} {count : Int} {inputs : List TaskInput}
    (hs : Shaped cand) (h10 : count ≤ 10) (hlen : inputs.length = count.toNat)
    (hval : ∀ inp ∈ inputs, inp.Valid count)
    (hin : ∀ m inp, inputs[m]? = some inp → ∃ t1, cand[0 + m]? = some t1 ∧ Matches t1 inp) :
    WellFormed cand count := by
  refine wf_intro hs h10 ?_
  intro m t hm ht
  have hml : m < inputs.length := by omega
  obtain ⟨t1, h1, hmatch⟩ := hin m inputs[m] (List.getElem?_eq_getElem hml)
  rw [Nat.zero_add, ht] at h1
  cases h1
  exact matches_wf hmatch (hval _ (List.getElem_mem hml)) h10

theorem createGantt_spec (tasks : List Task) (count : Int) (inputs : List TaskInput)
    (hs : Shaped tasks) (h10 : count ≤ 10) (hlen : inputs.length = count.toNat)
    (hval : ∀ inp ∈ inputs, inp.Valid count) :
    ∃ cand numTasks, createGantt tasks count inputs = some (cand, numTasks) ∧
      WellFormed cand count ∧
      (∀ (k : Nat) (inp : TaskInput), inputs[k]? = some inp →
        ∃ t, cand[k]? = some t ∧ Matches t inp) ∧
      ((detectCircularDependency cand count = some 1 ∧ HasCycle cand count ∧ numTasks = 0) ∨
       (detectCircularDependency cand count = some 0 ∧ ¬ HasCycle cand count ∧
          numTasks = count)) := by
  have hdeps : ∀ inp ∈ inputs, inp.depNums.length ≤ NO_OF_TASKS := by
    intro inp hin
    have := (hval inp hin).2.2.2.2.2.1
    unfold NO_OF_TASKS
    omega
  obtain ⟨cand, hloop, hsc, _, hin⟩ :=
    createGanttLoop_spec count.toNat 0 inputs tasks hs (by unfold NO_OF_TASKS; omega) hlen hdeps
  have hwf := candidate_wf hsc h10 hlen hval hin
  have hin' : ∀ (k : Nat) (inp : TaskInput), inputs[k]? = some inp →
      ∃ t, cand[k]? = some t ∧ Matches t inp := by
    intro k inp hk
    simpa using hin k inp hk
  rcases detect_cases hwf with ⟨hd, hno⟩ | ⟨hd, hc⟩
  · exact ⟨cand, count, by simp [createGantt, hloop, hd], hwf, hin',
      Or.inr ⟨hd, hno, rfl⟩⟩
  · exact ⟨cand, 0, by simp [createGantt, hloop, hd], hwf, hin', Or.inl ⟨hd, hc, rfl⟩⟩

/-- C7. Create is a transaction on the whole store: for validated input
(`count <= 10` tasks, each valid for `count`), `createGantt` returns; the
candidate array holds the typed tasks (name, span, dependency list) at the
indices below `count`; the new `numOfTasks` is 0 when `detectCircularDependency`
returns 1 on the candidate (which then has a cycle) and `count` when it
returns 0 (the candidate is then acyclic). -/
theorem createGantt_transaction (tasks : List Task) (count : Int) (inputs : List TaskInput)
    (hs : Shaped tasks) (h10 : count ≤ 10) (hlen : inputs.length = count.toNat)
    (hval : ∀ inp ∈ inputs, inp.Valid count) :
    ∃ cand numTasks, createGantt tasks count inputs = some (cand, numTasks) ∧
      WellFormed cand count ∧
      (∀ (k : Nat) (inp : TaskInput), inputs[k]? = some inp →
        ∃ t, cand[k]? = some t ∧ Matches t inp) ∧
      ((detectCircularDependency cand count = some 1 ∧ HasCycle cand count ∧ numTasks = 0) ∨
       (detectCircularDependency cand count = some 0 ∧ ¬ HasCycle cand count ∧
          numTasks = count)) :=
  createGantt_spec tasks count inputs hs h10 hlen hval

theorem createGantt_transaction_witness :
    ∃ cand numTasks, createGantt blankTasks 2 twoInputs = some (cand, numTasks) ∧
      WellFormed cand 2 ∧
      (∀ (k : Nat) (inp : TaskInput), twoInputs[k]? = some inp →
        ∃ t, cand[k]? = some t ∧ Matches t inp) ∧
      ((detectCircularDependency cand 2 = some 1 ∧ HasCycle cand 2 ∧ numTasks = 0) ∨
       (detectCircularDependency cand 2 = some 0 ∧ ¬ HasCycle cand 2 ∧ numTasks = 2)) :=
  createGantt_transaction blankTasks 2 twoInputs (by decide) (by decide) (by decide)
    (by decide)

theorem loadTask_agrees (tasks ref : List Task) (k : Nat) (name : String) (s e : Int)
    (deps : List Int) (r : Task) (hs : Shaped tasks) (hk : k < NO_OF_TASKS)
    (hd : deps.length ≤ NO_OF_TASKS) (hag : AgreeBelow tasks ref k)
    (hr : ref[k]? = some r)
    (hrf : r.name = name ∧ r.startMonth = s ∧ r.endMonth = e ∧
      r.numDependencies = deps.length ∧ r.dependencies.take deps.length = deps) :
    ∃ tasks1, loadTask tasks k name s e deps = some tasks1 ∧ Shaped tasks1 ∧
      AgreeBelow tasks1 ref (k + 1) := by
  have hi : k < tasks.length := by rw [hs.1]; exact hk
  have ht : tasks[k]? = some tasks[k] := List.getElem?_eq_getElem hi
  have hdl : tasks[k].dependencies.length = NO_OF_TASKS := hs.2 _ (List.getElem_mem hi)
  obtain ⟨deps', hst, hlen, hin, _, _⟩ :=
    storeDependencies_spec deps 0 tasks[k].dependencies (by rw [hdl]; simpa using hd)
  have htake := take_eq_of_getElem? deps' deps (by rw [hlen, hdl]; exact hd) hin
  have hload : loadTask tasks k name s e deps = some (tasks.set k
      { name := name, startMonth := s, endMonth := e, dependencies := deps',
        numDependencies := deps.length }) := by
    simp [loadTask, ht, hst]
  refine ⟨_, hload, shaped_set hs k (hlen.trans hdl), ?_⟩
  intro m hm
  rcases Nat.lt_succ_iff_lt_or_eq.mp hm with hlt | heq
  · obtain ⟨t, r', h1, h2, h3⟩ := hag m hlt
    exact ⟨t, r', by rw [List.getElem?_set_ne (by omega)]; exact h1, h2, h3⟩
  · subst heq
    refine ⟨_, r, List.getElem?_set_self hi, hr, hrf.1.symm, hrf.2.1.symm, hrf.2.2.1.symm,
      hrf.2.2.2.1.symm, ?_⟩
    rw [hrf.2.2.2.1, Int.toNat_ofNat, hrf.2.2.2.2]
    exact htake

theorem loadTestTasks_spec (tasks : List Task) (hs : Shaped tasks) :
    ∃ tasks', loadTestTasks tasks = some (tasks', 10) ∧ Shaped tasks' ∧
      AgreeBelow tasks' demoTasks 10 := by
  have h0 : AgreeBelow tasks demoTasks 0 := fun m hm => absurd hm (Nat.not_lt_zero m)
  obtain ⟨t0, e0, s0, a0⟩ := loadTask_agrees tasks demoTasks 0 "Research" JAN MAR []
    (demoTasks.getD 0 blankTask) hs (by decide) (by decide) h0
    (by decide) (by decide)
  obtain ⟨t1, e1, s1, a1⟩ := loadTask_agrees t0 demoTasks 1 "Budget_Planning" FEB MAY []
    (demoTasks.getD 1 blankTask) s0 (by decide) (by decide) a0
    (by decide) (by decide)
  obtain ⟨t2, e2, s2, a2⟩ := loadTask_agrees t1 demoTasks 2 "Interior_design" MAR JUN [0, 1]
    (demoTasks.getD 2 blankTask) s1 (by decide) (by decide) a1
    (by decide) (by decide)
  obtain ⟨t3, e3, s3, a3⟩ := loadTask_agrees t2 demoTasks 3 "Site_Analysis" APR JUL [2]
    (demoTasks.getD 3 blankTask) s2 (by decide) (by decide) a2
    (by decide) (by decide)
  obtain ⟨t4, e4, s4, a4⟩ := loadTask_agrees t3 demoTasks 4 "Design_Development" MAY AUG []
    (demoTasks.getD 4 blankTask) s3 (by decide) (by decide) a3
    (by decide) (by decide)
  obtain ⟨t5, e5, s5, a5⟩ := loadTask_agrees t4 demoTasks 5 "Fixture_Selection" JUN SEP [3]
    (demoTasks.getD 5 blankTask) s4 (by decide) (by decide) a4
    (by decide) (by decide)
  obtain ⟨t6, e6, s6, a6⟩ := loadTask_agrees t5 demoTasks 6 "Permits_Approvals" JUL OCT [5]
    (demoTasks.getD 6 blankTask) s5 (by decide) (by decide) a5
    (by decide) (by decide)
  obtain ⟨t7, e7, s7, a7⟩ := loadTask_agrees t6 demoTasks 7 "Construction_phase" AUG NOV [6]
    (demoTasks.getD 7 blankTask) s6 (by decide) (by decide) a6
    (by decide) (by decide)
  obtain ⟨t8, e8, s8, a8⟩ := loadTask_agrees t7 demoTasks 8 "Interior_Finishing" SEP DEC []
    (demoTasks.getD 8 blankTask) s7 (by decide) (by decide) a7
    (by decide) (by decide)
  obtain ⟨t9, e9, s9, a9⟩ := loadTask_agrees t8 demoTasks 9 "Final_Inspection" OCT DEC [7, 8]
    (demoTasks.getD 9 blankTask) s8 (by decide) (by decide) a8
    (by decide) (by decide)
  exact ⟨t9, by simp [loadTestTasks, e0, e1, e2, e3, e4, e5, e6, e7, e8, e9], s9, a9⟩

theorem agree_depsOf {tasks ref : List Task} (hs : Shaped tasks) (hr : Shaped ref)
    (hag : AgreeBelow tasks ref NO_OF_TASKS) (i : Int) : depsOf tasks i = depsOf ref i := by
  by_cases hi : 0 ≤ i ∧ i.toNat < NO_OF_TASKS
  · obtain ⟨t, r, h1, h2, _, _, _, h3, h4⟩ := hag i.toNat hi.2
    have e1 : rd tasks i = some t := (rd_some_iff _ _ _).mpr ⟨hi.1, h1⟩
    have e2 : rd ref i = some r := (rd_some_iff _ _ _).mpr ⟨hi.1, h2⟩
    simp only [depsOf, e1, e2]
    rw [h3, h4]
  · have e1 : rd tasks i = none := by
      cases h : rd tasks i with
      | none => rfl
      | some t =>
        have := rd_lt h
        rw [hs.1] at this
        exact absurd this hi
    have e2 : rd ref i = none := by
      cases h : rd ref i with
      | none => rfl
      | some t =>
        have := rd_lt h
        rw [hr.1] at this
        exact absurd this hi
    simp only [depsOf, e1, e2]

theorem agree_wf {tasks ref : List Task} {n : Int} (hs : Shaped tasks)
    (hag : AgreeBelow tasks ref n.toNat) (hwf : WellFormed ref n) : WellFormed tasks n := by
  refine wf_intro hs hwf.2.1 ?_
  intro m t hm ht
  obtain ⟨t', r, h1, h2, _, _, _, h3, h4⟩ := hag m hm
  rw [ht] at h1
  cases h1
  have := (wf_get hwf hm h2).2
  rw [h3, h4]
  exact this

theorem hasCycle_congr {a b : List Task} (n : Int) (h : ∀ i, depsOf a i = depsOf b i) :
    HasCycle a n ↔ HasCycle b n := by
  have he : Edge a = Edge b := by
    funext x y
    simp only [Edge, h]
  unfold HasCycle
  rw [he]

theorem demo_shaped : Shaped demoTasks := by decide

theorem demo_wf : WellFormed demoTasks 10 := by decide

theorem demo_acyclic : ¬ HasCycle demoTasks 10 := by
  rcases detect_cases demo_wf with ⟨_, hno⟩ | ⟨h1, _⟩
  · exact hno
  · have h0 : detectCircularDependency demoTasks 10 = some 0 := by decide
    rw [h0] at h1
    cases h1

theorem loadTestTasks_inv (tasks : List Task) (hs : Shaped tasks) :
    ∃ tasks', loadTestTasks tasks = some (tasks', 10) ∧ WellFormed tasks' 10 ∧
      detectCircularDependency tasks' 10 = some 0 := by
  obtain ⟨tasks', hload, hs', hag⟩ := loadTestTasks_spec tasks hs
  have hwf : WellFormed tasks' 10 := agree_wf hs' hag demo_wf
  refine ⟨tasks', hload, hwf, ?_⟩
  rcases detect_cases hwf with ⟨h0, _⟩ | ⟨_, hc⟩
  · exact h0
  · exact absurd ((hasCycle_congr 10 (agree_depsOf hs' demo_shaped hag)).mp hc) demo_acyclic

theorem detect_zero (tasks : List Task) : detectCircularDependency tasks 0 = some 0 := rfl

theorem wf_zero {tasks : List Task} (hs : Shaped tasks) : WellFormed tasks 0 :=
  wf_intro hs (by decide) (fun m _ hm => absurd hm (Nat.not_lt_zero m))

theorem initial_consistent {s : Store} (h : Initial s) : Consistent s := by
  obtain ⟨tasks, n⟩ := s
  rcases h with ⟨hs, h0⟩ | ⟨tasks0, hs, hload⟩
  · simp only at hs h0
    subst h0
    exact ⟨wf_zero hs, detect_zero _⟩
  · obtain ⟨tasks', hl, hwf, hd⟩ := loadTestTasks_inv tasks0 hs
    rw [hl] at hload
    simp only [Option.some.injEq, Prod.mk.injEq] at hload
    obtain ⟨h1, h2⟩ := hload
    subst h1 h2
    exact ⟨hwf, hd⟩

theorem editTaskLoop_inv {tasks : List Task} {n : Int} (hwf : WellFormed tasks n)
    (hd0 : detectCircularDependency tasks n = some 0) (name : String) {input : TaskInput}
    (hv : input.Valid n) :
    ∀ (k j : Nat), j + k = n.toNat →
      ∃ tasks' o, editTaskLoop n name input k j tasks = some (tasks', o) ∧
        WellFormed tasks' n ∧ detectCircularDependency tasks' n = some 0
  | 0, j, _ => ⟨tasks, EditOutcome.notFound, rfl, hwf, hd0⟩
  | k + 1, j, hjk => by
    have hn := wf_le hwf
    have hj : j < tasks.length := by rw [hwf.1.1]; unfold NO_OF_TASKS; omega
    have ht : tasks[j]? = some tasks[j] := List.getElem?_eq_getElem hj
    by_cases hname : name = tasks[j].name
    · have hdl := (wf_get hwf (by omega) ht).1
      obtain ⟨t1, hr, hmatch, hl1⟩ := readTask_spec tasks[j] input
        (by rw [hdl]; have := hv.2.2.2.2.2.1; unfold NO_OF_TASKS; omega)
      have hm := matches_wf hmatch hv hn
      have hwf1 : WellFormed (tasks.set j t1) n := wf_set hwf j (hl1.trans hdl) hm.1 hm.2
      rcases detect_cases hwf1 with ⟨hd, _⟩ | ⟨hd, _⟩
      · exact ⟨tasks.set j t1, EditOutcome.updated,
          by simp [editTaskLoop, ht, ← hname, hr, hd], hwf1, hd⟩
      · refine ⟨tasks, EditOutcome.reverted, ?_, hwf, hd0⟩
        simp [editTaskLoop, ht, ← hname, hr, hd]
        exact set_self tasks j _ ht
    · obtain ⟨tasks', o, h, hw, hd⟩ := editTaskLoop_inv hwf hd0 name hv k (j + 1) (by omega)
      exact ⟨tasks', o, by simp [editTaskLoop, ht, hname, h], hw, hd⟩

theorem step_consistent {s : Store} (hc : Consistent s) (op : Op) (hv : op.Valid s.numTasks) :
    ∃ s1, step s op = some s1 ∧ Consistent s1 := by
  cases op with
  | create count inputs =>
    obtain ⟨_, h10, hlen, hval⟩ := hv
    obtain ⟨cand, n1, hcreate, hwf, _, hres⟩ :=
      createGantt_spec s.tasks count inputs hc.1.1 h10 hlen hval
    refine ⟨{ tasks := cand, numTasks := n1 }, by simp [step, hcreate], ?_⟩
    rcases hres with ⟨_, _, h0⟩ | ⟨hd, _, hn⟩
    · subst h0
      exact ⟨wf_zero hwf.1, detect_zero _⟩
    · subst hn
      exact ⟨hwf, hd⟩
  | edit taskToEdit input =>
    by_cases hn : s.numTasks = 0
    · refine ⟨s, ?_, hc⟩
      obtain ⟨tasks, n⟩ := s
      simp only at hn
      subst hn
      rfl
    · obtain ⟨tasks', o, h, hw, hd⟩ :=
        editTaskLoop_inv hc.1 hc.2 taskToEdit hv s.numTasks.toNat 0 (by omega)
      exact ⟨{ tasks := tasks', numTasks := s.numTasks }, by simp [step, editTask, hn, h],
        hw, hd⟩

theorem run_consistent : ∀ (ops : List Op) (s : Store), Consistent s → ValidFrom s ops →
    ∃ s1, run s ops = some s1 ∧ Consistent s1
  | [], s, hc, _ => ⟨s, rfl, hc⟩
  | op :: ops, s, hc, hv => by
    obtain ⟨s1, hs1, hc1⟩ := step_consistent hc op hv.1
    have hv1 : ValidFrom s1 ops := by
      have := hv.2
      rw [hs1] at this
      exact this
    obtain ⟨s2, hs2, hc2⟩ := run_consistent ops s1 hc1 hv1
    exact ⟨s2, by simp [run, hs1, hs2], hc2⟩

/-- C3. Acyclicity invariant: starting from the empty store or from the demo
dataset, every finite sequence of `createGantt` and `editTask` operations with
validated input runs to completion, and `detectCircularDependency` returns 0 on
the resulting store. -/
theorem acyclicity_invariant (s0 : Store) (ops : List Op) (hinit : Initial s0)
    (hvalid : ValidFrom s0 ops) :
    ∃ s, run s0 ops = some s ∧ detectCircularDependency s.tasks s.numTasks = some 0 := by
  obtain ⟨s, hrun, hc⟩ := run_consistent ops s0 (initial_consistent hinit) hvalid
  exact ⟨s, hrun, hc.2⟩

theorem demoStore_initial : Initial demoStore :=
  Or.inr ⟨blankTasks, by decide, by decide⟩

theorem acyclicity_invariant_witness :
    ∃ s, run demoStore demoSession = some s ∧
      detectCircularDependency s.tasks s.numTasks = some 0 :=
  acyclicity_invariant demoStore demoSession demoStore_initial (by decide)

/-! ## Longest dependency chain -/

theorem findCriticalPathLoop_eq (call : Int → PathState → Option PathState) (t : Task)
    (numOfTasks : Int) :
    ∀ (k i : Nat) (st : PathState), i + k ≤ t.dependencies.length →
      findCriticalPathLoop call t numOfTasks k i st
        = pathOver call numOfTasks ((t.dependencies.drop i).take k) st
  | 0, i, st, _ => by simp [findCriticalPathLoop, pathOver]
  | k + 1, i, st, h => by
    have hi : i < t.dependencies.length := by omega
    have ih := fun s => findCriticalPathLoop_eq call t numOfTasks k (i + 1) s (by omega)
    rw [List.drop_eq_getElem_cons hi, List.take_succ_cons]
    simp only [findCriticalPathLoop, pathOver, List.getElem?_eq_getElem hi,
      Option.bind_eq_bind, Option.some_bind, ih]

theorem storeDependencies_take (vals deps : List Int) (h : vals.length ≤ deps.length) :
    ∃ deps', storeDependencies vals 0 deps = some deps' ∧ deps'.length = deps.length ∧
      deps'.take vals.length = vals := by
  obtain ⟨deps', hs, hlen, hin, _, _⟩ := storeDependencies_spec vals 0 deps (by simpa using h)
  exact ⟨deps', hs, hlen, take_eq_of_getElem? deps' vals (by rw [hlen]; exact h) hin⟩

theorem copyPath_eq (cur : List Int) : ∀ (k i : Nat) (best : List Int), i + k ≤ cur.length →
    copyPath cur k i best = storeDependencies ((cur.drop i).take k) i best
  | 0, i, best, _ => by simp [copyPath, storeDependencies]
  | k + 1, i, best, h => by
    have hi : i < cur.length := by omega
    have ih := fun b => copyPath_eq cur k (i + 1) b (by omega)
    rw [List.drop_eq_getElem_cons hi, List.take_succ_cons]
    simp only [copyPath, storeDependencies, List.getElem?_eq_getElem hi, Option.bind_eq_bind,
      Option.some_bind, ih]

theorem copyPath_spec (cur best : List Int) (k : Nat) (hk : k ≤ cur.length)
    (hb : k ≤ best.length) :
    ∃ best', copyPath cur k 0 best = some best' ∧ best'.length = best.length ∧
      best'.take k = cur.take k := by
  have hl : (cur.take k).length = k := by simp [hk]
  obtain ⟨best', hs, hlen, ht⟩ := storeDependencies_take (cur.take k) best (by rw [hl]; exact hb)
  refine ⟨best', ?_, hlen, ?_⟩
  · rw [copyPath_eq cur k 0 best (by omega), List.drop_zero]
    exact hs
  · rw [hl] at ht
    exact ht

theorem printPath_spec (tasks : List Task) (best : List Int) :
    ∀ (k i : Nat), i + k ≤ best.length →
      (∀ x ∈ (best.drop i).take k, ∃ t, rd tasks x = some t) →
      printPath tasks best k i = some ((best.drop i).take k)
  | 0, i, _, _ => by simp [printPath]
  | k + 1, i, h, hall => by
    have hi : i < best.length := by omega
    rw [List.drop_eq_getElem_cons hi, List.take_succ_cons] at hall ⊢
    obtain ⟨t, ht⟩ := hall best[i] (List.mem_cons_self _ _)
    have ih := printPath_spec tasks best k (i + 1) (by omega)
      (fun x hx => hall x (List.mem_cons_of_mem _ hx))
    simp [printPath, List.getElem?_eq_getElem hi, ht, ih]

theorem nodup_length_le {l : List Int} {n : Int} (hnd : l.Nodup)
    (hall : ∀ x ∈ l, 0 ≤ x ∧ x < n) : l.length ≤ n.toNat := by
  have hsub : l ⊆ (List.range n.toNat).map (fun k : Nat => (k : Int)) := by
    intro x hx
    obtain ⟨h0, h1⟩ := hall x hx
    exact List.mem_map.mpr ⟨x.toNat, List.mem_range.mpr (by omega), Int.toNat_of_nonneg h0⟩
  have := (List.subperm_of_subset hnd hsub).length_le
  simpa using this

theorem pathStep_refl {tasks : List Task} {n start : Int} {k : Nat} (st : PathState) :
    PathStep tasks n start k st st :=
  ⟨rfl, rfl, rfl, rfl, le_refl _, id⟩

theorem pathStep_trans {tasks : List Task} {n start : Int} {k : Nat} {a b c : PathState}
    (h1 : PathStep tasks n start k a b) (h2 : PathStep tasks n start k b c) :
    PathStep tasks n start k a c :=
  ⟨h2.vis.trans h1.vis, h2.cur.trans h1.cur, h2.lenC.trans h1.lenC, h2.lenB.trans h1.lenB,
    le_trans h1.mono h2.mono, fun h => h2.best (h1.best h)⟩

theorem pathInv_step {tasks : List Task} {n start : Int} {st st' : PathState} {p : List Int}
    (h : PathInv tasks n st p) (hs : PathStep tasks n start p.length st st') :
    PathInv tasks n st' p :=
  ⟨hs.lenC.trans h.lenC, hs.lenB.trans h.lenB, by rw [hs.vis]; exact h.lenV,
    hs.cur.trans h.cur, by rw [hs.vis]; exact h.marks, h.nodup, h.nodes, h.chain⟩

theorem take_of_take_succ {α : Type} {a b : List α} {k : Nat}
    (h : a.take (k + 1) = b.take (k + 1)) : a.take k = b.take k := by
  have := congrArg (List.take k) h
  simpa [List.take_take] using this

theorem chain_reach {tasks : List Task} : ∀ (l : List Int) (a b : Int),
    List.Chain (Edge tasks) a l → b ∈ l → Relation.TransGen (Edge tasks) a b
  | [], _, _, _, hb => by cases hb
  | x :: l, a, b, hch, hb => by
    rw [List.chain_cons] at hch
    rcases List.mem_cons.mp hb with rfl | hb
    · exact Relation.TransGen.single hch.1
    · exact Relation.TransGen.head hch.1 (chain_reach l x b hch.2 hb)

theorem chain_revisit {tasks : List Task} {p : List Int} {c : Int}
    (hch : List.Chain' (Edge tasks) (p ++ [c])) (hc : c ∈ p) :
    Relation.TransGen (Edge tasks) c c := by
  obtain ⟨l1, l2, rfl⟩ := List.append_of_mem hc
  rw [List.append_assoc] at hch
  have h2 : List.Chain' (Edge tasks) (c :: l2 ++ [c]) := hch.right_of_append
  exact chain_reach (l2 ++ [c]) c c h2 (by simp)

theorem recordBest_spec {tasks : List Task} {n : Int} (start : Int) {st : PathState}
    {p : List Int}
    (hinv : PathInv tasks n st p) (hp : p ≠ []) (hhead : p.head? = some start)
    (hlen : p.length ≤ 10) :
    ∃ st2, recordBest st p.length = some st2 ∧ st2.visited = st.visited ∧
      st2.currentPath = st.currentPath ∧ st2.bestPath.length = st.bestPath.length ∧
      st.maxLength ≤ st2.maxLength ∧ (p.length : Int) ≤ st2.maxLength ∧
      (BestOK tasks n start st → BestOK tasks n start st2) := by
  by_cases hgt : (p.length : Int) > st.maxLength
  · obtain ⟨best', hcopy, hbl, htake⟩ := copyPath_spec st.currentPath st.bestPath p.length
      (by rw [hinv.lenC]; exact hlen) (by rw [hinv.lenB]; exact hlen)
    refine ⟨{ st with maxLength := p.length, bestPath := best' }, ?_, rfl, rfl, hbl,
      le_of_lt hgt, le_refl _, ?_⟩
    · simp [recordBest, hgt, hcopy]
    · intro _
      refine ⟨Int.ofNat_nonneg _, by show (p.length : Int) ≤ 10; omega, fun _ => ?_⟩
      show GoodPath tasks n start (best'.take (p.length : Int).toNat)
      rw [Int.toNat_ofNat, htake, hinv.cur]
      exact ⟨hhead, hinv.chain, hinv.nodes⟩
  · refine ⟨st, by simp [recordBest, hgt], rfl, rfl, rfl, le_refl _, by omega, id⟩

theorem pathOver_spec {tasks : List Task} {n start : Int} {fuel : Nat}
    (ih : PathCallSpec tasks n start fuel) (c : Int) (p : List Int)
    (hhead : (p ++ [c]).head? = some start) :
    ∀ (deps : List Int) (st : PathState), (∀ d ∈ deps, 0 ≤ d ∧ d < n) →
      (∀ d ∈ deps, Edge tasks c d) → PathInv tasks n st (p ++ [c]) →
      st.visited.count 0 < fuel →
      ∃ st', pathOver (fun dep s => findCriticalPath tasks n fuel dep ((p.length : Int) + 1) s)
          n deps st = some st' ∧
        PathStep tasks n start (p.length + 1) st st' ∧
        (¬ HasCycle tasks n → ∀ d ∈ deps, ∀ q, List.Chain (Edge tasks) d q →
          (p.length : Int) + 1 + 1 + q.length ≤ st'.maxLength) := by
  intro deps
  induction deps with
  | nil =>
    intro st _ _ _ _
    exact ⟨st, rfl, pathStep_refl st, fun _ d hd => by cases hd⟩
  | cons d rest ihl =>
    intro st hnode hedge hinv hcount
    have hd := hnode d (List.mem_cons_self _ _)
    have hed := hedge d (List.mem_cons_self _ _)
    have hlen : (p ++ [c]).length = p.length + 1 := by simp
    have hch : List.Chain' (Edge tasks) (p ++ [c] ++ [d]) := by
      refine List.Chain'.append hinv.chain (List.chain'_singleton d) ?_
      intro x hx y hy
      simp at hx hy
      subst hx hy
      exact hed
    have hhead' : (p ++ [c] ++ [d]).head? = some start := by
      rw [List.head?_append_of_ne_nil _ (by simp)]
      exact hhead
    obtain ⟨st1, hcall, hstep, _, hmax⟩ := ih d (p ++ [c]) st hd.1 hd.2 hinv hch hhead' hcount
    rw [hlen] at hcall hstep hmax
    have hcall' : findCriticalPath tasks n fuel d ((p.length : Int) + 1) st = some st1 := by
      rw [← hcall]
      congr 1
    have hinv1 : PathInv tasks n st1 (p ++ [c]) := pathInv_step hinv (by rw [hlen]; exact hstep)
    obtain ⟨st', hrest, hstep', hmax'⟩ := ihl st1
      (fun x hx => hnode x (List.mem_cons_of_mem _ hx))
      (fun x hx => hedge x (List.mem_cons_of_mem _ hx)) hinv1 (by rw [hstep.vis]; exact hcount)
    refine ⟨st', ?_, pathStep_trans hstep hstep', ?_⟩
    · simp [pathOver, hd.1, hd.2, hcall', hrest]
    · intro hac x hx q hq
      rcases List.mem_cons.mp hx with rfl | hx
      · have := hmax hac q hq
        have := hstep'.mono
        push_cast at *
        omega
      · exact hmax' hac x hx q hq

theorem set_take_succ {α : Type} (a : List α) (k : Nat) (x : α) (h : k < a.length) :
    (a.set k x).take (k + 1) = a.take k ++ [x] := by
  apply List.ext_getElem?
  intro j
  rw [List.getElem?_take]
  by_cases hj : j < k
  · rw [if_pos (by omega), List.getElem?_set_ne (by omega),
      List.getElem?_append_left (by simp; omega), List.getElem?_take_of_lt hj]
  · by_cases hjk : j = k
    · subst hjk
      rw [if_pos (by omega), List.getElem?_set_self h,
        List.getElem?_append_right (by simp), List.length_take, Nat.min_eq_left (by omega)]
      simp
    · rw [if_neg (by omega), List.getElem?_eq_none (by simp; omega)]

theorem set_take {α : Type} (a : List α) (k : Nat) (x : α) :
    (a.set k x).take k = a.take k := by
  apply List.ext_getElem?
  intro j
  rw [List.getElem?_take, List.getElem?_take]
  split
  · rw [List.getElem?_set_ne (by omega)]
  · rfl

theorem findCriticalPath_spec {tasks : List Task} {n : Int} (hwf : WellFormed tasks n)
    (start : Int) : ∀ fuel, PathCallSpec tasks n start fuel := by
  intro fuel
  induction fuel with
  | zero =>
    intro c p st _ _ _ _ _ hcount
    exact absurd hcount (Nat.not_lt_zero _)
  | succ fuel ih =>
    intro c p st hc0 hc1 hinv hchain hhead hcount
    have hn := wf_le hwf
    obtain ⟨v, hv⟩ := rd_mark hinv.lenV hn hc0 hc1
    by_cases hv0 : v = 0
    · subst hv0
      have hcp : c ∉ p := fun h => not_marked_of_rd hv ((hinv.marks c).mpr h)
      have hnd : (p ++ [c]).Nodup := by
        rw [List.nodup_append]
        refine ⟨hinv.nodup, List.nodup_singleton c, ?_⟩
        intro x hx hx'
        rw [List.mem_singleton] at hx'
        exact hcp (hx' ▸ hx)
      have hnodes : ∀ x ∈ p ++ [c], 0 ≤ x ∧ x < n := by
        intro x hx
        rcases List.mem_append.mp hx with h | h
        · exact hinv.nodes x h
        · rw [List.mem_singleton] at h
          rw [h]
          exact ⟨hc0, hc1⟩
      have hlen1 : (p ++ [c]).length = p.length + 1 := by simp
      have hpl : p.length + 1 ≤ n.toNat := by
        have := nodup_length_le hnd hnodes
        rwa [hlen1] at this
      have hlv : c.toNat < st.visited.length := by rw [hinv.lenV]; unfold NO_OF_TASKS; omega
      have hlc : p.length < st.currentPath.length := by
        rw [hinv.lenC]; unfold NO_OF_TASKS; omega
      have hwv := wr_of_lt st.visited c 1 hc0 hlv
      have hwc := wr_nat st.currentPath p.length c hlc
      obtain ⟨t, ht, hlen_t, hnum, hdeps, hdn⟩ := wf_task hwf hc0 hc1
      obtain ⟨st1, hst1⟩ : ∃ st1 : PathState, st1 =
          { st with visited := st.visited.set c.toNat 1,
                    currentPath := st.currentPath.set p.length c } := ⟨_, rfl⟩
      have hinv1 : PathInv tasks n st1 (p ++ [c]) := by
        subst hst1
        refine ⟨by simpa using hinv.lenC, hinv.lenB, by simpa using hinv.lenV, ?_, ?_, hnd,
          hnodes, hchain⟩
        · show (st.currentPath.set p.length c).take (p ++ [c]).length = p ++ [c]
          rw [hlen1, set_take_succ _ _ _ hlc, hinv.cur]
        · intro i
          show Marked (st.visited.set c.toNat 1) i ↔ i ∈ p ++ [c]
          rw [marked_wr_iff hwv one_ne_zero, hinv.marks, List.mem_append, List.mem_singleton]
          exact or_comm
      obtain ⟨st2, hrec, h2v, h2c, h2b, h2m, h2l, h2best⟩ :=
        recordBest_spec start hinv1 (by simp) hhead (by rw [hlen1]; omega)
      rw [hlen1] at hrec h2l
      have hrec' : recordBest st1 ((p.length : Int) + 1) = some st2 := by
        rw [← hrec]
        congr 1
      have hstep12 : PathStep tasks n start (p ++ [c]).length st1 st2 :=
        ⟨h2v, by rw [h2c], by rw [h2c], h2b, h2m, h2best⟩
      have hinv2 : PathInv tasks n st2 (p ++ [c]) := pathInv_step hinv1 hstep12
      have hv1 : st1.visited = st.visited.set c.toNat 1 := by rw [hst1]
      have hcnt := count_wr hwv hv
      have hcount2 : st2.visited.count 0 < fuel := by
        rw [h2v, hv1]
        omega
      obtain ⟨st3, hloop, hstep3, hmax3⟩ := pathOver_spec ih c p hhead (depsOf tasks c) st2
        hdn (fun d hd => hd) hinv2 hcount2
      have heq : findCriticalPathLoop
          (fun dep s => findCriticalPath tasks n fuel dep ((p.length : Int) + 1) s) t n
          t.numDependencies.toNat 0 st2 = some st3 := by
        rw [findCriticalPathLoop_eq _ _ _ _ _ _ (by omega), List.drop_zero, ← hdeps]
        exact hloop
      have hrestore : wr st3.visited c 0 = some st.visited := by
        rw [hstep3.vis, h2v, hv1]
        exact wr_restore hwv hv
      have hfun : findCriticalPath tasks n (fuel + 1) c p.length st
          = some { st3 with visited := st.visited } := by
        simp only [findCriticalPath, hv, hwv, hwc, ← hst1, hrec', ht, heq, hrestore,
          Option.bind_eq_bind, Option.some_bind, ne_eq, not_true_eq_false, if_false,
          Option.pure_def]
      refine ⟨_, hfun, ⟨rfl, ?_, ?_, ?_, ?_, ?_⟩, ?_, ?_⟩
      · show st3.currentPath.take p.length = st.currentPath.take p.length
        rw [take_of_take_succ hstep3.cur, h2c, hst1]
        exact set_take _ _ _
      · show st3.currentPath.length = st.currentPath.length
        rw [hstep3.lenC, h2c, hst1]
        simp
      · show st3.bestPath.length = st.bestPath.length
        rw [hstep3.lenB, h2b, hst1]
      · show st.maxLength ≤ st3.maxLength
        have := hstep3.mono
        have : st1.maxLength = st.maxLength := by rw [hst1]
        omega
      · intro hb
        have hb1 : BestOK tasks n start st1 := by rw [hst1]; exact hb
        exact hstep3.best (h2best hb1)
      · intro _
        show (p.length : Int) + 1 ≤ st3.maxLength
        have := hstep3.mono
        push_cast at h2l
        omega
      · intro hac q hq
        show (p.length : Int) + 1 + q.length ≤ st3.maxLength
        cases q with
        | nil =>
          have := hstep3.mono
          simp only [List.length_nil]
          push_cast at h2l ⊢
          omega
        | cons d q' =>
          rw [List.chain_cons] at hq
          have := hmax3 hac d hq.1 q' hq.2
          simp only [List.length_cons]
          push_cast at this ⊢
          omega
    · have hcp : c ∈ p := (hinv.marks c).mp (marked_of_rd hv hv0)
      refine ⟨st, ?_, pathStep_refl st, fun h => absurd hcp h, ?_⟩
      · simp [findCriticalPath, hv, hv0]
      · intro hac
        exact absurd ⟨c, hc0, hc1, chain_revisit hchain hcp⟩ hac

theorem pathInv_init (tasks : List Task) (n : Int) : PathInv tasks n initPathState [] :=
  ⟨by simp [initPathState], by simp [initPathState], by simp [initPathState], rfl,
    fun i => ⟨fun h => absurd h (not_marked_replicate _ i),
      fun h => absurd h (List.not_mem_nil i)⟩,
    List.nodup_nil, fun x h => absurd h (List.not_mem_nil x), List.chain'_nil⟩

theorem criticalPathRun_spec {tasks : List Task} {n : Int} (hwf : WellFormed tasks n)
    (start : Int) (h0 : 0 ≤ start) (h1 : start < n) :
    ∃ st, criticalPathRun tasks n start = some st ∧
      st.bestPath.length = NO_OF_TASKS ∧ st.visited = initPathState.visited ∧
      1 ≤ st.maxLength ∧ st.maxLength ≤ 10 ∧
      GoodPath tasks n start (st.bestPath.take st.maxLength.toNat) ∧
      (¬ HasCycle tasks n → ∀ q, List.Chain (Edge tasks) start q →
        1 + (q.length : Int) ≤ st.maxLength) := by
  have hcount : initPathState.visited.count 0 < NO_OF_TASKS + 1 := by
    simp [initPathState]
  obtain ⟨st, hrun, hstep, hlen, hmax⟩ :=
    findCriticalPath_spec hwf start (NO_OF_TASKS + 1) start [] initPathState h0 h1
      (pathInv_init tasks n) (List.chain'_singleton start) rfl hcount
  have hbest0 : BestOK tasks n start initPathState :=
    ⟨le_refl _, by decide, fun h => absurd h (by decide)⟩
  have hbest := hstep.best hbest0
  have hlen' : 1 ≤ st.maxLength := by
    have := hlen (fun h => by cases h)
    simpa using this
  refine ⟨st, hrun, ?_, hstep.vis, hlen', hbest.2.1, hbest.2.2 (by omega), ?_⟩
  · rw [hstep.lenB]
    simp [initPathState]
  · intro hac q hq
    have := hmax hac q hq
    simpa using this

theorem testCriticalPath_spec {tasks : List Task} {n : Int} (hwf : WellFormed tasks n)
    (start : Int) (h0 : 0 ≤ start) (h1 : start < n) :
    ∃ st r, criticalPathRun tasks n start = some st ∧
      testCriticalPath tasks n (start + 1)
        = some (st.bestPath.take st.maxLength.toNat, r) ∧
      ((st.bestPath.take st.maxLength.toNat).length : Int) = st.maxLength ∧
      GoodPath tasks n start (st.bestPath.take st.maxLength.toNat) ∧
      (¬ HasCycle tasks n → ∀ q, List.Chain (Edge tasks) start q →
        1 + (q.length : Int) ≤ st.maxLength) := by
  obtain ⟨st, hrun, hbl, _, hge, hle, hgood, hmax⟩ := criticalPathRun_spec hwf start h0 h1
  have hprint : printPath tasks st.bestPath st.maxLength.toNat 0
      = some (st.bestPath.take st.maxLength.toNat) := by
    have := printPath_spec tasks st.bestPath st.maxLength.toNat 0
      (by rw [hbl]; unfold NO_OF_TASKS; omega)
      (by
        rw [List.drop_zero]
        intro x hx
        obtain ⟨t, ht, _⟩ := wf_task hwf (hgood.2.2 x hx).1 (hgood.2.2 x hx).2
        exact ⟨t, ht⟩)
    rwa [List.drop_zero] at this
  obtain ⟨r, hr⟩ : ∃ r, detectCircularDependency tasks n = some r := by
    rcases detect_cases hwf with ⟨h, _⟩ | ⟨h, _⟩
    · exact ⟨0, h⟩
    · exact ⟨1, h⟩
  refine ⟨st, r, hrun, ?_, ?_, hgood, hmax⟩
  · simp [testCriticalPath, hrun, hprint, hr]
  · rw [List.length_take, hbl]
    unfold NO_OF_TASKS
    omega

/-- C5. Longest-chain validity: for a well-formed store and a start index `i`
below `numTasks`, `testCriticalPath` (entered task number `i + 1`) returns, and
the chain it prints is non-empty, starts at `i`, and each next element occurs in
the dependency list of the previous one.  (This holds whether or not the store
has a cycle.) -/
theorem critical_path_valid (tasks : List Task) (numTasks : Int) (i : Int)
    (hwf : WellFormed tasks numTasks) (h0 : 0 ≤ i) (h1 : i < numTasks) :
    ∃ path r, testCriticalPath tasks numTasks (i + 1) = some (path, r) ∧
      path ≠ [] ∧ path.head? = some i ∧
      List.Chain' (fun a b => b ∈ depsOf tasks a) path := by
  obtain ⟨st, r, _, htest, _, hgood, _⟩ := testCriticalPath_spec hwf i h0 h1
  refine ⟨_, r, htest, ?_, hgood.1, hgood.2.1⟩
  intro hnil
  have := hgood.1
  rw [hnil] at this
  cases this

theorem critical_path_valid_witness :
    ∃ path r, testCriticalPath demoTasks 10 (9 + 1) = some (path, r) ∧
      path ≠ [] ∧ path.head? = some 9 ∧
      List.Chain' (fun a b => b ∈ depsOf demoTasks a) path :=
  critical_path_valid demoTasks 10 9 (by decide) (by decide) (by decide)

/-- C6. Longest-chain maximality: for a well-formed store without cycles and a
start index `i` below `numTasks`, the chain printed by `testCriticalPath` has
`maxLength` elements, is itself a dependency chain from `i`, and no dependency
chain that starts at `i` is longer; so `maxLength` is the maximum node count of
a dependency chain starting at `i`. -/
theorem critical_path_maximal (tasks : List Task) (numTasks : Int) (i : Int)
    (hwf : WellFormed tasks numTasks) (hacyc : ¬ HasCycle tasks numTasks)
    (h0 : 0 ≤ i) (h1 : i < numTasks) :
    ∃ st path r, criticalPathRun tasks numTasks i = some st ∧
      testCriticalPath tasks numTasks (i + 1) = some (path, r) ∧
      (path.length : Int) = st.maxLength ∧
      path.head? = some i ∧ List.Chain' (Edge tasks) path ∧
      ∀ q : List Int, q.head? = some i → List.Chain' (Edge tasks) q →
        q.length ≤ path.length := by
  obtain ⟨st, r, hrun, htest, hlen, hgood, hmax⟩ := testCriticalPath_spec hwf i h0 h1
  refine ⟨st, _, r, hrun, htest, hlen, hgood.1, hgood.2.1, ?_⟩
  intro q hq hch
  cases q with
  | nil => cases hq
  | cons a q' =>
    simp only [List.head?_cons, Option.some.injEq] at hq
    subst hq
    have := hmax hacyc q' hch
    simp only [List.length_cons]
    omega

theorem critical_path_maximal_witness :
    ∃ st path r, criticalPathRun demoTasks 10 9 = some st ∧
      testCriticalPath demoTasks 10 (9 + 1) = some (path, r) ∧
      (path.length : Int) = st.maxLength ∧
      path.head? = some 9 ∧ List.Chain' (Edge demoTasks) path ∧
      ∀ q : List Int, q.head? = some 9 → List.Chain' (Edge demoTasks) q →
        q.length ≤ path.length :=
  critical_path_maximal demoTasks 10 9 (by decide) demo_acyclic (by decide) (by decide)

/-! ## Edit commits, store invariant, demo edit -/

theorem editTask_found {tasks : List Task} {n : Int} (hwf : WellFormed tasks n)
    (taskToEdit : String) {input : TaskInput} (hv : input.Valid n) {i : Nat} {t : Task}
    (hi : i < n.toNat) (ht : tasks[i]? = some t) (hname : t.name = taskToEdit)
    (hfirst : ∀ j, j < i → ∀ u, tasks[j]? = some u → u.name ≠ taskToEdit) :
    ∃ t1, readTask t input = some t1 ∧ Matches t1 input ∧
      t1.dependencies.length = NO_OF_TASKS ∧ WellFormed (tasks.set i t1) n ∧
      ((detectCircularDependency (tasks.set i t1) n = some 0 ∧ ¬ HasCycle (tasks.set i t1) n ∧
          editTask tasks n taskToEdit input = some (tasks.set i t1, EditOutcome.updated)) ∨
       (detectCircularDependency (tasks.set i t1) n = some 1 ∧ HasCycle (tasks.set i t1) n ∧
          editTask tasks n taskToEdit input = some (tasks, EditOutcome.reverted))) := by
  have hn := wf_le hwf
  have hn0 : n ≠ 0 := by
    intro h
    rw [h] at hi
    simp at hi
  have hdl := (wf_get hwf hi ht).1
  obtain ⟨t1, hr, hmatch, hl1⟩ := readTask_spec t input
    (by rw [hdl]; have := hv.2.2.2.2.2.1; unfold NO_OF_TASKS; omega)
  have hm := matches_wf hmatch hv hn
  have hwf1 : WellFormed (tasks.set i t1) n := wf_set hwf i (hl1.trans hdl) hm.1 hm.2
  have hloop := editTaskLoop_found n taskToEdit input tasks i t ht hname hfirst n.toNat 0
    (Nat.zero_le i) (by omega)
  refine ⟨t1, hr, hmatch, hl1.trans hdl, hwf1, ?_⟩
  rcases detect_cases hwf1 with ⟨hd, hno⟩ | ⟨hd, hc⟩
  · refine Or.inl ⟨hd, hno, ?_⟩
    unfold editTask
    rw [if_neg hn0, hloop, hr, Option.some_bind, hd, Option.some_bind, if_neg (by decide)]
  · refine Or.inr ⟨hd, hc, ?_⟩
    unfold editTask
    rw [if_neg hn0, hloop, hr, Option.some_bind, hd, Option.some_bind, if_pos (by decide),
      List.set_set, set_self tasks i t ht]

/-- C11. Edit commits exactly when the result is acyclic: on a well-formed store,
when the task named `taskToEdit` is found (first at index `i`) and the new fields
are validated, `editTask` returns; with `t1` the record holding the new fields
(name, months, dependency list), if the whole store with task `i` replaced by
`t1` has no cycle the edit is committed and task `i` is `t1`, and if that store
has a cycle anywhere (through task `i` only or through other tasks as well) the
edit is rejected and the store is the old one. -/
theorem editTask_commit (tasks : List Task) (numOfTasks : Int) (taskToEdit : String)
    (input : TaskInput) (i : Nat) (t : Task) (hwf : WellFormed tasks numOfTasks)
    (hv : input.Valid numOfTasks) (hi : i < numOfTasks.toNat) (ht : tasks[i]? = some t)
    (hname : t.name = taskToEdit)
    (hfirst : ∀ j, j < i → ∀ u, tasks[j]? = some u → u.name ≠ taskToEdit) :
    ∃ t1, readTask t input = some t1 ∧ Matches t1 input ∧
      (¬ HasCycle (tasks.set i t1) numOfTasks →
        editTask tasks numOfTasks taskToEdit input
          = some (tasks.set i t1, EditOutcome.updated) ∧
        (tasks.set i t1)[i]? = some t1) ∧
      (HasCycle (tasks.set i t1) numOfTasks →
        editTask tasks numOfTasks taskToEdit input = some (tasks, EditOutcome.reverted)) := by
  obtain ⟨t1, hr, hmatch, _, _, hcases⟩ := editTask_found hwf taskToEdit hv hi ht hname hfirst
  have hil : i < tasks.length := (List.getElem?_eq_some_iff.mp ht).1
  refine ⟨t1, hr, hmatch, ?_, ?_⟩
  · intro hno
    rcases hcases with ⟨_, _, he⟩ | ⟨_, hc, _⟩
    · exact ⟨he, List.getElem?_set_self hil⟩
    · exact absurd hc hno
  · intro hc
    rcases hcases with ⟨_, hno, _⟩ | ⟨_, _, he⟩
    · exact absurd hc hno
    · exact he

theorem editTask_commit_witness :
    ∃ t1, readTask (demoTasks.getD 0 blankTask) researchEdit = some t1 ∧
      Matches t1 researchEdit ∧
      (¬ HasCycle (demoTasks.set 0 t1) 10 →
        editTask demoTasks 10 "Research" researchEdit
          = some (demoTasks.set 0 t1, EditOutcome.updated) ∧
        (demoTasks.set 0 t1)[0]? = some t1) ∧
      (HasCycle (demoTasks.set 0 t1) 10 →
        editTask demoTasks 10 "Research" researchEdit
          = some (demoTasks, EditOutcome.reverted)) :=
  editTask_commit demoTasks 10 "Research" researchEdit 0 (demoTasks.getD 0 blankTask)
    (by decide) (by decide) (by decide) (by decide) (by decide)
    (fun j hj => absurd hj (Nat.not_lt_zero j))

theorem forall_take_iff {α : Type} (l : List α) (k : Nat) (P : α → Prop) :
    (∀ t ∈ l.take k, P t) ↔ ∀ m t, m < k → l[m]? = some t → P t := by
  constructor
  · intro h m t hm ht
    apply h
    apply List.getElem?_mem (n := m)
    rw [List.getElem?_take_of_lt hm]
    exact ht
  · intro h t ht
    obtain ⟨m, hm⟩ := List.mem_iff_getElem?.mp ht
    rw [List.getElem?_take] at hm
    split at hm
    · rename_i hlt
      exact h m t hlt hm
    · cases hm

theorem taskOK_of_matches {t1 : Task} {input : TaskInput} {n : Int} (hm : Matches t1 input)
    (hv : input.Valid n) (hn : n ≤ 10) : TaskOK n t1 := by
  have hw := matches_wf hm hv hn
  obtain ⟨_, hs, he, hnum, _⟩ := hm
  obtain ⟨h1, _, _, h4, h5, hlen, _⟩ := hv
  refine ⟨by rw [hs]; exact h1, by rw [hs, he]; exact h5, by rw [he]; exact h4, ?_, ?_, hw.2⟩
  · rw [hnum]; exact Int.ofNat_nonneg _
  · rw [hnum]; exact hlen

theorem taskOK_sameUsed {t r : Task} {n : Int} (h : SameUsed t r) (hr : TaskOK n r) :
    TaskOK n t := by
  obtain ⟨_, hs, he, hnum, htake⟩ := h
  unfold TaskOK
  rw [hs, he, hnum, htake]
  exact hr

theorem demoStore_ok : StoreOK demoStore := by decide

theorem storeOK_mk {tasks : List Task} {n : Int} (h0 : 0 ≤ n) (h10 : n ≤ 10)
    (h : ∀ m t, m < n.toNat → tasks[m]? = some t → TaskOK n t) :
    StoreOK { tasks := tasks, numTasks := n } :=
  ⟨h0, h10, (forall_take_iff _ _ _).mpr h⟩

theorem storeOK_zero (tasks : List Task) : StoreOK { tasks := tasks, numTasks := 0 } :=
  storeOK_mk (le_refl _) (by decide) (fun m _ hm => absurd hm (Nat.not_lt_zero m))

theorem initial_sound {s : Store} (h : Initial s) : Sound s := by
  refine ⟨initial_consistent h, ?_⟩
  obtain ⟨tasks, n⟩ := s
  rcases h with ⟨_, h0⟩ | ⟨tasks0, hs, hload⟩
  · simp only at h0
    subst h0
    exact storeOK_zero tasks
  · obtain ⟨tasks', hl, _, hag⟩ := loadTestTasks_spec tasks0 hs
    rw [hl] at hload
    simp only [Option.some.injEq, Prod.mk.injEq] at hload
    obtain ⟨h1, h2⟩ := hload
    subst h1 h2
    refine storeOK_mk (by decide) (by decide) ?_
    intro m t hm ht
    obtain ⟨t', r, h1, h2, h3⟩ := hag m hm
    rw [ht] at h1
    cases h1
    have hr : TaskOK 10 r := (forall_take_iff _ _ _).mp demoStore_ok.2.2 m r hm h2
    exact taskOK_sameUsed h3 hr

theorem editTaskLoop_sound {tasks : List Task} {n : Int} (hwf : WellFormed tasks n)
    (hd0 : detectCircularDependency tasks n = some 0)
    (hok : ∀ m t, m < n.toNat → tasks[m]? = some t → TaskOK n t) (name : String)
    {input : TaskInput} (hv : input.Valid n) :
    ∀ (k j : Nat), j + k = n.toNat →
      ∃ tasks' o, editTaskLoop n name input k j tasks = some (tasks', o) ∧
        WellFormed tasks' n ∧ detectCircularDependency tasks' n = some 0 ∧
        ∀ m t, m < n.toNat → tasks'[m]? = some t → TaskOK n t
  | 0, j, _ => ⟨tasks, EditOutcome.notFound, rfl, hwf, hd0, hok⟩
  | k + 1, j, hjk => by
    have hn := wf_le hwf
    have hj : j < tasks.length := by rw [hwf.1.1]; unfold NO_OF_TASKS; omega
    have ht : tasks[j]? = some tasks[j] := List.getElem?_eq_getElem hj
    by_cases hname : name = tasks[j].name
    · have hdl := (wf_get hwf (by omega) ht).1
      obtain ⟨t1, hr, hmatch, hl1⟩ := readTask_spec tasks[j] input
        (by rw [hdl]; have := hv.2.2.2.2.2.1; unfold NO_OF_TASKS; omega)
      have hm := matches_wf hmatch hv hn
      have hwf1 : WellFormed (tasks.set j t1) n := wf_set hwf j (hl1.trans hdl) hm.1 hm.2
      rcases detect_cases hwf1 with ⟨hd, _⟩ | ⟨hd, _⟩
      · refine ⟨tasks.set j t1, EditOutcome.updated,
          by simp [editTaskLoop, ht, ← hname, hr, hd], hwf1, hd, ?_⟩
        intro m t hm' ht'
        rcases getElem?_set_some ht' with ⟨_, rfl⟩ | ⟨_, ht''⟩
        · exact taskOK_of_matches hmatch hv hn
        · exact hok m t hm' ht''
      · refine ⟨tasks, EditOutcome.reverted, ?_, hwf, hd0, hok⟩
        simp [editTaskLoop, ht, ← hname, hr, hd]
        exact set_self tasks j _ ht
    · obtain ⟨tasks', o, h, hw, hd, hok'⟩ :=
        editTaskLoop_sound hwf hd0 hok name hv k (j + 1) (by omega)
      exact ⟨tasks', o, by simp [editTaskLoop, ht, hname, h], hw, hd, hok'⟩

theorem step_sound {s : Store} (hs : Sound s) (op : Op) (hv : op.Valid s.numTasks) :
    ∃ s1, step s op = some s1 ∧ Sound s1 := by
  obtain ⟨hc, hok⟩ := hs
  cases op with
  | create count inputs =>
    obtain ⟨h1, h10, hlen, hval⟩ := hv
    obtain ⟨cand, n1, hcreate, hwf, hin, hres⟩ :=
      createGantt_spec s.tasks count inputs hc.1.1 h10 hlen hval
    refine ⟨{ tasks := cand, numTasks := n1 }, by simp [step, hcreate], ?_⟩
    rcases hres with ⟨_, _, h0⟩ | ⟨hd, _, hn⟩
    · subst h0
      exact ⟨⟨wf_zero hwf.1, detect_zero _⟩, storeOK_zero cand⟩
    · subst hn
      refine ⟨⟨hwf, hd⟩, storeOK_mk (by omega) h10 ?_⟩
      intro m t hm ht
      have hml : m < inputs.length := by omega
      obtain ⟨t', h1', hmatch⟩ := hin m inputs[m] (List.getElem?_eq_getElem hml)
      rw [ht] at h1'
      cases h1'
      exact taskOK_of_matches hmatch (hval _ (List.getElem_mem hml)) h10
  | edit taskToEdit input =>
    by_cases hn : s.numTasks = 0
    · refine ⟨s, ?_, hc, hok⟩
      obtain ⟨tasks, n⟩ := s
      simp only at hn
      subst hn
      rfl
    · obtain ⟨tasks', o, h, hw, hd, hok'⟩ :=
        editTaskLoop_sound hc.1 hc.2 ((forall_take_iff _ _ _).mp hok.2.2) taskToEdit hv
          s.numTasks.toNat 0 (by omega)
      exact ⟨{ tasks := tasks', numTasks := s.numTasks }, by simp [step, editTask, hn, h],
        ⟨hw, hd⟩, storeOK_mk hok.1 hok.2.1 hok'⟩

theorem run_sound : ∀ (ops : List Op) (s : Store), Sound s → ValidFrom s ops →
    ∃ s1, run s ops = some s1 ∧ Sound s1
  | [], s, hc, _ => ⟨s, rfl, hc⟩
  | op :: ops, s, hc, hv => by
    obtain ⟨s1, hs1, hc1⟩ := step_sound hc op hv.1
    have hv1 : ValidFrom s1 ops := by
      have := hv.2
      rw [hs1] at this
      exact this
    obtain ⟨s2, hs2, hc2⟩ := run_sound ops s1 hc1 hv1
    exact ⟨s2, by simp [run, hs1, hs2], hc2⟩

theorem depsOf_of_get {tasks : List Task} {k : Nat} {t : Task} (h : tasks[k]? = some t) :
    depsOf tasks (k : Int) = t.dependencies.take t.numDependencies.toNat := by
  have : rd tasks (k : Int) = some t := (rd_some_iff _ _ _).mpr ⟨Int.ofNat_nonneg k, by simpa using h⟩
  simp [depsOf, this]

theorem depsOf_agree {tasks ref : List Task} {k m : Nat} (hag : AgreeBelow tasks ref k)
    (hm : m < k) : depsOf tasks (m : Int) = depsOf ref (m : Int) := by
  obtain ⟨t, r, h1, h2, _, _, _, h3, h4⟩ := hag m hm
  rw [depsOf_of_get h1, depsOf_of_get h2, h3, h4]

/-- C13. Demo edit scenario: on the demo dataset (loaded into any task array),
editing task "Research" with validated new fields whose dependency list is the
single task number 3 ("Interior_design", index 2) closes the cycle 0 -> 2 -> 0:
the cycle check on the edited store returns 1, `editTask` ends with the rollback
message, and the store is unchanged; task 0 is still "Research", months 1..3,
without dependencies. -/
theorem demo_edit_rejected (tasks0 : List Task) (input : TaskInput) (hs : Shaped tasks0)
    (hv : input.Valid 10) (hdeps : input.depNums = [3]) :
    ∃ tasks t0 t1, loadTestTasks tasks0 = some (tasks, 10) ∧
      tasks[0]? = some t0 ∧ readTask t0 input = some t1 ∧
      depsOf (tasks.set 0 t1) 0 = [2] ∧
      HasCycle (tasks.set 0 t1) 10 ∧
      detectCircularDependency (tasks.set 0 t1) 10 = some 1 ∧
      editTask tasks 10 "Research" input = some (tasks, EditOutcome.reverted) ∧
      t0.name = "Research" ∧ t0.startMonth = 1 ∧ t0.endMonth = 3 ∧ t0.numDependencies = 0 ∧
      depsOf tasks 0 = [] := by
  obtain ⟨tasks, hload, hsh, hag⟩ := loadTestTasks_spec tasks0 hs
  have hwf : WellFormed tasks 10 := agree_wf hsh hag demo_wf
  obtain ⟨t0, r0, h0, hr0, hsame⟩ := hag 0 (by decide)
  have hr0' : r0 = demoTasks.getD 0 blankTask := by
    have : demoTasks[0]? = some (demoTasks.getD 0 blankTask) := by decide
    rw [this] at hr0
    exact (Option.some.inj hr0).symm
  have hname : t0.name = "Research" := by rw [hsame.1, hr0']; decide
  obtain ⟨t1, hread, hmatch, _, hwf1, hcases⟩ := editTask_found hwf "Research" hv
    (by decide : 0 < (10 : Int).toNat) h0 hname (fun j hj => absurd hj (Nat.not_lt_zero j))
  have hlen : 0 < tasks.length := (List.getElem?_eq_some_iff.mp h0).1
  have hd0 : depsOf (tasks.set 0 t1) 0 = [2] := by
    have hget : (tasks.set 0 t1)[0]? = some t1 := List.getElem?_set_self hlen
    have := depsOf_of_get hget
    rw [hmatch.2.2.2.1, Int.toNat_ofNat, hmatch.2.2.2.2, hdeps] at this
    simpa using this
  have hd2 : depsOf (tasks.set 0 t1) 2 = [0, 1] := by
    obtain ⟨t2, r2, h2, hr2, _, _, _, h3, h4⟩ := hag 2 (by decide)
    have hget : (tasks.set 0 t1)[2]? = some t2 := by
      rw [List.getElem?_set_ne (by decide)]
      exact h2
    have := depsOf_of_get hget
    rw [h3, h4] at this
    have hr2' : r2 = demoTasks.getD 2 blankTask := by
      have : demoTasks[2]? = some (demoTasks.getD 2 blankTask) := by decide
      rw [this] at hr2
      exact (Option.some.inj hr2).symm
    rw [hr2'] at this
    simpa using this
  have hcyc : HasCycle (tasks.set 0 t1) 10 := by
    have e02 : Edge (tasks.set 0 t1) 0 2 := by
      show (2 : Int) ∈ depsOf (tasks.set 0 t1) 0
      rw [hd0]
      decide
    have e20 : Edge (tasks.set 0 t1) 2 0 := by
      show (0 : Int) ∈ depsOf (tasks.set 0 t1) 2
      rw [hd2]
      decide
    exact ⟨0, by decide, by decide, Relation.TransGen.tail (Relation.TransGen.single e02) e20⟩
  have hdold : depsOf tasks 0 = [] := by
    have := depsOf_agree hag (by decide : 0 < 10)
    simp only [Nat.cast_zero] at this
    rw [this]
    decide
  rcases hcases with ⟨_, hno, _⟩ | ⟨hd, _, he⟩
  · exact absurd hcyc hno
  · refine ⟨tasks, t0, t1, hload, h0, hread, hd0, hcyc, hd, he, hname, ?_, ?_, ?_, hdold⟩
    · rw [hsame.2.1, hr0']; decide
    · rw [hsame.2.2.1, hr0']; decide
    · rw [hsame.2.2.2.1, hr0']; decide

theorem demo_edit_rejected_witness :
    ∃ tasks t0 t1, loadTestTasks blankTasks = some (tasks, 10) ∧
      tasks[0]? = some t0 ∧ readTask t0 researchEdit = some t1 ∧
      depsOf (tasks.set 0 t1) 0 = [2] ∧
      HasCycle (tasks.set 0 t1) 10 ∧
      detectCircularDependency (tasks.set 0 t1) 10 = some 1 ∧
      editTask tasks 10 "Research" researchEdit = some (tasks, EditOutcome.reverted) ∧
      t0.name = "Research" ∧ t0.startMonth = 1 ∧ t0.endMonth = 3 ∧ t0.numDependencies = 0 ∧
      depsOf tasks 0 = [] :=
  demo_edit_rejected blankTasks researchEdit (by decide) (by decide) (by decide)

/-! ## The count prompt of creation -/

theorem readIntInRange_range (min max : Int) :
    ∀ (entries : List (Option Int)) (x : Int) (rest : List (Option Int)),
      readIntInRange min max entries = some (x, rest) → min ≤ x ∧ x ≤ max
  | [], x, rest, h => by simp [readIntInRange] at h
  | none :: es, x, rest, h => by
    simp only [readIntInRange] at h
    exact readIntInRange_range min max es x rest h
  | some y :: es, x, rest, h => by
    simp only [readIntInRange] at h
    split at h
    · exact readIntInRange_range min max es x rest h
    · rename_i hy
      simp only [Option.some.injEq, Prod.mk.injEq] at h
      obtain ⟨rfl, _⟩ := h
      push_neg at hy
      exact hy

/-- C15 (counterexample). An empty spec list cannot be created: when 0 is typed
as the task count and nothing else, `createGantt` does not complete (the prompt
repeats); when 0 and then 1 are typed, the 0 is skipped and the store gets
`numOfTasks = 1`, not 0. -/
theorem create_refuses_zero :
    createGanttPrompt blankTasks [some 0] [] = none ∧
    (createGanttPrompt blankTasks [some 0, some 1] [⟨"a", 1, 1, []⟩]).map (fun p => p.2)
      = some 1 := by
  constructor <;> decide

/-- C15 (amended). The count that `createGantt` reads is in `1..10`, so a
creation never runs on an empty spec list: with the count read from the typed
entries, `createGantt` is the creation of `count >= 1` tasks.  On a store with
`numTasks = 0` `detectCircularDependency` returns 0 whatever the contents of the
task array. -/
theorem empty_create_boundary (tasks tasks' : List Task) (entries rest : List (Option Int))
    (inputs : List TaskInput) (count : Int)
    (h : readIntInRange 1 10 entries = some (count, rest)) :
    1 ≤ count ∧ count ≤ 10 ∧
    createGanttPrompt tasks entries inputs = createGantt tasks count inputs ∧
    detectCircularDependency tasks' 0 = some 0 := by
  have hr := readIntInRange_range 1 10 entries count rest h
  refine ⟨hr.1, hr.2, ?_, detect_zero tasks'⟩
  simp [createGanttPrompt, h]

theorem empty_create_boundary_witness :
    (1 : Int) ≤ 2 ∧ (2 : Int) ≤ 10 ∧
    createGanttPrompt blankTasks [some 0, none, some 2] twoInputs
      = createGantt blankTasks 2 twoInputs ∧
    detectCircularDependency demoTasks 0 = some 0 :=
  empty_create_boundary blankTasks demoTasks [some 0, none, some 2] [] twoInputs 2
    (by decide)

/-! ## Demo chain, single-node chain -/

theorem pathOver_congr {f g : Int → PathState → Option PathState} {n : Int}
    (h : ∀ d st, 0 ≤ d → d < n → f d st = g d st) :
    ∀ (deps : List Int) (st : PathState), pathOver f n deps st = pathOver g n deps st
  | [], st => rfl
  | d :: rest, st => by
    simp only [pathOver]
    split
    · rename_i hd
      rw [h d st hd.1 hd.2]
      simp only [Option.bind_eq_bind]
      congr 1
      funext s
      exact pathOver_congr h rest s
    · exact pathOver_congr h rest st

theorem findCriticalPath_congr {a b : List Task} {n : Int} (hwa : WellFormed a n)
    (hwb : WellFormed b n) (hd : ∀ i, depsOf a i = depsOf b i) :
    ∀ (fuel : Nat) (c len : Int) (st : PathState), 0 ≤ c → c < n →
      findCriticalPath a n fuel c len st = findCriticalPath b n fuel c len st
  | 0, _, _, _, _, _ => rfl
  | fuel + 1, c, len, st, hc0, hc1 => by
    obtain ⟨ta, hta, _, hna, hda, _⟩ := wf_task hwa hc0 hc1
    obtain ⟨tb, htb, _, hnb, hdb, _⟩ := wf_task hwb hc0 hc1
    have ih : ∀ d s, 0 ≤ d → d < n →
        (fun dep s => findCriticalPath a n fuel dep (len + 1) s) d s
          = (fun dep s => findCriticalPath b n fuel dep (len + 1) s) d s :=
      fun d s h0 h1 => findCriticalPath_congr hwa hwb hd fuel d (len + 1) s h0 h1
    have hla : ∀ s, findCriticalPathLoop
        (fun dep s => findCriticalPath a n fuel dep (len + 1) s) ta n
        ta.numDependencies.toNat 0 s
        = pathOver (fun dep s => findCriticalPath b n fuel dep (len + 1) s) n (depsOf b c) s := by
      intro s
      rw [findCriticalPathLoop_eq _ _ _ _ _ _ (by omega), List.drop_zero, ← hda, hd c]
      exact pathOver_congr ih _ s
    have hlb : ∀ s, findCriticalPathLoop
        (fun dep s => findCriticalPath b n fuel dep (len + 1) s) tb n
        tb.numDependencies.toNat 0 s
        = pathOver (fun dep s => findCriticalPath b n fuel dep (len + 1) s) n (depsOf b c) s := by
      intro s
      rw [findCriticalPathLoop_eq _ _ _ _ _ _ (by omega), List.drop_zero, ← hdb]
    simp only [findCriticalPath, hta, htb, hla, hlb, Option.bind_eq_bind, Option.some_bind]

theorem demoRun_eq : criticalPathRun demoTasks 10 9 = some demoRun := by decide

/-- C14. Demo longest-chain scenario: on the demo dataset (loaded into any task
array) the chain search from start index 9 ends with `maxLength = 7` and prints
the chain `[9,7,6,5,3,2,0]`, one of the two chains of length 7 named in the
scenario.  It is the one through task 0 because task 2 lists its dependencies in
the order `[0, 1]`: with the order `[1, 0]` (`demoSwapped`) the printed chain is
`[9,7,6,5,3,2,1]`. -/
theorem demo_longest_chain (tasks0 : List Task) (hs : Shaped tasks0) :
    ∃ tasks st path, loadTestTasks tasks0 = some (tasks, 10) ∧
      criticalPathRun tasks 10 9 = some st ∧ st.maxLength = 7 ∧
      testCriticalPath tasks 10 10 = some (path, 0) ∧
      path.length = 7 ∧
      (path = [9, 7, 6, 5, 3, 2, 1] ∨ path = [9, 7, 6, 5, 3, 2, 0]) ∧
      path = [9, 7, 6, 5, 3, 2, 0] ∧ depsOf tasks 2 = [0, 1] ∧
      depsOf demoSwapped 2 = [1, 0] ∧
      testCriticalPath demoSwapped 10 10 = some ([9, 7, 6, 5, 3, 2, 1], 0) := by
  obtain ⟨tasks, hload, hsh, hag⟩ := loadTestTasks_spec tasks0 hs
  have hwf : WellFormed tasks 10 := agree_wf hsh hag demo_wf
  have hdeps := agree_depsOf hsh demo_shaped hag
  have hrun : criticalPathRun tasks 10 9 = some demoRun := by
    rw [← demoRun_eq]
    exact findCriticalPath_congr hwf demo_wf hdeps _ 9 0 initPathState (by decide) (by decide)
  have hdet : detectCircularDependency tasks 10 = some 0 := by
    obtain ⟨tasks', hl, _, hd⟩ := loadTestTasks_inv tasks0 hs
    rw [hload] at hl
    simp only [Option.some.injEq, Prod.mk.injEq, and_true] at hl
    rw [hl]
    exact hd
  have hprint : printPath tasks demoRun.bestPath demoRun.maxLength.toNat 0
      = some [9, 7, 6, 5, 3, 2, 0] := by
    have := printPath_spec tasks demoRun.bestPath demoRun.maxLength.toNat 0 (by decide)
      (by
        intro x hx
        have hx' : 0 ≤ x ∧ x < 10 := by
          have hall : ∀ y ∈ (demoRun.bestPath.drop 0).take demoRun.maxLength.toNat,
              0 ≤ y ∧ y < 10 := by decide
          exact hall x hx
        obtain ⟨t, ht, _⟩ := wf_task hwf hx'.1 hx'.2
        exact ⟨t, ht⟩)
    rw [this]
    decide
  have hd2 : depsOf tasks 2 = [0, 1] := by
    rw [hdeps 2]
    decide
  refine ⟨tasks, demoRun, [9, 7, 6, 5, 3, 2, 0], hload, hrun, by decide, ?_, rfl,
    Or.inr rfl, rfl, hd2, by decide, by decide⟩
  have h10 : (10 : Int) - 1 = 9 := by decide
  simp [testCriticalPath, h10, hrun, hprint, hdet]

theorem demo_longest_chain_witness :
    ∃ tasks st path, loadTestTasks blankTasks = some (tasks, 10) ∧
      criticalPathRun tasks 10 9 = some st ∧ st.maxLength = 7 ∧
      testCriticalPath tasks 10 10 = some (path, 0) ∧
      path.length = 7 ∧
      (path = [9, 7, 6, 5, 3, 2, 1] ∨ path = [9, 7, 6, 5, 3, 2, 0]) ∧
      path = [9, 7, 6, 5, 3, 2, 0] ∧ depsOf tasks 2 = [0, 1] ∧
      depsOf demoSwapped 2 = [1, 0] ∧
      testCriticalPath demoSwapped 10 10 = some ([9, 7, 6, 5, 3, 2, 1], 0) :=
  demo_longest_chain blankTasks (by decide)

theorem goodPath_single {tasks : List Task} {n start : Int} {q : List Int}
    (hg : GoodPath tasks n start q) (hd : depsOf tasks start = []) : q = [start] := by
  obtain ⟨hhead, hch, _⟩ := hg
  cases q with
  | nil => cases hhead
  | cons a rest =>
    simp only [List.head?_cons, Option.some.injEq] at hhead
    subst hhead
    cases rest with
    | nil => rfl
    | cons b rest' =>
      rw [List.chain'_cons] at hch
      have : b ∈ depsOf tasks a := hch.1
      rw [hd] at this
      cases this

/-- C17. Single-node result: for a well-formed store and a start index `i`
below `numTasks` whose dependency list is empty, `findCriticalPath` ends with
`maxLength = 1` and `bestPath[0] = i`, and the chain printed by
`testCriticalPath` is exactly `[i]`. -/
theorem critical_path_single (tasks : List Task) (numTasks : Int) (i : Int)
    (hwf : WellFormed tasks numTasks) (h0 : 0 ≤ i) (h1 : i < numTasks)
    (hd : depsOf tasks i = []) :
    ∃ st r, criticalPathRun tasks numTasks i = some st ∧
      st.maxLength = 1 ∧ st.bestPath[0]? = some i ∧
      testCriticalPath tasks numTasks (i + 1) = some ([i], r) := by
  obtain ⟨st, r, hrun, htest, hlen, hgood, _⟩ := testCriticalPath_spec hwf i h0 h1
  have hp := goodPath_single hgood hd
  rw [hp] at htest hlen
  have hmax : st.maxLength = 1 := by
    simpa using hlen.symm
  refine ⟨st, r, hrun, hmax, ?_, htest⟩
  have h2 : (st.bestPath.take st.maxLength.toNat)[0]? = some i := by rw [hp]; rfl
  rw [List.getElem?_take] at h2
  split at h2
  · exact h2
  · cases h2

theorem critical_path_single_witness :
    ∃ st r, criticalPathRun demoTasks 10 8 = some st ∧
      st.maxLength = 1 ∧ st.bestPath[0]? = some 8 ∧
      testCriticalPath demoTasks 10 (8 + 1) = some ([8], r) :=
  critical_path_single demoTasks 10 8 (by decide) (by decide) (by decide) (by decide)

/-! ## The traced chain search logs the depth-first enumeration -/

theorem findCriticalPathLoopT_erase
    (callT : Nat → Int → PathState × List CallRecord → Option (PathState × List CallRecord))
    (call : Int → PathState → Option PathState)
    (h : ∀ i d st log, (callT i d (st, log)).map Prod.fst = call d st) (t : Task) (n : Int) :
    ∀ (k i : Nat) (st : PathState) (log : List CallRecord),
      (findCriticalPathLoopT callT t n k i (st, log)).map Prod.fst
        = findCriticalPathLoop call t n k i st
  | 0, _, _, _ => rfl
  | k + 1, i, st, log => by
    cases hd : t.dependencies[i]? with
    | none => simp [findCriticalPathLoopT, findCriticalPathLoop, hd]
    | some dep =>
      by_cases hv : 0 ≤ dep ∧ dep < n
      · have hc := h i dep st log
        cases hr : callT i dep (st, log) with
        | none =>
          rw [hr] at hc
          simp [findCriticalPathLoopT, findCriticalPathLoop, hd, hv, hr, ← hc]
        | some s1 =>
          obtain ⟨st1, log1⟩ := s1
          rw [hr] at hc
          have ih := findCriticalPathLoopT_erase callT call h t n k (i + 1) st1 log1
          simp only [Option.map_some'] at hc
          simp only [findCriticalPathLoopT, findCriticalPathLoop, hd, hv, hr, ← hc,
            Option.bind_eq_bind, Option.some_bind, and_self, if_true]
          exact ih
      · have ih := findCriticalPathLoopT_erase callT call h t n k (i + 1) st log
        simp only [findCriticalPathLoopT, findCriticalPathLoop, hd, hv,
          Option.bind_eq_bind, Option.some_bind, if_false]
        exact ih

theorem findCriticalPathT_erase (tasks : List Task) (n : Int) :
    ∀ (fuel : Nat) (js : List Nat) (c len : Int) (st : PathState) (log : List CallRecord),
      (findCriticalPathT tasks n fuel js c len (st, log)).map Prod.fst
        = findCriticalPath tasks n fuel c len st
  | 0, _, _, _, _, _ => rfl
  | fuel + 1, js, c, len, st, log => by
    cases hv : rd st.visited c with
    | none => simp [findCriticalPathT, findCriticalPath, hv]
    | some v =>
      by_cases hv0' : v ≠ 0
      · simp [findCriticalPathT, findCriticalPath, hv, hv0']
      · have hv0 : v = 0 := not_not.mp hv0'
        subst hv0
        cases hwv : wr st.visited c 1 with
        | none => simp [findCriticalPathT, findCriticalPath, hv, hwv]
        | some vis1 =>
          cases hwc : wr st.currentPath len c with
          | none => simp [findCriticalPathT, findCriticalPath, hv, hwv, hwc]
          | some cur1 =>
            cases hrec : recordBest { st with visited := vis1, currentPath := cur1 } (len + 1) with
            | none => simp [findCriticalPathT, findCriticalPath, hv, hwv, hwc, hrec]
            | some st2 =>
              cases ht : rd tasks c with
              | none => simp [findCriticalPathT, findCriticalPath, hv, hwv, hwc, hrec, ht]
              | some t =>
                have hl := findCriticalPathLoopT_erase
                  (fun i dep s => findCriticalPathT tasks n fuel (js ++ [i]) dep (len + 1) s)
                  (fun dep s => findCriticalPath tasks n fuel dep (len + 1) s)
                  (fun i d s l => findCriticalPathT_erase tasks n fuel (js ++ [i]) d (len + 1) s l)
                  t n t.numDependencies.toNat 0 st2
                  (log ++ [{ chainLength := len, current := c, positions := js,
                             path := cur1.take (len + 1).toNat }])
                cases hloop : findCriticalPathLoopT
                    (fun i dep s => findCriticalPathT tasks n fuel (js ++ [i]) dep (len + 1) s)
                    t n t.numDependencies.toNat 0
                    (st2, log ++ [{ chainLength := len, current := c, positions := js,
                                    path := cur1.take (len + 1).toNat }]) with
                | none =>
                  rw [hloop] at hl
                  simp only [Option.map_none'] at hl
                  simp [findCriticalPathT, findCriticalPath, hv, hwv, hwc, hrec, ht, hloop,
                    ← hl]
                | some s3 =>
                  obtain ⟨st3, log3⟩ := s3
                  rw [hloop] at hl
                  simp only [Option.map_some'] at hl
                  cases hw3 : wr st3.visited c 0 with
                  | none =>
                    simp [findCriticalPathT, findCriticalPath, hv, hwv, hwc, hrec, ht,
                      hloop, ← hl, hw3]
                  | some vis3 =>
                    simp [findCriticalPathT, findCriticalPath, hv, hwv, hwc, hrec, ht,
                      hloop, ← hl, hw3]

theorem mem_walksOver (sub : List Nat → Int → List (List Nat × List Int)) (js : List Nat)
    (e : List Nat × List Int) :
    ∀ (deps : List Int) (j : Nat),
      e ∈ walksOver sub js j deps ↔ ∃ k d, deps[k]? = some d ∧ e ∈ sub (js ++ [j + k]) d
  | [], j => by simp [walksOver]
  | d :: rest, j => by
    rw [walksOver, List.mem_append, mem_walksOver sub js e rest (j + 1)]
    constructor
    · rintro (h | ⟨k, d', hk, he⟩)
      · exact ⟨0, d, by simp, by simpa using h⟩
      · exact ⟨k + 1, d', by simpa using hk, by
          rw [show j + (k + 1) = j + 1 + k by omega]; exact he⟩
    · rintro ⟨k, d', hk, he⟩
      cases k with
      | zero =>
        simp at hk
        subst hk
        exact Or.inl (by simpa using he)
      | succ k =>
        refine Or.inr ⟨k, d', by simpa using hk, ?_⟩
        rw [show j + 1 + k = j + (k + 1) by omega]
        exact he

theorem walksFrom_sound (tasks : List Task) :
    ∀ (depth : Nat) (p : List Int) (js : List Nat) (c : Int) (e : List Nat × List Int),
      e ∈ walksFrom tasks depth p js c →
      ∃ ks w, e = (js ++ ks, p ++ w) ∧ follow tasks c ks = some w ∧
        (p.Nodup → (p ++ w).Nodup)
  | 0, _, _, _, _, h => by simp [walksFrom] at h
  | depth + 1, p, js, c, e, h => by
    simp only [walksFrom] at h
    split at h
    · cases h
    · rename_i hcp
      rcases List.mem_cons.mp h with rfl | h
      · refine ⟨[], [c], by simp, rfl, fun hp => ?_⟩
        rw [List.nodup_append]
        refine ⟨hp, List.nodup_singleton c, ?_⟩
        intro x hx hx'
        rw [List.mem_singleton] at hx'
        exact hcp (hx' ▸ hx)
      · rw [mem_walksOver] at h
        obtain ⟨k, d, hk, he⟩ := h
        obtain ⟨ks, w, rfl, hf, hnd⟩ := walksFrom_sound tasks depth (p ++ [c]) (js ++ [0 + k]) d e he
        refine ⟨k :: ks, c :: w, by simp, ?_, fun hp => ?_⟩
        · simp [follow, hk, hf]
        · have : (p ++ [c]).Nodup := by
            rw [List.nodup_append]
            refine ⟨hp, List.nodup_singleton c, ?_⟩
            intro x hx hx'
            rw [List.mem_singleton] at hx'
            exact hcp (hx' ▸ hx)
          simpa using hnd this

theorem follow_length (tasks : List Task) : ∀ (ks : List Nat) (c : Int) (w : List Int),
    follow tasks c ks = some w → w.length = ks.length + 1
  | [], c, w, h => by
    simp [follow] at h
    subst h
    rfl
  | k :: ks, c, w, h => by
    simp only [follow, Option.bind_eq_bind, Option.bind_eq_some, Option.pure_def,
      Option.some.injEq] at h
    obtain ⟨d, _, rest, hr, rfl⟩ := h
    simp [follow_length tasks ks d rest hr]

theorem walksFrom_complete (tasks : List Task) :
    ∀ (ks : List Nat) (depth : Nat) (p : List Int) (js : List Nat) (c : Int) (w : List Int),
      follow tasks c ks = some w → (p ++ w).Nodup → w.length ≤ depth →
      (js ++ ks, p ++ w) ∈ walksFrom tasks depth p js c
  | [], depth, p, js, c, w, hf, hnd, hd => by
    simp [follow] at hf
    subst hf
    cases depth with
    | zero => simp at hd
    | succ depth =>
      have hcp : c ∉ p := by
        intro h
        rw [List.nodup_append] at hnd
        exact hnd.2.2 h (List.mem_singleton_self c)
      simp [walksFrom, hcp]
  | k :: ks, depth, p, js, c, w, hf, hnd, hd => by
    simp only [follow, Option.bind_eq_bind, Option.bind_eq_some, Option.pure_def,
      Option.some.injEq] at hf
    obtain ⟨d, hk, rest, hr, rfl⟩ := hf
    cases depth with
    | zero => simp at hd
    | succ depth =>
      have hcp : c ∉ p := by
        intro h
        rw [List.nodup_append] at hnd
        exact hnd.2.2 h (List.mem_cons_self c rest)
      have hnd' : (p ++ [c] ++ rest).Nodup := by simpa using hnd
      have ih := walksFrom_complete tasks ks depth (p ++ [c]) (js ++ [k]) d rest hr hnd'
        (by simp at hd; omega)
      simp only [walksFrom, hcp, if_false]
      refine List.mem_cons_of_mem _ ?_
      rw [mem_walksOver]
      refine ⟨k, d, hk, ?_⟩
      simpa using ih

theorem posLt_extend (js : List Nat) (k : Nat) (ks : List Nat) : PosLt js (js ++ k :: ks) := by
  have h : List.Lex (fun x y : Nat => x < y) [] (k :: ks) := List.Lex.nil
  have := List.Lex.append_left (fun x y : Nat => x < y) h js
  simpa [PosLt] using this

theorem posLt_branch (js : List Nat) {j k : Nat} (h : j < k) (ks ks' : List Nat) :
    PosLt (js ++ j :: ks) (js ++ k :: ks') := by
  have h' : List.Lex (fun x y : Nat => x < y) (j :: ks) (k :: ks') := List.Lex.rel h
  exact List.Lex.append_left (fun x y : Nat => x < y) h' js

theorem posLt_asymm {a b : List Nat} (h : PosLt a b) : ¬ PosLt b a :=
  fun h' => (List.Lex.isAsymm (fun x y : Nat => x < y)).asymm a b h h'

theorem walksOver_sorted (sub : List Nat → Int → List (List Nat × List Int)) (js : List Nat)
    (hs : ∀ js1 d, (sub js1 d).Pairwise (fun a b => PosLt a.1 b.1))
    (hp : ∀ js1 d e, e ∈ sub js1 d → ∃ ks, e.1 = js1 ++ ks) :
    ∀ (deps : List Int) (j : Nat),
      (walksOver sub js j deps).Pairwise (fun a b => PosLt a.1 b.1)
  | [], _ => by simp [walksOver]
  | d :: rest, j => by
    rw [walksOver, List.pairwise_append]
    refine ⟨hs _ _, walksOver_sorted sub js hs hp rest (j + 1), ?_⟩
    intro a ha b hb
    obtain ⟨ks, hks⟩ := hp _ _ a ha
    rw [mem_walksOver] at hb
    obtain ⟨k, d', _, hb'⟩ := hb
    obtain ⟨ks', hks'⟩ := hp _ _ b hb'
    rw [hks, hks', List.append_assoc, List.append_assoc]
    exact posLt_branch js (by omega) ks ks'

theorem walksFrom_prefix (tasks : List Task) (depth : Nat) (p : List Int) (js : List Nat)
    (c : Int) (e : List Nat × List Int) (h : e ∈ walksFrom tasks depth p js c) :
    ∃ ks, e.1 = js ++ ks := by
  obtain ⟨ks, w, rfl, _, _⟩ := walksFrom_sound tasks depth p js c e h
  exact ⟨ks, rfl⟩

theorem walksFrom_sorted (tasks : List Task) :
    ∀ (depth : Nat) (p : List Int) (js : List Nat) (c : Int),
      (walksFrom tasks depth p js c).Pairwise (fun a b => PosLt a.1 b.1)
  | 0, _, _, _ => by simp [walksFrom]
  | depth + 1, p, js, c => by
    simp only [walksFrom]
    split
    · exact List.Pairwise.nil
    · rw [List.pairwise_cons]
      refine ⟨?_, walksOver_sorted _ js
        (fun js1 d => walksFrom_sorted tasks depth (p ++ [c]) js1 d)
        (fun js1 d e he => walksFrom_prefix tasks depth (p ++ [c]) js1 d e he) _ 0⟩
      intro b hb
      rw [mem_walksOver] at hb
      obtain ⟨k, d, _, hb'⟩ := hb
      obtain ⟨ks, hks⟩ := walksFrom_prefix tasks depth (p ++ [c]) _ d b hb'
      rw [hks, List.append_assoc]
      exact posLt_extend js _ ks

theorem foldl_keepLonger : ∀ (L : List (List Int)) (B R : List Int),
    L.foldl keepLonger B = R →
    (R = B ∧ ∀ q ∈ L, q.length ≤ B.length) ∨
    (∃ pre post, L = pre ++ R :: post ∧ B.length < R.length ∧
      (∀ q ∈ pre, q.length < R.length) ∧ (∀ q ∈ post, q.length ≤ R.length))
  | [], B, R, h => by
    simp at h
    exact Or.inl ⟨h.symm, by simp⟩
  | q :: L, B, R, h => by
    rw [List.foldl_cons] at h
    by_cases hq : q.length > B.length
    · have hk : keepLonger B q = q := by simp [keepLonger, hq]
      rw [hk] at h
      rcases foldl_keepLonger L q R h with ⟨hR, hall⟩ | ⟨pre, post, hL, hlt, hpre, hpost⟩
      · subst hR
        exact Or.inr ⟨[], L, rfl, hq, by simp, hall⟩
      · refine Or.inr ⟨q :: pre, post, by rw [hL]; rfl, by omega, ?_, hpost⟩
        intro x hx
        rcases List.mem_cons.mp hx with rfl | hx
        · exact hlt
        · exact hpre x hx
    · have hk : keepLonger B q = B := by simp [keepLonger, hq]
      rw [hk] at h
      rcases foldl_keepLonger L B R h with ⟨hR, hall⟩ | ⟨pre, post, hL, hlt, hpre, hpost⟩
      · refine Or.inl ⟨hR, ?_⟩
        intro x hx
        rcases List.mem_cons.mp hx with rfl | hx
        · omega
        · exact hall x hx
      · refine Or.inr ⟨q :: pre, post, by rw [hL]; rfl, hlt, ?_, hpost⟩
        intro x hx
        rcases List.mem_cons.mp hx with rfl | hx
        · omega
        · exact hpre x hx

theorem findCriticalPathLoopT_eq
    (call : Nat → Int → PathState × List CallRecord → Option (PathState × List CallRecord))
    (t : Task) (numOfTasks : Int) :
    ∀ (k i : Nat) (s : PathState × List CallRecord), i + k ≤ t.dependencies.length →
      findCriticalPathLoopT call t numOfTasks k i s
        = pathOverT call numOfTasks i ((t.dependencies.drop i).take k) s
  | 0, i, s, _ => by simp [findCriticalPathLoopT, pathOverT]
  | k + 1, i, s, h => by
    have hi : i < t.dependencies.length := by omega
    have ih := fun s' => findCriticalPathLoopT_eq call t numOfTasks k (i + 1) s' (by omega)
    rw [List.drop_eq_getElem_cons hi, List.take_succ_cons]
    simp only [findCriticalPathLoopT, pathOverT, List.getElem?_eq_getElem hi,
      Option.bind_eq_bind, Option.some_bind, ih]

theorem tcall_step {tasks : List Task} {n : Int} (hwf : WellFormed tasks n) (start : Int)
    {fuel : Nat} {js : List Nat} {c : Int} {p : List Int} {st st' : PathState}
    {log log' : List CallRecord} (hc0 : 0 ≤ c) (hc1 : c < n) (hinv : PathInv tasks n st p)
    (hch : List.Chain' (Edge tasks) (p ++ [c])) (hhead : (p ++ [c]).head? = some start)
    (hcount : st.visited.count 0 < fuel)
    (hT : findCriticalPathT tasks n fuel js c p.length (st, log) = some (st', log')) :
    PathStep tasks n start p.length st st' := by
  obtain ⟨st1, h1, hstep, _⟩ := findCriticalPath_spec hwf start fuel c p st hc0 hc1 hinv hch
    hhead hcount
  have he := findCriticalPathT_erase tasks n fuel js c p.length st log
  rw [hT, h1] at he
  simp only [Option.map_some', Option.some.injEq] at he
  rw [he]
  exact hstep

theorem bestOf_length {tasks : List Task} {n start : Int} {st : PathState}
    (hb : BestOK tasks n start st) (hl : st.bestPath.length = NO_OF_TASKS) :
    ((bestOf st).length : Int) = st.maxLength := by
  obtain ⟨h0, h10, _⟩ := hb
  unfold bestOf
  rw [List.length_take, hl]
  unfold NO_OF_TASKS
  omega

theorem recordBest_bestOf {tasks : List Task} {n start : Int} {st st2 : PathState}
    {p : List Int} (hinv : PathInv tasks n st p) (hb : BestOK tasks n start st)
    (hlen : p.length ≤ 10) (hrec : recordBest st p.length = some st2) :
    bestOf st2 = keepLonger (bestOf st) p := by
  have hbl := bestOf_length hb hinv.lenB
  by_cases hgt : (p.length : Int) > st.maxLength
  · obtain ⟨best', hcopy, _, htake⟩ := copyPath_spec st.currentPath st.bestPath p.length
      (by rw [hinv.lenC]; exact hlen) (by rw [hinv.lenB]; exact hlen)
    have h2 : recordBest st p.length
        = some { st with maxLength := p.length, bestPath := best' } := by
      simp [recordBest, hgt, hcopy]
    rw [h2] at hrec
    simp only [Option.some.injEq] at hrec
    subst hrec
    have hk : keepLonger (bestOf st) p = p := by
      unfold keepLonger
      rw [if_pos (by omega)]
    rw [hk]
    show best'.take (p.length : Int).toNat = p
    rw [Int.toNat_ofNat, htake, hinv.cur]
  · have h2 : recordBest st p.length = some st := by simp [recordBest, hgt]
    rw [h2] at hrec
    simp only [Option.some.injEq] at hrec
    subst hrec
    unfold keepLonger
    rw [if_neg (by omega)]

theorem pathOverT_spec {tasks : List Task} {n : Int} (hwf : WellFormed tasks n) {start : Int}
    {fuel : Nat} (ih : TraceSpec tasks n start fuel) (js : List Nat) (c : Int) (p : List Int)
    (hhead : (p ++ [c]).head? = some start) :
    ∀ (deps : List Int) (j : Nat) (st : PathState) (log : List CallRecord),
      (∀ d ∈ deps, 0 ≤ d ∧ d < n) → (∀ d ∈ deps, Edge tasks c d) →
      PathInv tasks n st (p ++ [c]) → st.visited.count 0 < fuel → BestOK tasks n start st →
      ∃ st', pathOverT
          (fun i dep s =>
            findCriticalPathT tasks n fuel (js ++ [i]) dep ((p.length : Int) + 1) s)
          n j deps (st, log)
          = some (st', log ++
              (walksOver (fun js1 d => walksFrom tasks fuel (p ++ [c]) js1 d) js j deps).map
                recOf) ∧
        bestOf st' =
          ((walksOver (fun js1 d => walksFrom tasks fuel (p ++ [c]) js1 d) js j deps).map
            Prod.snd).foldl keepLonger (bestOf st) ∧
        PathStep tasks n start (p.length + 1) st st' := by
  intro deps
  induction deps with
  | nil =>
    intro j st log _ _ _ _ _
    exact ⟨st, by simp [pathOverT, walksOver], by simp [walksOver], pathStep_refl st⟩
  | cons d rest ihl =>
    intro j st log hnode hedge hinv hcount hbest
    have hd := hnode d (List.mem_cons_self _ _)
    have hed := hedge d (List.mem_cons_self _ _)
    have hlen : (p ++ [c]).length = p.length + 1 := by simp
    have hch : List.Chain' (Edge tasks) (p ++ [c] ++ [d]) := by
      refine List.Chain'.append hinv.chain (List.chain'_singleton d) ?_
      intro x hx y hy
      simp at hx hy
      subst hx hy
      exact hed
    have hhead' : (p ++ [c] ++ [d]).head? = some start := by
      rw [List.head?_append_of_ne_nil _ (by simp)]
      exact hhead
    obtain ⟨st1, hcall, hfold⟩ :=
      ih (js ++ [j]) d (p ++ [c]) st log hd.1 hd.2 hinv hch hhead' hcount hbest
    have hstep := tcall_step hwf start hd.1 hd.2 hinv hch hhead' hcount hcall
    rw [hlen] at hcall hstep
    have hcall' : findCriticalPathT tasks n fuel (js ++ [j]) d ((p.length : Int) + 1) (st, log)
        = some (st1, log ++ (walksFrom tasks fuel (p ++ [c]) (js ++ [j]) d).map recOf) := by
      rw [← hcall]
      congr 1
    have hinv1 : PathInv tasks n st1 (p ++ [c]) := pathInv_step hinv (by rw [hlen]; exact hstep)
    obtain ⟨st', hrest, hfold', hstep'⟩ := ihl (j + 1) st1
      (log ++ (walksFrom tasks fuel (p ++ [c]) (js ++ [j]) d).map recOf)
      (fun x hx => hnode x (List.mem_cons_of_mem _ hx))
      (fun x hx => hedge x (List.mem_cons_of_mem _ hx)) hinv1 (by rw [hstep.vis]; exact hcount)
      (hstep.best hbest)
    refine ⟨st', ?_, ?_, pathStep_trans hstep hstep'⟩
    · simp only [pathOverT, hd.1, hd.2, and_self, if_true, hcall', Option.bind_eq_bind,
        Option.some_bind, hrest, walksOver, List.map_append, List.append_assoc]
    · rw [hfold', hfold]
      simp only [walksOver, List.map_append, List.foldl_append]

theorem recOf_push (js : List Nat) (p : List Int) (c : Int) :
    recOf (js, p ++ [c])
      = { chainLength := (p.length : Int), current := c, positions := js, path := p ++ [c] } := by
  simp [recOf]

theorem findCriticalPathT_spec {tasks : List Task} {n : Int} (hwf : WellFormed tasks n)
    (start : Int) : ∀ fuel, TraceSpec tasks n start fuel := by
  intro fuel
  induction fuel with
  | zero =>
    intro js c p st log _ _ _ _ _ hcount
    exact absurd hcount (Nat.not_lt_zero _)
  | succ fuel ih =>
    intro js c p st log hc0 hc1 hinv hchain hhead hcount hbest
    have hn := wf_le hwf
    obtain ⟨v, hv⟩ := rd_mark hinv.lenV hn hc0 hc1
    by_cases hv0 : v = 0
    · subst hv0
      have hcp : c ∉ p := fun h => not_marked_of_rd hv ((hinv.marks c).mpr h)
      have hnd : (p ++ [c]).Nodup := by
        rw [List.nodup_append]
        refine ⟨hinv.nodup, List.nodup_singleton c, ?_⟩
        intro x hx hx'
        rw [List.mem_singleton] at hx'
        exact hcp (hx' ▸ hx)
      have hnodes : ∀ x ∈ p ++ [c], 0 ≤ x ∧ x < n := by
        intro x hx
        rcases List.mem_append.mp hx with h | h
        · exact hinv.nodes x h
        · rw [List.mem_singleton] at h
          rw [h]
          exact ⟨hc0, hc1⟩
      have hlen1 : (p ++ [c]).length = p.length + 1 := by simp
      have hpl : p.length + 1 ≤ n.toNat := by
        have := nodup_length_le hnd hnodes
        rwa [hlen1] at this
      have hlv : c.toNat < st.visited.length := by rw [hinv.lenV]; unfold NO_OF_TASKS; omega
      have hlc : p.length < st.currentPath.length := by
        rw [hinv.lenC]; unfold NO_OF_TASKS; omega
      have hwv := wr_of_lt st.visited c 1 hc0 hlv
      have hwc := wr_nat st.currentPath p.length c hlc
      obtain ⟨t, ht, hlen_t, hnum, hdeps, hdn⟩ := wf_task hwf hc0 hc1
      obtain ⟨st1, hst1⟩ : ∃ st1 : PathState, st1 =
          { st with visited := st.visited.set c.toNat 1,
                    currentPath := st.currentPath.set p.length c } := ⟨_, rfl⟩
      have hinv1 : PathInv tasks n st1 (p ++ [c]) := by
        subst hst1
        refine ⟨by simpa using hinv.lenC, hinv.lenB, by simpa using hinv.lenV, ?_, ?_, hnd,
          hnodes, hchain⟩
        · show (st.currentPath.set p.length c).take (p ++ [c]).length = p ++ [c]
          rw [hlen1, set_take_succ _ _ _ hlc, hinv.cur]
        · intro i
          show Marked (st.visited.set c.toNat 1) i ↔ i ∈ p ++ [c]
          rw [marked_wr_iff hwv one_ne_zero, hinv.marks, List.mem_append, List.mem_singleton]
          exact or_comm
      have hbest1 : BestOK tasks n start st1 := by rw [hst1]; exact hbest
      have hbo1 : bestOf st1 = bestOf st := by rw [hst1]; rfl
      obtain ⟨st2, hrec, h2v, h2c, h2b, h2m, h2l, h2best⟩ :=
        recordBest_spec start hinv1 (by simp) hhead (by rw [hlen1]; omega)
      have hbo2 : bestOf st2 = keepLonger (bestOf st) (p ++ [c]) := by
        rw [← hbo1]
        exact recordBest_bestOf hinv1 hbest1 (by rw [hlen1]; omega) hrec
      rw [hlen1] at hrec
      have hrec' : recordBest st1 ((p.length : Int) + 1) = some st2 := by
        rw [← hrec]
        congr 1
      have hstep12 : PathStep tasks n start (p ++ [c]).length st1 st2 :=
        ⟨h2v, by rw [h2c], by rw [h2c], h2b, h2m, h2best⟩
      have hinv2 : PathInv tasks n st2 (p ++ [c]) := pathInv_step hinv1 hstep12
      have hv1 : st1.visited = st.visited.set c.toNat 1 := by rw [hst1]
      have hc1' : st1.currentPath = st.currentPath.set p.length c := by rw [hst1]
      have hcnt := count_wr hwv hv
      have hcount2 : st2.visited.count 0 < fuel := by
        rw [h2v, hv1]
        omega
      have hpath : (st.currentPath.set p.length c).take ((p.length : Int) + 1).toNat
          = p ++ [c] := by
        have h1 : ((p.length : Int) + 1).toNat = p.length + 1 := by omega
        rw [h1, set_take_succ _ _ _ hlc, hinv.cur]
      obtain ⟨st3, hloop, hfold3, hstep3⟩ := pathOverT_spec hwf ih js c p hhead
        (depsOf tasks c) 0 st2
        (log ++ [{ chainLength := (p.length : Int), current := c, positions := js,
                   path := p ++ [c] }])
        hdn (fun d hd => hd) hinv2 hcount2 (h2best hbest1)
      have heq : findCriticalPathLoopT
          (fun i dep s =>
            findCriticalPathT tasks n fuel (js ++ [i]) dep ((p.length : Int) + 1) s)
          t n t.numDependencies.toNat 0
          (st2, log ++ [{ chainLength := (p.length : Int), current := c, positions := js,
                          path := p ++ [c] }])
          = some (st3, (log ++ [{ chainLength := (p.length : Int), current := c,
                                  positions := js, path := p ++ [c] }]) ++
              (walksOver (fun js1 d => walksFrom tasks fuel (p ++ [c]) js1 d) js 0
                (depsOf tasks c)).map recOf) := by
        rw [findCriticalPathLoopT_eq _ _ _ _ _ _ (by omega), List.drop_zero, ← hdeps]
        exact hloop
      have hrestore : wr st3.visited c 0 = some st.visited := by
        rw [hstep3.vis, h2v, hv1]
        exact wr_restore hwv hv
      have hwalks : walksFrom tasks (fuel + 1) p js c
          = (js, p ++ [c]) ::
            walksOver (fun js1 d => walksFrom tasks fuel (p ++ [c]) js1 d) js 0
              (depsOf tasks c) := by
        simp only [walksFrom, hcp, if_false]
      refine ⟨{ st3 with visited := st.visited }, ?_, ?_⟩
      · simp only [findCriticalPathT, hv, hwv, hwc, hpath, ← hst1, hrec', ht, heq, hrestore,
          Option.bind_eq_bind, Option.some_bind, ne_eq, not_true_eq_false, if_false,
          Option.pure_def, hwalks, List.map_cons, recOf_push, List.append_assoc,
          List.singleton_append]
      · show bestOf st3 = _
        rw [hfold3, hbo2, hwalks]
        simp only [List.map_cons, List.foldl_cons]
    · have hcp : c ∈ p := (hinv.marks c).mp (marked_of_rd hv hv0)
      have hwalks : walksFrom tasks (fuel + 1) p js c = [] := by
        simp only [walksFrom, hcp, if_true]
      refine ⟨st, ?_, ?_⟩
      · simp [findCriticalPathT, hv, hv0, hwalks]
      · rw [hwalks]
        rfl

theorem follow_nodes {tasks : List Task} {n : Int} (hwf : WellFormed tasks n) :
    ∀ (ks : List Nat) (c : Int) (w : List Int), 0 ≤ c → c < n →
      follow tasks c ks = some w → ∀ x ∈ w, 0 ≤ x ∧ x < n
  | [], c, w, h0, h1, h => by
    simp [follow] at h
    subst h
    intro x hx
    rw [List.mem_singleton] at hx
    rw [hx]
    exact ⟨h0, h1⟩
  | k :: ks, c, w, h0, h1, h => by
    simp only [follow, Option.bind_eq_bind, Option.bind_eq_some, Option.pure_def,
      Option.some.injEq] at h
    obtain ⟨d, hk, rest, hr, rfl⟩ := h
    have hd := wf_edge hwf h0 h1 (List.getElem?_mem hk)
    intro x hx
    rcases List.mem_cons.mp hx with rfl | hx
    · exact ⟨h0, h1⟩
    · exact follow_nodes hwf ks d rest hd.1 hd.2 hr x hx

theorem follow_head (tasks : List Task) : ∀ (ks : List Nat) (c : Int) (w : List Int),
    follow tasks c ks = some w → w.head? = some c
  | [], c, w, h => by
    simp [follow] at h
    subst h
    rfl
  | k :: ks, c, w, h => by
    simp only [follow, Option.bind_eq_bind, Option.bind_eq_some, Option.pure_def,
      Option.some.injEq] at h
    obtain ⟨d, _, rest, _, rfl⟩ := h
    rfl

theorem follow_chain (tasks : List Task) : ∀ (ks : List Nat) (c : Int) (w : List Int),
    follow tasks c ks = some w → List.Chain' (Edge tasks) w
  | [], c, w, h => by
    simp [follow] at h
    subst h
    exact List.chain'_singleton c
  | k :: ks, c, w, h => by
    simp only [follow, Option.bind_eq_bind, Option.bind_eq_some, Option.pure_def,
      Option.some.injEq] at h
    obtain ⟨d, hk, rest, hr, rfl⟩ := h
    rw [List.chain'_cons']
    refine ⟨?_, follow_chain tasks ks d rest hr⟩
    intro y hy
    rw [follow_head tasks ks d rest hr] at hy
    cases hy
    exact List.getElem?_mem hk

theorem criticalPathRunT_spec {tasks : List Task} {n : Int} (hwf : WellFormed tasks n)
    (start : Int) (h0 : 0 ≤ start) (h1 : start < n) :
    ∃ st trace js, criticalPathRunT tasks n start = some (st, trace) ∧
      RunFacts tasks n start st trace js := by
  have hn := wf_le hwf
  have hcount : initPathState.visited.count 0 < NO_OF_TASKS + 1 := by
    simp [initPathState]
  have hbest0 : BestOK tasks n start initPathState :=
    ⟨le_refl _, by decide, fun h => absurd h (by decide)⟩
  obtain ⟨st, hT, hfold⟩ := findCriticalPathT_spec hwf start (NO_OF_TASKS + 1) [] start []
    initPathState [] h0 h1 (pathInv_init tasks n) (List.chain'_singleton start) rfl hcount
    hbest0
  obtain ⟨st', hrun, hlenB, hvis, _, _, _, _⟩ := criticalPathRun_spec hwf start h0 h1
  have he := findCriticalPathT_erase tasks n (NO_OF_TASKS + 1) [] start
    ((([] : List Int).length : Nat) : Int) initPathState []
  rw [hT] at he
  have hrun' : criticalPathRun tasks n start = some st := he.symm
  have hst : st' = st := by
    rw [hrun] at hrun'
    exact Option.some.inj hrun'
  subst hst
  have hstep := tcall_step hwf start h0 h1 (pathInv_init tasks n)
    (List.chain'_singleton start) rfl hcount hT
  have hmem : ∀ ks q, (ks, q) ∈ walksFrom tasks (NO_OF_TASKS + 1) [] [] start ↔
      (follow tasks start ks = some q ∧ q.Nodup) := by
    intro ks q
    constructor
    · intro h
      obtain ⟨ks', w, heq, hf, hnd⟩ := walksFrom_sound tasks _ _ _ _ _ h
      simp only [List.nil_append, Prod.mk.injEq] at heq
      obtain ⟨rfl, rfl⟩ := heq
      exact ⟨hf, by simpa using hnd List.nodup_nil⟩
    · rintro ⟨hf, hnd⟩
      have hnodes := follow_nodes hwf ks start q h0 h1 hf
      have hlen := nodup_length_le hnd hnodes
      have := walksFrom_complete tasks ks (NO_OF_TASKS + 1) [] [] start q hf
        (by simpa using hnd) (by unfold NO_OF_TASKS; omega)
      simpa using this
  have hb0 : bestOf initPathState = [] := rfl
  rw [hb0] at hfold
  have hstart : ([], [start]) ∈ walksFrom tasks (NO_OF_TASKS + 1) [] [] start :=
    (hmem [] [start]).mpr ⟨rfl, List.nodup_singleton start⟩
  rcases foldl_keepLonger _ _ _ hfold.symm with ⟨_, hall⟩ | ⟨pre, post, hL, _, hpre, hpost⟩
  · have := hall [start] (List.mem_map.mpr ⟨_, hstart, rfl⟩)
    simp at this
  · rw [List.map_eq_append_iff] at hL
    obtain ⟨preW, restW, hW, hpreW, hrestW⟩ := hL
    rw [List.map_eq_cons_iff] at hrestW
    obtain ⟨w, postW, hrest, hw, hpostW⟩ := hrestW
    obtain ⟨js, q⟩ := w
    simp only at hw
    subst hw
    refine ⟨st', _, js, hT, hrun', hvis, hlenB, bestOf_length (hstep.best hbest0) hlenB, by simp,
      hmem, preW, postW, by rw [hW, hrest], ?_, ?_⟩
    · intro a ha
      exact hpre a.2 (by rw [← hpreW]; exact List.mem_map.mpr ⟨a, ha, rfl⟩)
    · intro b hb
      exact hpost b.2 (by rw [← hpostW]; exact List.mem_map.mpr ⟨b, hb, rfl⟩)

/-! ## Tie-break, depth bound and safety of the chain search (C16, C18, C19) -/

theorem run_printed {tasks : List Task} {n : Int} (hwf : WellFormed tasks n) (start : Int)
    (h0 : 0 ≤ start) (h1 : start < n) {st : PathState}
    (hrun : criticalPathRun tasks n start = some st) :
    ∃ r, testCriticalPath tasks n (start + 1) = some (bestOf st, r) := by
  obtain ⟨st', r, hrun', htest, _⟩ := testCriticalPath_spec hwf start h0 h1
  rw [hrun] at hrun'
  have := Option.some.inj hrun'
  subst this
  exact ⟨r, htest⟩

theorem walk_facts {tasks : List Task} {n : Int} (hwf : WellFormed tasks n) {start : Int}
    (h0 : 0 ≤ start) (h1 : start < n) {ks : List Nat} {q : List Int}
    (hf : follow tasks start ks = some q) (hnd : q.Nodup) :
    1 ≤ q.length ∧ q.length ≤ n.toNat := by
  have hl := follow_length tasks ks start q hf
  exact ⟨by omega, nodup_length_le hnd (follow_nodes hwf ks start q h0 h1 hf)⟩

/-- C16. Tie-break by earliest discovery.  For a well-formed store and a start
index below `numTasks`: the calls of `findCriticalPath` that pass the `visited`
check (logged by `criticalPathRunT`, which computes the same final state) are
exactly the simple dependency paths from `start`, each with its sequence of
dependency-list positions, in increasing lexicographic order of the positions.
The printed path is the first logged path of the greatest length: every path
logged before it is strictly shorter and none logged after it is longer.
So it is a simple path of maximum length, and among the simple paths of that
length its position sequence is the lexicographically least. -/
theorem tie_break (tasks : List Task) (numTasks : Int) (start : Int)
    (hwf : WellFormed tasks numTasks) (h0 : 0 ≤ start) (h1 : start < numTasks) :
    ∃ st trace path r js,
      criticalPathRunT tasks numTasks start = some (st, trace) ∧
      criticalPathRun tasks numTasks start = some st ∧
      testCriticalPath tasks numTasks (start + 1) = some (path, r) ∧
      (∀ ks q, (∃ c ∈ trace, c.positions = ks ∧ c.path = q) ↔
        (follow tasks start ks = some q ∧ q.Nodup)) ∧
      trace.Pairwise (fun a b => PosLt a.positions b.positions) ∧
      (∃ pre post, trace = pre ++ recOf (js, path) :: post ∧
        (∀ a ∈ pre, a.path.length < path.length) ∧
        (∀ b ∈ post, b.path.length ≤ path.length)) ∧
      follow tasks start js = some path ∧ path.Nodup ∧
      (∀ ks q, follow tasks start ks = some q → q.Nodup →
        q.length ≤ path.length ∧ (q.length = path.length → ¬ PosLt ks js)) := by
  obtain ⟨st, trace, js, hT, hf⟩ := criticalPathRunT_spec hwf start h0 h1
  obtain ⟨r, htest⟩ := run_printed hwf start h0 h1 hf.run
  obtain ⟨pre, post, hW, hpre, hpost⟩ := hf.split
  have hsorted := walksFrom_sorted tasks (NO_OF_TASKS + 1) [] [] start
  have hbest : follow tasks start js = some (bestOf st) ∧ (bestOf st).Nodup := by
    rw [← hf.mem, hW]
    simp
  refine ⟨st, trace, bestOf st, r, js, hT, hf.run, htest, ?_, ?_, ?_, hbest.1, hbest.2, ?_⟩
  · intro ks q
    rw [← hf.mem, hf.walks]
    constructor
    · rintro ⟨c, hc, rfl, rfl⟩
      obtain ⟨w, hw, rfl⟩ := List.mem_map.mp hc
      exact hw
    · intro h
      exact ⟨recOf (ks, q), List.mem_map.mpr ⟨_, h, rfl⟩, rfl, rfl⟩
  · rw [hf.walks]
    exact List.Pairwise.map recOf (fun a b hab => hab) hsorted
  · refine ⟨pre.map recOf, post.map recOf, by rw [hf.walks, hW]; simp, ?_, ?_⟩
    · intro a ha
      obtain ⟨w, hw, rfl⟩ := List.mem_map.mp ha
      exact hpre w hw
    · intro b hb
      obtain ⟨w, hw, rfl⟩ := List.mem_map.mp hb
      exact hpost w hw
  · intro ks q hfol hnd
    have hmem : (ks, q) ∈ walksFrom tasks (NO_OF_TASKS + 1) [] [] start :=
      (hf.mem ks q).mpr ⟨hfol, hnd⟩
    rw [hW] at hmem hsorted
    rw [List.pairwise_append] at hsorted
    rcases List.mem_append.mp hmem with hm | hm
    · have := hpre _ hm
      exact ⟨le_of_lt this, fun heq => absurd heq (ne_of_lt this)⟩
    · rcases List.mem_cons.mp hm with heq | hm
      · simp only [Prod.mk.injEq] at heq
        obtain ⟨rfl, rfl⟩ := heq
        exact ⟨le_refl _, fun _ h => posLt_asymm h h⟩
      · have hlt : PosLt js ks := (List.pairwise_cons.mp hsorted.2.1).1 _ hm
        exact ⟨hpost _ hm, fun _ h => posLt_asymm hlt h⟩

theorem tie_break_witness :
    ∃ st trace path r js,
      criticalPathRunT demoTasks 10 9 = some (st, trace) ∧
      criticalPathRun demoTasks 10 9 = some st ∧
      testCriticalPath demoTasks 10 (9 + 1) = some (path, r) ∧
      (∀ ks q, (∃ c ∈ trace, c.positions = ks ∧ c.path = q) ↔
        (follow demoTasks 9 ks = some q ∧ q.Nodup)) ∧
      trace.Pairwise (fun a b => PosLt a.positions b.positions) ∧
      (∃ pre post, trace = pre ++ recOf (js, path) :: post ∧
        (∀ a ∈ pre, a.path.length < path.length) ∧
        (∀ b ∈ post, b.path.length ≤ path.length)) ∧
      follow demoTasks 9 js = some path ∧ path.Nodup ∧
      (∀ ks q, follow demoTasks 9 ks = some q → q.Nodup →
        q.length ≤ path.length ∧ (q.length = path.length → ¬ PosLt ks js)) :=
  tie_break demoTasks 10 9 (by decide) (by decide) (by decide)

/-- C18. Bounded depth and in-bounds path writes.  For a well-formed store
(cyclic or not) and a start index below `numTasks`, the chain search returns
(so every array access is inside its array); in every call of
`findCriticalPath` that passes the `visited` check (logged by
`criticalPathRunT`, which computes the same final state) the incoming
`chainLength` is at least 0 and below `numTasks`, hence below the capacity 10 of
`currentPath` and `bestPath`; and the final `maxLength` is at most `numTasks`. -/
theorem chain_depth_bounded (tasks : List Task) (numTasks : Int) (start : Int)
    (hwf : WellFormed tasks numTasks) (h0 : 0 ≤ start) (h1 : start < numTasks) :
    ∃ st trace,
      criticalPathRunT tasks numTasks start = some (st, trace) ∧
      criticalPathRun tasks numTasks start = some st ∧
      (∀ c ∈ trace, 0 ≤ c.chainLength ∧ c.chainLength < numTasks ∧
        c.chainLength < NO_OF_TASKS ∧ (c.path.length : Int) = c.chainLength + 1) ∧
      st.currentPath.length = NO_OF_TASKS ∧ st.bestPath.length = NO_OF_TASKS ∧
      st.maxLength ≤ numTasks := by
  have hn := wf_le hwf
  obtain ⟨st, trace, js, hT, hf⟩ := criticalPathRunT_spec hwf start h0 h1
  obtain ⟨pre, post, hW, _, _⟩ := hf.split
  have hstep := tcall_step hwf start h0 h1 (pathInv_init tasks numTasks)
    (List.chain'_singleton start) rfl (by simp [initPathState]) hT
  refine ⟨st, trace, hT, hf.run, ?_, ?_, hf.lenB, ?_⟩
  · intro c hc
    rw [hf.walks] at hc
    obtain ⟨w, hw, rfl⟩ := List.mem_map.mp hc
    obtain ⟨ks, q⟩ := w
    obtain ⟨hfol, hnd⟩ := (hf.mem ks q).mp hw
    have := walk_facts hwf h0 h1 hfol hnd
    simp only [recOf]
    unfold NO_OF_TASKS
    omega
  · rw [hstep.lenC]
    simp [initPathState]
  · have hbest : follow tasks start js = some (bestOf st) ∧ (bestOf st).Nodup := by
      rw [← hf.mem, hW]
      simp
    have := walk_facts hwf h0 h1 hbest.1 hbest.2
    have := hf.maxLen
    omega

theorem chain_depth_bounded_witness :
    ∃ st trace,
      criticalPathRunT twoCycleTasks 2 0 = some (st, trace) ∧
      criticalPathRun twoCycleTasks 2 0 = some st ∧
      (∀ c ∈ trace, 0 ≤ c.chainLength ∧ c.chainLength < 2 ∧
        c.chainLength < NO_OF_TASKS ∧ (c.path.length : Int) = c.chainLength + 1) ∧
      st.currentPath.length = NO_OF_TASKS ∧ st.bestPath.length = NO_OF_TASKS ∧
      st.maxLength ≤ 2 :=
  chain_depth_bounded twoCycleTasks 2 0 (by decide) (by decide) (by decide)

/-- C19. The chain search is safe on cyclic stores.  For a well-formed store
(with or without a cycle) and a start index below `numTasks`, the search
returns, the printed path contains no task index twice, and on return the array
`visited` is all zero again, as on entry. -/
theorem chain_search_safe (tasks : List Task) (numTasks : Int) (start : Int)
    (hwf : WellFormed tasks numTasks) (h0 : 0 ≤ start) (h1 : start < numTasks) :
    ∃ st path r,
      criticalPathRun tasks numTasks start = some st ∧
      testCriticalPath tasks numTasks (start + 1) = some (path, r) ∧
      path.Nodup ∧
      st.visited = initPathState.visited ∧
      st.visited = List.replicate NO_OF_TASKS 0 := by
  obtain ⟨st, trace, js, hT, hf⟩ := criticalPathRunT_spec hwf start h0 h1
  obtain ⟨r, htest⟩ := run_printed hwf start h0 h1 hf.run
  obtain ⟨pre, post, hW, _, _⟩ := hf.split
  have hbest : follow tasks start js = some (bestOf st) ∧ (bestOf st).Nodup := by
    rw [← hf.mem, hW]
    simp
  exact ⟨st, bestOf st, r, hf.run, htest, hbest.2, hf.visited, hf.visited⟩

theorem chain_search_safe_witness :
    HasCycle twoCycleTasks 2 ∧
    ∃ st path r,
      criticalPathRun twoCycleTasks 2 1 = some st ∧
      testCriticalPath twoCycleTasks 2 (1 + 1) = some (path, r) ∧
      path.Nodup ∧
      st.visited = initPathState.visited ∧
      st.visited = List.replicate NO_OF_TASKS 0 :=
  ⟨twoCycle_hasCycle, chain_search_safe twoCycleTasks 2 1 (by decide) (by decide) (by decide)⟩

/-! ## The traced cycle detection enters each task at most once -/

theorem isCyclicUtilLoopT_erase
    (callT : Int → CycleState × List Int → Option (Int × CycleState × List Int))
    (call : Int → CycleState → Option (Int × CycleState))
    (h : ∀ d st log, (callT d (st, log)).map eraseLog = call d st)
    (tasks : List Task) (current : Int) (t : Task) :
    ∀ (k i : Nat) (st : CycleState) (log : List Int),
      (isCyclicUtilLoopT callT tasks current t k i (st, log)).map eraseLog
        = isCyclicUtilLoop call tasks current t k i st
  | 0, _, _, _ => rfl
  | k + 1, i, st, log => by
    cases hd : t.dependencies[i]? with
    | none => simp [isCyclicUtilLoopT, isCyclicUtilLoop, hd]
    | some dep =>
      cases hv : rd st.visited dep with
      | none => simp [isCyclicUtilLoopT, isCyclicUtilLoop, hd, hv]
      | some v =>
        by_cases hv0 : v = 0
        · subst hv0
          have hc := h dep st log
          cases hr : callT dep (st, log) with
          | none =>
            rw [hr] at hc
            simp [isCyclicUtilLoopT, isCyclicUtilLoop, hd, hv, hr, ← hc]
          | some s1 =>
            obtain ⟨r, st1, log1⟩ := s1
            rw [hr] at hc
            simp only [Option.map_some', eraseLog] at hc
            by_cases hr0 : r = 0
            · subst hr0
              have ih := isCyclicUtilLoopT_erase callT call h tasks current t k (i + 1) st1 log1
              simp only [isCyclicUtilLoopT, isCyclicUtilLoop, hd, hv, hr, ← hc,
                Option.bind_eq_bind, Option.some_bind, if_true, ne_eq, not_true_eq_false,
                if_false]
              exact ih
            · cases he : reportEdge tasks current dep st1 with
              | none =>
                simp [isCyclicUtilLoopT, isCyclicUtilLoop, hd, hv, hr, ← hc, hr0, he]
              | some st2 =>
                simp [isCyclicUtilLoopT, isCyclicUtilLoop, hd, hv, hr, ← hc, hr0, he, eraseLog]
        · cases hs : rd st.recursionStack dep with
          | none => simp [isCyclicUtilLoopT, isCyclicUtilLoop, hd, hv, hv0, hs]
          | some s =>
            by_cases hs0 : s = 0
            · subst hs0
              have ih := isCyclicUtilLoopT_erase callT call h tasks current t k (i + 1) st log
              simp only [isCyclicUtilLoopT, isCyclicUtilLoop, hd, hv, hv0, hs,
                Option.bind_eq_bind, Option.some_bind, if_true, ne_eq, not_true_eq_false,
                if_false]
              exact ih
            · cases he : reportEdge tasks current dep st with
              | none =>
                simp [isCyclicUtilLoopT, isCyclicUtilLoop, hd, hv, hv0, hs, hs0, he]
              | some st2 =>
                simp [isCyclicUtilLoopT, isCyclicUtilLoop, hd, hv, hv0, hs, hs0, he, eraseLog]

theorem isCyclicUtilT_erase (tasks : List Task) (n : Int) :
    ∀ (fuel : Nat) (c : Int) (st : CycleState) (log : List Int),
      (isCyclicUtilT tasks n fuel c (st, log)).map eraseLog = isCyclicUtil tasks n fuel c st
  | 0, _, _, _ => rfl
  | fuel + 1, c, st, log => by
    cases hwv : wr st.visited c 1 with
    | none => simp [isCyclicUtilT, isCyclicUtil, hwv]
    | some vis1 =>
      cases hws : wr st.recursionStack c 1 with
      | none => simp [isCyclicUtilT, isCyclicUtil, hwv, hws]
      | some stk1 =>
        cases ht : rd tasks c with
        | none => simp [isCyclicUtilT, isCyclicUtil, hwv, hws, ht]
        | some t =>
          have hl := isCyclicUtilLoopT_erase (isCyclicUtilT tasks n fuel)
            (isCyclicUtil tasks n fuel) (fun d s l => isCyclicUtilT_erase tasks n fuel d s l)
            tasks c t t.numDependencies.toNat 0
            { st with visited := vis1, recursionStack := stk1 } (log ++ [c])
          cases hloop : isCyclicUtilLoopT (isCyclicUtilT tasks n fuel) tasks c t
              t.numDependencies.toNat 0
              ({ st with visited := vis1, recursionStack := stk1 }, log ++ [c]) with
          | none =>
            rw [hloop] at hl
            simp only [Option.map_none'] at hl
            simp [isCyclicUtilT, isCyclicUtil, hwv, hws, ht, hloop, ← hl]
          | some s3 =>
            obtain ⟨r, st3, log3⟩ := s3
            rw [hloop] at hl
            simp only [Option.map_some', eraseLog] at hl
            by_cases hr0 : r = 0
            · subst hr0
              cases hw3 : wr st3.recursionStack c 0 with
              | none => simp [isCyclicUtilT, isCyclicUtil, hwv, hws, ht, hloop, ← hl, hw3]
              | some stk3 =>
                simp [isCyclicUtilT, isCyclicUtil, hwv, hws, ht, hloop, ← hl, hw3, eraseLog]
            · simp [isCyclicUtilT, isCyclicUtil, hwv, hws, ht, hloop, ← hl, hr0, eraseLog]

theorem detectLoopT_erase (tasks : List Task) (n : Int) :
    ∀ (k i : Nat) (st : CycleState) (log : List Int),
      (detectLoopT tasks n k i (st, log)).map eraseLog = detectLoop tasks n k i st
  | 0, _, _, _ => rfl
  | k + 1, i, st, log => by
    cases hv : rd st.visited i with
    | none => simp [detectLoopT, detectLoop, hv]
    | some v =>
      by_cases hv0 : v = 0
      · subst hv0
        have hc := isCyclicUtilT_erase tasks n NO_OF_TASKS i st log
        cases hr : isCyclicUtilT tasks n NO_OF_TASKS i (st, log) with
        | none =>
          rw [hr] at hc
          simp [detectLoopT, detectLoop, hv, hr, ← hc]
        | some s1 =>
          obtain ⟨r, st1, log1⟩ := s1
          rw [hr] at hc
          simp only [Option.map_some', eraseLog] at hc
          by_cases hr0 : r = 0
          · subst hr0
            have ih := detectLoopT_erase tasks n k (i + 1) st1 log1
            simp only [detectLoopT, detectLoop, hv, hr, ← hc, Option.bind_eq_bind,
              Option.some_bind, if_true, ne_eq, not_true_eq_false, if_false]
            exact ih
          · simp [detectLoopT, detectLoop, hv, hr, ← hc, hr0, eraseLog]
      · have ih := detectLoopT_erase tasks n k (i + 1) st log
        simp only [detectLoopT, detectLoop, hv, hv0, Option.bind_eq_bind, Option.some_bind,
          if_false]
        exact ih

theorem detectRunT_erase (tasks : List Task) (n : Int) :
    (detectRunT tasks n).map eraseLog = detectRun tasks n :=
  detectLoopT_erase tasks n n.toNat 0 initCycleState []

theorem traceStep_refl {n : Int} {st : CycleState} {log : List Int} (h : TraceInv n st log) :
    TraceStep n st log 0 st log :=
  ⟨h, le_refl _, ⟨[], by simp⟩, Or.inl rfl⟩

theorem traceStep_trans {n : Int} {a b c : CycleState} {la lb lc : List Int} {r1 r2 : Int}
    (h1 : TraceStep n a la r1 b lb) (h2 : TraceStep n b lb r2 c lc) :
    TraceStep n a la r2 c lc := by
  obtain ⟨e1, he1⟩ := h1.ext
  obtain ⟨e2, he2⟩ := h2.ext
  exact ⟨h2.inv, le_trans h2.count h1.count, ⟨e1 ++ e2, by rw [he2, he1, List.append_assoc]⟩,
    h2.res⟩

theorem traceStep_report {n : Int} {st st' : CycleState} {log log' : List Int} {r : Int}
    (h : TraceStep n st log r st' log') (e : Int × Int) :
    TraceStep n st log 1 { st' with output := st'.output ++ [e] } log' :=
  ⟨⟨h.inv.lenV, h.inv.lenS, h.inv.nodup, h.inv.mem, h.inv.range⟩, h.count, h.ext, Or.inr rfl⟩

theorem isCyclicUtilLoopT_spec {tasks : List Task} {n : Int} (hwf : WellFormed tasks n)
    {fuel : Nat}
    (call : Int → CycleState × List Int → Option (Int × CycleState × List Int))
    (hcall : ∀ d st log, 0 ≤ d → d < n → rd st.visited d = some 0 → TraceInv n st log →
      st.visited.count 0 ≤ fuel →
      ∃ r st' log', call d (st, log) = some (r, st', log') ∧ TraceStep n st log r st' log')
    {c : Int} (hc0 : 0 ≤ c) (hc1 : c < n) {t : Task}
    (hlen : t.dependencies.length = NO_OF_TASKS)
    (hnum : t.numDependencies.toNat ≤ NO_OF_TASKS)
    (hdep : ∀ d ∈ t.dependencies.take t.numDependencies.toNat, 0 ≤ d ∧ d < n) :
    ∀ (k i : Nat) (st : CycleState) (log : List Int), i + k = t.numDependencies.toNat →
      TraceInv n st log → st.visited.count 0 ≤ fuel →
      ∃ r st' log', isCyclicUtilLoopT call tasks c t k i (st, log) = some (r, st', log') ∧
        TraceStep n st log r st' log' := by
  intro k
  induction k with
  | zero =>
    intro i st log _ hinv _
    exact ⟨0, st, log, rfl, traceStep_refl hinv⟩
  | succ k ih =>
    intro i st log hik hinv hcount
    have hi : i < t.dependencies.length := by omega
    have hd : t.dependencies[i]? = some t.dependencies[i] := List.getElem?_eq_getElem hi
    have hb : 0 ≤ t.dependencies[i] ∧ t.dependencies[i] < n := by
      apply hdep
      apply List.getElem?_mem (n := i)
      rw [List.getElem?_take_of_lt (by omega)]
      exact hd
    generalize t.dependencies[i] = dep at hd hb
    obtain ⟨v, hv⟩ := rd_mark hinv.lenV (wf_le hwf) hb.1 hb.2
    by_cases hv0 : v = 0
    · subst hv0
      obtain ⟨r, st1, log1, hc, hstep⟩ := hcall dep st log hb.1 hb.2 hv hinv hcount
      rcases hstep.res with hr | hr
      · subst hr
        obtain ⟨r', st', log', hrest, hstep'⟩ :=
          ih (i + 1) st1 log1 (by omega) hstep.inv (le_trans hstep.count hcount)
        exact ⟨r', st', log', by simp [isCyclicUtilLoopT, hd, hv, hc, hrest],
          traceStep_trans hstep hstep'⟩
      · subst hr
        exact ⟨1, _, log1,
          by simp [isCyclicUtilLoopT, hd, hv, hc, reportEdge_some hwf hc0 hc1 hb.1 hb.2],
          traceStep_report hstep (c, dep)⟩
    · obtain ⟨s, hs⟩ := rd_mark hinv.lenS (wf_le hwf) hb.1 hb.2
      by_cases hs0 : s = 0
      · subst hs0
        obtain ⟨r', st', log', hrest, hstep'⟩ := ih (i + 1) st log (by omega) hinv hcount
        exact ⟨r', st', log', by simp [isCyclicUtilLoopT, hd, hv, hv0, hs, hrest], hstep'⟩
      · exact ⟨1, _, log,
          by simp [isCyclicUtilLoopT, hd, hv, hv0, hs, hs0,
            reportEdge_some hwf hc0 hc1 hb.1 hb.2],
          traceStep_report (traceStep_refl hinv) (c, dep)⟩

theorem isCyclicUtilT_spec {tasks : List Task} {n : Int} (hwf : WellFormed tasks n) :
    ∀ (fuel : Nat) (c : Int) (st : CycleState) (log : List Int), 0 ≤ c → c < n →
      rd st.visited c = some 0 → TraceInv n st log → st.visited.count 0 ≤ fuel →
      ∃ r st' log', isCyclicUtilT tasks n fuel c (st, log) = some (r, st', log') ∧
        TraceStep n st log r st' log' := by
  intro fuel
  induction fuel with
  | zero =>
    intro c st log _ _ hv _ hcount
    have := count_pos_of_rd hv
    omega
  | succ fuel ih =>
    intro c st log hc0 hc1 hv hinv hcount
    have hn := wf_le hwf
    obtain ⟨t, ht, hlen, hnum, hdeps, hrange⟩ := wf_task hwf hc0 hc1
    have hcv : c.toNat < st.visited.length := by rw [hinv.lenV]; unfold NO_OF_TASKS; omega
    have hcs : c.toNat < st.recursionStack.length := by
      rw [hinv.lenS]; unfold NO_OF_TASKS; omega
    have hwv := wr_of_lt st.visited c 1 hc0 hcv
    have hws := wr_of_lt st.recursionStack c 1 hc0 hcs
    have hcnt := count_wr hwv hv
    have hinv0 : TraceInv n
        { st with visited := st.visited.set c.toNat 1,
                  recursionStack := st.recursionStack.set c.toNat 1 } (log ++ [c]) := by
      refine ⟨by simpa using hinv.lenV, by simpa using hinv.lenS, ?_, ?_, ?_⟩
      · rw [List.nodup_append]
        refine ⟨hinv.nodup, List.nodup_singleton c, ?_⟩
        intro x hx hx'
        rw [List.mem_singleton] at hx'
        subst hx'
        exact not_marked_of_rd hv ((hinv.mem x).mp hx)
      · intro x
        rw [List.mem_append, List.mem_singleton, marked_wr_iff hwv (by decide) x, hinv.mem x]
        tauto
      · intro x hx
        rcases List.mem_append.mp hx with hx | hx
        · exact hinv.range x hx
        · rw [List.mem_singleton] at hx
          subst hx
          exact ⟨hc0, hc1⟩
    obtain ⟨r, st1, log1, hloop, hstep⟩ :=
      isCyclicUtilLoopT_spec hwf (isCyclicUtilT tasks n fuel) ih hc0 hc1 hlen hnum
        (by rw [← hdeps]; exact hrange) t.numDependencies.toNat 0 _ _ (by omega) hinv0
        (by show (st.visited.set c.toNat 1).count 0 ≤ fuel; omega)
    have hext : ∃ e, log1 = log ++ e := by
      obtain ⟨e, he⟩ := hstep.ext
      exact ⟨[c] ++ e, by rw [he, List.append_assoc]⟩
    have hcount1 : st1.visited.count 0 ≤ st.visited.count 0 := by
      have := hstep.count
      have h2 : (st.visited.set c.toNat 1).count 0 ≤ st.visited.count 0 := by omega
      exact le_trans this h2
    rcases hstep.res with hr | hr
    · subst hr
      have hcs1 : c.toNat < st1.recursionStack.length := by
        rw [hstep.inv.lenS]; unfold NO_OF_TASKS; omega
      have hw1 := wr_of_lt st1.recursionStack c 0 hc0 hcs1
      refine ⟨0, { st1 with recursionStack := st1.recursionStack.set c.toNat 0 }, log1,
        by simp [isCyclicUtilT, hwv, hws, ht, hloop, hw1], ?_⟩
      exact ⟨⟨hstep.inv.lenV, by simpa using hstep.inv.lenS, hstep.inv.nodup, hstep.inv.mem,
        hstep.inv.range⟩, hcount1, hext, Or.inl rfl⟩
    · subst hr
      exact ⟨1, st1, log1, by simp [isCyclicUtilT, hwv, hws, ht, hloop],
        ⟨hstep.inv, hcount1, hext, Or.inr rfl⟩⟩

theorem detectLoopT_spec {tasks : List Task} {n : Int} (hwf : WellFormed tasks n) :
    ∀ (k i : Nat) (st : CycleState) (log : List Int), i + k = n.toNat → TraceInv n st log →
      ∃ r st' log', detectLoopT tasks n k i (st, log) = some (r, st', log') ∧
        TraceStep n st log r st' log' := by
  intro k
  induction k with
  | zero =>
    intro i st log _ hinv
    exact ⟨0, st, log, rfl, traceStep_refl hinv⟩
  | succ k ih =>
    intro i st log hik hinv
    have hi0 : (0 : Int) ≤ (i : Int) := Int.ofNat_nonneg i
    have hi1 : (i : Int) < n := by omega
    obtain ⟨v, hv⟩ := rd_mark hinv.lenV (wf_le hwf) hi0 hi1
    by_cases hv0 : v = 0
    · subst hv0
      have hcount : st.visited.count 0 ≤ NO_OF_TASKS := by
        rw [← hinv.lenV]
        exact List.count_le_length _ _
      obtain ⟨r, st1, log1, hcall, hstep⟩ :=
        isCyclicUtilT_spec hwf NO_OF_TASKS i st log hi0 hi1 hv hinv hcount
      rcases hstep.res with hr | hr
      · subst hr
        obtain ⟨r', st', log', hrest, hstep'⟩ := ih (i + 1) st1 log1 (by omega) hstep.inv
        exact ⟨r', st', log', by simp [detectLoopT, hv, hcall, hrest],
          traceStep_trans hstep hstep'⟩
      · subst hr
        exact ⟨1, st1, log1, by simp [detectLoopT, hv, hcall], hstep⟩
    · obtain ⟨r', st', log', hrest, hstep'⟩ := ih (i + 1) st log (by omega) hinv
      exact ⟨r', st', log', by simp [detectLoopT, hv, hv0, hrest], hstep'⟩

theorem traceInv_init (n : Int) : TraceInv n initCycleState [] :=
  ⟨rfl, rfl, List.nodup_nil, fun c => by
    simp only [List.not_mem_nil, false_iff]
    exact not_marked_replicate _ c, fun c hc => absurd hc (List.not_mem_nil c)⟩

theorem detectRunT_spec {tasks : List Task} {n : Int} (hwf : WellFormed tasks n) :
    ∃ r st log, detectRunT tasks n = some (r, st, log) ∧
      TraceStep n initCycleState [] r st log :=
  detectLoopT_spec hwf n.toNat 0 initCycleState [] (by omega) (traceInv_init n)

/-! ## Cycle detection stays in bounds (C20) -/

theorem detect_stray_index :
    Shaped strayTasks ∧ ¬ WellFormed strayTasks 1 ∧
      detectCircularDependency strayTasks 1 = none := by
  decide

/-- C20. Cycle detection stays in bounds on a well-formed store.  For a store
with `numTasks ≤ 10`, `numDependencies ≤ 10` and every dependency index in
`[0, numTasks)`, `detectCircularDependency` returns 0 or 1, so every read and
write of `tasks`, `visited` and `recursionStack` it and `isCyclicUtil` make is
inside the array (an access outside makes the run `none`, as on `strayTasks`).
The tasks on which `isCyclicUtil` is entered (logged by `detectRunT`, which
computes the same result and final marks) are pairwise distinct indices below
`numTasks`, so there are at most `numTasks` calls, and they are exactly the
tasks marked visited at the end. -/
theorem detect_in_bounds (tasks : List Task) (numTasks : Int)
    (hwf : WellFormed tasks numTasks) :
    ∃ r st entered,
      detectRunT tasks numTasks = some (r, st, entered) ∧
      detectRun tasks numTasks = some (r, st) ∧
      detectCircularDependency tasks numTasks = some r ∧
      (r = 0 ∨ r = 1) ∧
      entered.Nodup ∧
      (∀ c ∈ entered, 0 ≤ c ∧ c < numTasks) ∧
      entered.length ≤ numTasks.toNat ∧
      (∀ c, c ∈ entered ↔ Marked st.visited c) ∧
      st.visited.length = NO_OF_TASKS ∧ st.recursionStack.length = NO_OF_TASKS := by
  obtain ⟨r, st, log, hT, hstep⟩ := detectRunT_spec hwf
  have hrun : detectRun tasks numTasks = some (r, st) := by
    rw [← detectRunT_erase, hT]
    rfl
  have hlen := nodup_length_le hstep.inv.nodup hstep.inv.range
  refine ⟨r, st, log, hT, hrun, by simp [detectCircularDependency, hrun], hstep.res,
    hstep.inv.nodup, hstep.inv.range, hlen, hstep.inv.mem, hstep.inv.lenV, hstep.inv.lenS⟩

theorem detect_in_bounds_witness :
    ∃ r st entered,
      detectRunT demoTasks 10 = some (r, st, entered) ∧
      detectRun demoTasks 10 = some (r, st) ∧
      detectCircularDependency demoTasks 10 = some r ∧
      (r = 0 ∨ r = 1) ∧
      entered.Nodup ∧
      (∀ c ∈ entered, 0 ≤ c ∧ c < 10) ∧
      entered.length ≤ (10 : Int).toNat ∧
      (∀ c, c ∈ entered ↔ Marked st.visited c) ∧
      st.visited.length = NO_OF_TASKS ∧ st.recursionStack.length = NO_OF_TASKS :=
  detect_in_bounds demoTasks 10 (by decide)

/-! ## The store invariant on typed input (C12) -/

theorem readIntInRange_shorter (min max : Int) :
    ∀ (entries : List (Option Int)) (x : Int) (rest : List (Option Int)),
      readIntInRange min max entries = some (x, rest) → rest.length < entries.length
  | [], x, rest, h => by simp [readIntInRange] at h
  | none :: es, x, rest, h => by
    simp only [readIntInRange] at h
    have := readIntInRange_shorter min max es x rest h
    simp only [List.length_cons]
    omega
  | some y :: es, x, rest, h => by
    simp only [readIntInRange] at h
    split at h
    · have := readIntInRange_shorter min max es x rest h
      simp only [List.length_cons]
      omega
    · simp only [Option.some.injEq, Prod.mk.injEq] at h
      obtain ⟨_, rfl⟩ := h
      simp

theorem askInt_cases (min max : Int) (con : Console) :
    askInt min max con = Except.error Halt.waiting ∨
    ∃ x con', askInt min max con = Except.ok (x, con') ∧ min ≤ x ∧ x ≤ max ∧
      con'.words = con.words ∧ con'.numbers.length < con.numbers.length := by
  cases h : readIntInRange min max con.numbers with
  | none => exact Or.inl (by simp [askInt, h])
  | some p =>
    obtain ⟨x, rest⟩ := p
    have hr := readIntInRange_range min max _ x rest h
    have hs := readIntInRange_shorter min max _ x rest h
    exact Or.inr ⟨x, { con with numbers := rest }, by simp [askInt, h], hr.1, hr.2, rfl, hs⟩

theorem askEndMonth_cases (startMonth : Int) :
    ∀ (fuel : Nat) (con : Console),
      askEndMonth startMonth fuel con = Except.error Halt.waiting ∨
      ∃ x con', askEndMonth startMonth fuel con = Except.ok (x, con') ∧
        1 ≤ x ∧ x ≤ 12 ∧ startMonth ≤ x
  | 0, _ => Or.inl rfl
  | fuel + 1, con => by
    rcases askInt_cases 1 12 con with h | ⟨x, con1, h, h1, h12, _, _⟩
    · exact Or.inl (by simp [askEndMonth, h, bind, Except.bind])
    · by_cases hlt : x < startMonth
      · rcases askEndMonth_cases startMonth fuel con1 with h' | ⟨y, con2, h', hy⟩
        · exact Or.inl (by simp [askEndMonth, h, bind, Except.bind, hlt, h'])
        · exact Or.inr ⟨y, con2, by simp [askEndMonth, h, bind, Except.bind, hlt, h'], hy⟩
      · exact Or.inr ⟨x, con1, by simp [askEndMonth, h, bind, Except.bind, hlt, pure, Except.pure],
          h1, h12, by omega⟩

theorem askEndMonth_fuel (startMonth : Int) :
    ∀ (fuel : Nat) (con : Console), con.numbers.length < fuel →
      askEndMonth startMonth (fuel + 1) con = askEndMonth startMonth fuel con
  | 0, _, h => absurd h (Nat.not_lt_zero _)
  | fuel + 1, con, hlen => by
    rcases askInt_cases 1 12 con with h | ⟨x, con1, h, _, _, _, hs⟩
    · simp [askEndMonth, h, bind, Except.bind]
    · have ih := askEndMonth_fuel startMonth fuel con1 (by omega)
      rw [askEndMonth, askEndMonth]
      simp only [h, bind, Except.bind]
      split
      · exact ih
      · rfl

theorem askDependencies_cases (numOfTasks : Int) :
    ∀ (k j : Nat) (deps : List Int) (con : Console), j + k ≤ deps.length →
      askDependencies numOfTasks k j deps con = Except.error Halt.waiting ∨
      ∃ nums deps' con', nums.length = k ∧ (∀ d ∈ nums, 1 ≤ d ∧ d ≤ numOfTasks) ∧
        writeDependencies nums j deps = some deps' ∧
        askDependencies numOfTasks k j deps con = Except.ok (deps', con')
  | 0, j, deps, con, _ =>
    Or.inr ⟨[], deps, con, rfl, fun d hd => absurd hd (List.not_mem_nil d), rfl, rfl⟩
  | k + 1, j, deps, con, hlen => by
    rcases askInt_cases 1 numOfTasks con with h | ⟨x, con1, h, h1, hn, _, _⟩
    · exact Or.inl (by simp [askDependencies, h, bind, Except.bind])
    · have hw := wr_nat deps j (x - 1) (by omega)
      rcases askDependencies_cases numOfTasks k (j + 1) (deps.set j (x - 1)) con1
          (by simp; omega) with h' | ⟨nums, deps', con', hl, hall, hwd, h'⟩
      · exact Or.inl (by simp [askDependencies, h, bind, Except.bind, hw, orFault, h'])
      · refine Or.inr ⟨x :: nums, deps', con', by simp [hl], ?_, ?_, ?_⟩
        · intro d hd
          rcases List.mem_cons.mp hd with rfl | hd
          · exact ⟨h1, hn⟩
          · exact hall d hd
        · simp [writeDependencies, hw, hwd]
        · simp [askDependencies, h, bind, Except.bind, hw, orFault, h']

theorem scanWord_cases (con : Console) :
    scanWord con = Except.error Halt.waiting ∨
    ∃ w con', scanWord con = Except.ok (w, con') := by
  cases h : con.words with
  | nil => exact Or.inl (by simp [scanWord, h])
  | cons w ws => exact Or.inr ⟨w, { con with words := ws }, by simp [scanWord, h]⟩

theorem askTask_cases (numOfTasks : Int) (t : Task) (con : Console)
    (hlen : t.dependencies.length = NO_OF_TASKS) (hn : numOfTasks ≤ 10) :
    askTask numOfTasks t con = Except.error Halt.waiting ∨
    ∃ input t1 con', input.Valid numOfTasks ∧ readTask t input = some t1 ∧
      askTask numOfTasks t con = Except.ok (t1, con') := by
  rcases scanWord_cases con with h1 | ⟨name, con1, h1⟩
  · exact Or.inl (by simp [askTask, h1, bind, Except.bind])
  rcases askInt_cases 1 12 con1 with h2 | ⟨s, con2, h2, hs1, hs12, _, _⟩
  · exact Or.inl (by simp [askTask, h1, h2, bind, Except.bind])
  rcases askEndMonth_cases s (con2.numbers.length + 1) con2 with h3 | ⟨e, con3, h3, he1, he12, hse⟩
  · exact Or.inl (by simp [askTask, h1, h2, h3, bind, Except.bind])
  rcases askInt_cases 0 numOfTasks con3 with h4 | ⟨c, con4, h4, hc0, hcn, _, _⟩
  · exact Or.inl (by simp [askTask, h1, h2, h3, h4, bind, Except.bind])
  rcases askDependencies_cases numOfTasks c.toNat 0 t.dependencies con4
      (by rw [hlen]; unfold NO_OF_TASKS; omega) with h5 | ⟨nums, deps', con5, hl, hall, hwd, h5⟩
  · exact Or.inl (by simp [askTask, h1, h2, h3, h4, h5, bind, Except.bind])
  have hc : (nums.length : Int) = c := by rw [hl]; exact Int.toNat_of_nonneg hc0
  refine Or.inr ⟨⟨name, s, e, nums⟩, _, con5, ⟨hs1, hs12, he1, he12, hse, by show (nums.length : Int) ≤ numOfTasks; omega, hall⟩,
    by simp [readTask, hwd]; rfl, ?_⟩
  simp [askTask, h1, h2, h3, h4, h5, bind, Except.bind, pure, Except.pure, hc]

theorem readIntInRange_none (min max : Int) :
    ∀ (entries : List (Option Int)),
      readIntInRange min max entries = none ↔ ∀ x, some x ∈ entries → x < min ∨ max < x
  | [] => by simp [readIntInRange]
  | none :: es => by
    simp only [readIntInRange, readIntInRange_none min max es, List.mem_cons]
    constructor
    · intro h x hx
      rcases hx with hx | hx
      · cases hx
      · exact h x hx
    · intro h x hx
      exact h x (Or.inr hx)
  | some y :: es => by
    simp only [readIntInRange, List.mem_cons]
    split
    · rename_i hy
      rw [readIntInRange_none min max es]
      constructor
      · intro h x hx
        rcases hx with hx | hx
        · cases hx
          rcases hy with hy | hy
          · exact Or.inl hy
          · exact Or.inr hy
        · exact h x hx
      · intro h x hx
        exact h x (Or.inr hx)
    · rename_i hy
      constructor
      · intro h
        cases h
      · intro h
        rcases h y (Or.inl rfl) with h | h
        · exact absurd (Or.inl h) hy
        · exact absurd (Or.inr h) hy

theorem askInt_waiting (min max : Int) (con : Console) :
    askInt min max con = Except.error Halt.waiting ↔
      ∀ x, some x ∈ con.numbers → x < min ∨ max < x := by
  rw [← readIntInRange_none]
  cases h : readIntInRange min max con.numbers with
  | none => simp [askInt, h]
  | some p => simp [askInt, h]

theorem valid_zero_input {n : Int} (h0 : 0 ≤ n) : (⟨"", 1, 1, []⟩ : TaskInput).Valid n :=
  ⟨by decide, by decide, by decide, by decide, by decide, by simpa using h0,
    fun d hd => absurd hd (List.not_mem_nil d)⟩

theorem consoleCreateLoop_cases (numOfTasks : Int) (hn : numOfTasks ≤ 10) :
    ∀ (k i : Nat) (tasks : List Task) (con : Console), Shaped tasks → i + k ≤ NO_OF_TASKS →
      consoleCreateLoop numOfTasks k i tasks con = Except.error Halt.waiting ∨
      ∃ inputs tasks' con', inputs.length = k ∧ (∀ inp ∈ inputs, inp.Valid numOfTasks) ∧
        createGanttLoop k i inputs tasks = some tasks' ∧
        consoleCreateLoop numOfTasks k i tasks con = Except.ok (tasks', con')
  | 0, i, tasks, con, _, _ =>
    Or.inr ⟨[], tasks, con, rfl, fun d hd => absurd hd (List.not_mem_nil d), rfl, rfl⟩
  | k + 1, i, tasks, con, hs, hik => by
    have hi : i < tasks.length := by rw [hs.1]; omega
    have ht : tasks[i]? = some tasks[i] := List.getElem?_eq_getElem hi
    have hdl : tasks[i].dependencies.length = NO_OF_TASKS := hs.2 _ (List.getElem_mem hi)
    rcases askTask_cases numOfTasks tasks[i] con hdl hn with h | ⟨input, t1, con1, hv, hr, h⟩
    · exact Or.inl (by simp [consoleCreateLoop, ht, orFault, h, bind, Except.bind])
    · obtain ⟨t1', hr', _, hl1⟩ := readTask_spec tasks[i] input (by
        rw [hdl]; have := hv.2.2.2.2.2.1; unfold NO_OF_TASKS; omega)
      rw [hr] at hr'
      cases hr'
      rcases consoleCreateLoop_cases numOfTasks hn k (i + 1) (tasks.set i t1) con1
          (shaped_set hs i (hl1.trans hdl)) (by omega) with
        h' | ⟨inputs, tasks', con', hl, hall, hloop, h'⟩
      · exact Or.inl (by simp [consoleCreateLoop, ht, orFault, h, bind, Except.bind, h'])
      · refine Or.inr ⟨input :: inputs, tasks', con', by simp [hl], ?_, ?_, ?_⟩
        · intro inp hinp
          rcases List.mem_cons.mp hinp with rfl | hinp
          · exact hv
          · exact hall inp hinp
        · simp [createGanttLoop, ht, hr, hloop]
        · simp [consoleCreateLoop, ht, orFault, h, bind, Except.bind, h']

theorem consoleCreateGantt_cases (tasks : List Task) (con : Console) (hs : Shaped tasks)
    (m : Int) :
    consoleCreateGantt tasks con = Except.error Halt.waiting ∨
    ∃ count inputs tasks' n' con', (Op.create count inputs).Valid m ∧
      createGantt tasks count inputs = some (tasks', n') ∧
      consoleCreateGantt tasks con = Except.ok (tasks', n', con') := by
  rcases askInt_cases 1 10 con with h | ⟨count, con1, h, h1, h10, _, _⟩
  · exact Or.inl (by simp [consoleCreateGantt, h, bind, Except.bind])
  rcases consoleCreateLoop_cases count h10 count.toNat 0 tasks con1 hs
      (by unfold NO_OF_TASKS; omega) with h' | ⟨inputs, tasks1, con2, hl, hall, hloop, h'⟩
  · exact Or.inl (by simp [consoleCreateGantt, h, bind, Except.bind, h'])
  obtain ⟨cand, numTasks, hcreate, hwf, _, _⟩ :=
    createGantt_spec tasks count inputs hs h10 hl hall
  have hcand : cand = tasks1 := by
    simp only [createGantt, hloop, Option.bind_eq_bind, Option.some_bind] at hcreate
    cases hd : detectCircularDependency tasks1 count with
    | none => simp [hd] at hcreate
    | some r =>
      simp only [hd, Option.some_bind] at hcreate
      split at hcreate
      · simp only [pure, Option.some.injEq, Prod.mk.injEq] at hcreate
        exact hcreate.1.symm
      · simp only [pure, Option.some.injEq, Prod.mk.injEq] at hcreate
        exact hcreate.1.symm
  subst hcand
  refine Or.inr ⟨count, inputs, cand, numTasks, con2, ⟨h1, h10, hl, hall⟩, hcreate, ?_⟩
  simp only [createGantt, hloop, Option.bind_eq_bind, Option.some_bind] at hcreate
  rcases detect_cases hwf with ⟨hd, _⟩ | ⟨hd, _⟩
  · simp [hd] at hcreate
    subst hcreate
    simp [consoleCreateGantt, h, bind, Except.bind, h', hd, orFault, pure, Except.pure]
  · simp [hd] at hcreate
    subst hcreate
    simp [consoleCreateGantt, h, bind, Except.bind, h', hd, orFault, pure, Except.pure]

theorem consoleEditLoop_cases {tasks : List Task} {n : Int} (hwf : WellFormed tasks n)
    (h0 : 0 ≤ n) (name : String) :
    ∀ (k j : Nat) (con : Console), j + k ≤ n.toNat →
      consoleEditLoop n name k j tasks con = Except.error Halt.waiting ∨
      ∃ input tasks' o con', input.Valid n ∧
        editTaskLoop n name input k j tasks = some (tasks', o) ∧
        consoleEditLoop n name k j tasks con = Except.ok (tasks', o, con')
  | 0, j, con, _ =>
    Or.inr ⟨⟨"", 1, 1, []⟩, tasks, EditOutcome.notFound, con, valid_zero_input h0, rfl, rfl⟩
  | k + 1, j, con, hjk => by
    have hn := wf_le hwf
    have hj : j < tasks.length := by rw [hwf.1.1]; unfold NO_OF_TASKS; omega
    have ht : tasks[j]? = some tasks[j] := List.getElem?_eq_getElem hj
    by_cases hname : name = tasks[j].name
    · have hdl := (wf_get hwf (by omega) ht).1
      rcases askTask_cases n tasks[j] con hdl hn with h | ⟨input, t1, con1, hv, hr, h⟩
      · exact Or.inl (by simp [consoleEditLoop, ht, orFault, ← hname, h, bind, Except.bind])
      · obtain ⟨t1', hr', hmatch, hl1⟩ := readTask_spec tasks[j] input (by
          rw [hdl]; have := hv.2.2.2.2.2.1; unfold NO_OF_TASKS; omega)
        rw [hr] at hr'
        cases hr'
        have hm := matches_wf hmatch hv hn
        have hwf1 : WellFormed (tasks.set j t1) n := wf_set hwf j (hl1.trans hdl) hm.1 hm.2
        rcases detect_cases hwf1 with ⟨hd, _⟩ | ⟨hd, _⟩
        · exact Or.inr ⟨input, tasks.set j t1, EditOutcome.updated, con1, hv,
            by simp [editTaskLoop, ht, ← hname, hr, hd],
            by simp [consoleEditLoop, ht, orFault, ← hname, h, bind, Except.bind, hd, pure,
              Except.pure]⟩
        · exact Or.inr ⟨input, (tasks.set j t1).set j tasks[j], EditOutcome.reverted, con1, hv,
            by simp [editTaskLoop, ht, ← hname, hr, hd],
            by simp [consoleEditLoop, ht, orFault, ← hname, h, bind, Except.bind, hd, pure,
              Except.pure]⟩
    · rcases consoleEditLoop_cases hwf h0 name k (j + 1) con (by omega) with
        h | ⟨input, tasks', o, con', hv, he, h⟩
      · exact Or.inl (by simp [consoleEditLoop, ht, orFault, hname, h, bind, Except.bind])
      · exact Or.inr ⟨input, tasks', o, con', hv, by simp [editTaskLoop, ht, hname, he],
          by simp [consoleEditLoop, ht, orFault, hname, h, bind, Except.bind]⟩

theorem consoleEditTask_cases {tasks : List Task} {n : Int} (hwf : WellFormed tasks n)
    (h0 : 0 ≤ n) (con : Console) :
    consoleEditTask tasks n con = Except.error Halt.waiting ∨
    ∃ name input tasks' o con', input.Valid n ∧
      editTask tasks n name input = some (tasks', o) ∧
      consoleEditTask tasks n con = Except.ok (tasks', o, con') := by
  by_cases hn : n = 0
  · exact Or.inr ⟨"", ⟨"", 1, 1, []⟩, tasks, EditOutcome.noTasks, con, valid_zero_input h0,
      by simp [editTask, hn], by simp [consoleEditTask, hn, pure, Except.pure]⟩
  · rcases scanWord_cases con with h1 | ⟨name, con1, h1⟩
    · exact Or.inl (by simp [consoleEditTask, hn, h1, bind, Except.bind])
    · rcases consoleEditLoop_cases hwf h0 name n.toNat 0 con1 (by omega) with
        h | ⟨input, tasks', o, con', hv, he, h⟩
      · exact Or.inl (by simp [consoleEditTask, hn, h1, bind, Except.bind, h])
      · exact Or.inr ⟨name, input, tasks', o, con', hv, by simp [editTask, hn, he],
          by simp [consoleEditTask, hn, h1, bind, Except.bind, h]⟩

theorem consoleStep_cases {s : Store} (hs : Sound s) (c : Choice) (con : Console) :
    consoleStep s c con = Except.error Halt.waiting ∨
    ∃ op s' con', op.Valid s.numTasks ∧ step s op = some s' ∧
      consoleStep s c con = Except.ok (s', con') := by
  cases c with
  | create =>
    rcases consoleCreateGantt_cases s.tasks con hs.1.1.1 s.numTasks with
      h | ⟨count, inputs, tasks', n', con', hv, hc, h⟩
    · exact Or.inl (by simp [consoleStep, h, bind, Except.bind])
    · exact Or.inr ⟨Op.create count inputs, { tasks := tasks', numTasks := n' }, con', hv,
        by simp [step, hc], by simp [consoleStep, h, bind, Except.bind, pure, Except.pure]⟩
  | edit =>
    rcases consoleEditTask_cases hs.1.1 hs.2.1 con with
      h | ⟨name, input, tasks', o, con', hv, he, h⟩
    · exact Or.inl (by simp [consoleStep, h, bind, Except.bind])
    · exact Or.inr ⟨Op.edit name input, { tasks := tasks', numTasks := s.numTasks }, con', hv,
        by simp [step, he], by simp [consoleStep, h, bind, Except.bind, pure, Except.pure]⟩

theorem consoleRun_sound : ∀ (choices : List Choice) (s : Store) (con : Console), Sound s →
    consoleRun s choices con = Except.error Halt.waiting ∨
    ∃ s' con' ops, consoleRun s choices con = Except.ok (s', con') ∧ Sound s' ∧
      ops.length = choices.length ∧ ValidFrom s ops ∧ run s ops = some s'
  | [], s, con, hs => Or.inr ⟨s, con, [], rfl, hs, rfl, trivial, rfl⟩
  | c :: cs, s, con, hs => by
    rcases consoleStep_cases hs c con with h | ⟨op, s1, con1, hv, hstep, h⟩
    · exact Or.inl (by simp [consoleRun, h, bind, Except.bind])
    · obtain ⟨s1', hstep', hs1⟩ := step_sound hs op hv
      rw [hstep] at hstep'
      cases hstep'
      rcases consoleRun_sound cs s1 con1 hs1 with h' | ⟨s', con', ops, h', hs', hl, hvf, hrun⟩
      · exact Or.inl (by simp [consoleRun, h, bind, Except.bind, h'])
      · refine Or.inr ⟨s', con', op :: ops, by simp [consoleRun, h, bind, Except.bind, h'],
          hs', by simp [hl], ⟨hv, by rw [hstep]; exact hvf⟩, by simp [run, hstep, hrun]⟩

/-- C12. Store well-formedness invariant.  Start from the empty store or from
the demo dataset and run any finite sequence of `createGantt` and `editTask`
on any typed input, every number being read through `readIntInRange` and the
end month through the loop that asks again while it is before the start month.
The run never accesses an array outside its bounds: it either comes back or is
still waiting for input.  Whenever it comes back, the store has
`0 <= numTasks <= 10` and every task below `numTasks` has
`1 <= startMonth <= endMonth <= 12`, `0 <= numDependencies <= numTasks` and all
its dependency indices in `[0, numTasks)`. -/
theorem store_invariant (s0 : Store) (choices : List Choice) (con : Console)
    (hinit : Initial s0) :
    consoleRun s0 choices con ≠ Except.error Halt.fault ∧
    ∀ s con', consoleRun s0 choices con = Except.ok (s, con') →
      0 ≤ s.numTasks ∧ s.numTasks ≤ 10 ∧
      ∀ t ∈ s.tasks.take s.numTasks.toNat,
        1 ≤ t.startMonth ∧ t.startMonth ≤ t.endMonth ∧ t.endMonth ≤ 12 ∧
        0 ≤ t.numDependencies ∧ t.numDependencies ≤ s.numTasks ∧
        ∀ d ∈ t.dependencies.take t.numDependencies.toNat, 0 ≤ d ∧ d < s.numTasks := by
  rcases consoleRun_sound choices s0 con (initial_sound hinit) with
    h | ⟨s', con1, ops, h, hs', _⟩
  · rw [h]
    exact ⟨by simp, fun s con' hh => by simp at hh⟩
  · rw [h]
    refine ⟨by simp, fun s con' hh => ?_⟩
    simp only [Except.ok.injEq, Prod.mk.injEq] at hh
    obtain ⟨rfl, _⟩ := hh
    exact hs'.2

theorem store_invariant_witness :
    Initial demoStore ∧
    (consoleRun demoStore [Choice.edit, Choice.create] typedSession).toOption
      = some ({ tasks := typedTasks, numTasks := 2 }, { words := [], numbers := [] }) ∧
    consoleRun demoStore [Choice.edit, Choice.create] typedSession ≠ Except.error Halt.fault ∧
    ∀ s con', consoleRun demoStore [Choice.edit, Choice.create] typedSession
        = Except.ok (s, con') →
      0 ≤ s.numTasks ∧ s.numTasks ≤ 10 ∧
      ∀ t ∈ s.tasks.take s.numTasks.toNat,
        1 ≤ t.startMonth ∧ t.startMonth ≤ t.endMonth ∧ t.endMonth ≤ 12 ∧
        0 ≤ t.numDependencies ∧ t.numDependencies ≤ s.numTasks ∧
        ∀ d ∈ t.dependencies.take t.numDependencies.toNat, 0 ≤ d ∧ d < s.numTasks :=
  ⟨demoStore_initial, by decide,
    store_invariant demoStore [Choice.edit, Choice.create] typedSession demoStore_initial⟩

end Gantt
